import Mathlib

/-!
# gohisto: the histogram engine of `main.go`

A shallow embedding of `NewHistogram`, `Histogram.Fill`, `Histogram.Percentiles`
and `Histogram.BinCenter`, of the entries total of `Histogram.PrintStats`, and of
`parseContents` and `line`.

Modelling choices.

* A finite `float64` value is the rational (`ℚ`) it denotes.  NaN and the
  infinities occur as results of operations (`F64`), not among the submitted
  values, and the two zeros are one.
* The arithmetic of the index of `Fill` and of `BinCenter` is given twice.
  `binIndex`, `fillValue`, `Fill` and `BinCenter` compute in exact arithmetic, with
  an unbounded `Int` for Go's `int` and `truncToInt` dropping the fractional part;
  they carry the results that rest on the two guards of `Fill`, on the order of
  the samples or on integer arithmetic, and they agree with the machine wherever
  its operations are exact.  `quotientF64`, `binIndexF64`, `fillValueF64`, `FillF64`
  and `BinCenterF64` compute as the machine does: every operation is rounded to
  binary64, to nearest with ties to even (`roundF64`), division by zero gives an
  infinity or NaN, and the conversion to `int` truncates and, where the result
  does not fit 64 bits, yields a value left to the implementation, a parameter of
  the model.  What a claim says about the place of a value relative to the bin
  edges is settled on these.
* The library calls `strconv.ParseFloat` and `fmt.Sprintf` are parameters of the
  functions that use them; `sort.Float64s` is an ascending sort.
* A method with a pointer receiver becomes a function from the state before to
  the state after.  An index expression outside the bounds of its slice is a
  run-time panic in Go; such a method returns `Except.error` with the index
  and the length of the slice.
-/

namespace Gohisto

/-- The run-time panic the program can raise: a slice indexed outside its bounds. -/
inductive Fault where
  | indexOutOfRange (index : Int) (len : Nat)
  deriving DecidableEq, Repr

/-- The `Histogram` struct, field by field. -/
structure Histogram where
  data : List ℚ
  nBins : Int
  lowBin : ℚ
  highBin : ℚ
  Bins : List Int
  underflow : Int
  overflow : Int
  Title : String
  deriving DecidableEq

/-- The loop `for i := 0; i < nBins; i++ { bins = append(bins, 0) }`: `todo` is the
number of iterations still to run. -/
def appendZeros : Nat → List Int → List Int
  | 0, bins => bins
  | todo + 1, bins => appendZeros todo (bins ++ [0])

/-- The constructor `NewHistogram`.  The loop body runs `nBins` times when `nBins`
is positive and not at all otherwise. -/
def NewHistogram (title : String) (nBins : Int) (lowBin highBin : ℚ) : Histogram :=
  { data := []
    nBins := nBins
    lowBin := lowBin
    highBin := highBin
    Bins := appendZeros nBins.toNat []
    underflow := 0
    overflow := 0
    Title := title }

/-- The conversion `int(x)` of a float whose result fits the `int`: the fractional
part is dropped. -/
def truncToInt (x : ℚ) : Int :=
  if 0 ≤ x then ⌊x⌋ else ⌈x⌉

/-- The expression `int(float64(h.nBins) * (val - h.lowBin) / (h.highBin - h.lowBin))`
in exact arithmetic. -/
def binIndex (h : Histogram) (val : ℚ) : Int :=
  truncToInt ((h.nBins : ℚ) * (val - h.lowBin) / (h.highBin - h.lowBin))

/-- One iteration of the loop of `Fill`, with the index of exact arithmetic: the
value is appended to `data`, then one of `underflow`, `overflow` or
`Bins[binIndex]` is incremented. -/
def fillValue (h : Histogram) (val : ℚ) : Except Fault Histogram :=
  let h1 : Histogram := { h with data := h.data ++ [val] }
  let idx := binIndex h1 val
  if idx < 0 then
    .ok { h1 with underflow := h1.underflow + 1 }
  else if idx ≥ h1.nBins then
    .ok { h1 with overflow := h1.overflow + 1 }
  else
    match h1.Bins[idx.toNat]? with
    | none => .error (Fault.indexOutOfRange idx h1.Bins.length)
    | some count => .ok { h1 with Bins := h1.Bins.set idx.toNat (count + 1) }

/-- The method `Fill`: the values are processed in order. -/
def Fill (h : Histogram) (values : List ℚ) : Except Fault Histogram :=
  values.foldlM fillValue h

/-- The call `sort.Float64s`: the slice is put in ascending order. -/
def sortFloat64s (xs : List ℚ) : List ℚ :=
  xs.insertionSort (· ≤ ·)

/-- The index expression `h.data[k]` with an `int` index. -/
def indexData (data : List ℚ) (k : Int) : Except Fault ℚ :=
  if k < 0 then .error (Fault.indexOutOfRange k data.length)
  else
    match data[k.toNat]? with
    | none => .error (Fault.indexOutOfRange k data.length)
    | some x => .ok x

/-- The loop of `Percentiles`, `todo` iterations before its end, at loop variable `i`:
`percentiles = append(percentiles, h.data[entries*(i+1)/10-1])`.  Go's integer
division truncates toward zero. -/
def percentilesLoop (data : List ℚ) (entries : Int) :
    Nat → Int → List ℚ → Except Fault (List ℚ)
  | 0, _, percentiles => .ok percentiles
  | todo + 1, i, percentiles =>
    match indexData data (Int.tdiv (entries * (i + 1)) 10 - 1) with
    | .error e => .error e
    | .ok x => percentilesLoop data entries todo (i + 1) (percentiles ++ [x])

/-- The method `Percentiles`: sorts `data` in place and reads ten of its elements.
The result is the returned slice together with the state after the call. -/
def Percentiles (h : Histogram) : Except Fault (List ℚ × Histogram) :=
  let h1 : Histogram := { h with data := sortFloat64s h.data }
  let entries : Int := h1.data.length
  match percentilesLoop h1.data entries 10 0 [] with
  | .error e => .error e
  | .ok percentiles => .ok (percentiles, h1)

/-- The method `BinCenter` in exact arithmetic. -/
def BinCenter (h : Histogram) (binIndex : Int) : ℚ :=
  ((binIndex : ℚ) + 1 / 2) * (h.highBin - h.lowBin) / (h.nBins : ℚ) + h.lowBin

/-- The samples `1, 2, ..., 100`. -/
def oneToHundred : List ℚ :=
  (List.range 100).map (fun (k : Nat) => (k : ℚ) + 1)

/-- A histogram state holding ten samples, not in order. -/
def tenSamples : Histogram :=
  { data := [7, 3, 9, 1, 10, 4, 2, 8, 6, 5]
    nBins := 10
    lowBin := 1 / 2
    highBin := 21 / 2
    Bins := [2, 1, 1, 1, 1, 1, 1, 1, 1, 0]
    underflow := 0
    overflow := 0
    Title := "Title" }

/-- The sum of all bin counts. -/
def sumBins (h : Histogram) : Int :=
  h.Bins.sum

/-- The width of one bin, `(highBin - lowBin) / nBins`. -/
def binWidth (h : Histogram) : ℚ :=
  (h.highBin - h.lowBin) / (h.nBins : ℚ)

/-- The state of a histogram whose `Bins` slice has `nBins` entries, as every
histogram built by `NewHistogram` and filled by `Fill` has. -/
def WellFormed (h : Histogram) : Prop :=
  (h.Bins.length : Int) = h.nBins

instance (h : Histogram) : Decidable (WellFormed h) := by
  unfold WellFormed; infer_instance

/-- From `h` to `h2` the count of bin `k` went up by exactly one, every other bin
kept its count, and `underflow` and `overflow` are unchanged. -/
def IncrementsOnlyBin (h h2 : Histogram) (k : Nat) : Prop :=
  (∃ c, h.Bins[k]? = some c ∧ h2.Bins[k]? = some (c + 1)) ∧
  (∀ j, j ≠ k → h2.Bins[j]? = h.Bins[j]?) ∧
  h2.Bins.length = h.Bins.length ∧
  h2.underflow = h.underflow ∧ h2.overflow = h.overflow

/-- The configuration fields `Title`, `nBins`, `lowBin` and `highBin` agree. -/
def SameConfig (h h2 : Histogram) : Prop :=
  h2.Title = h.Title ∧ h2.nBins = h.nBins ∧ h2.lowBin = h.lowBin ∧ h2.highBin = h.highBin

/-- From `h` to `h2` only `overflow` went up, by exactly one. -/
def IncrementsOnlyOverflow (h h2 : Histogram) : Prop :=
  h2.overflow = h.overflow + 1 ∧ h2.Bins = h.Bins ∧ h2.underflow = h.underflow

/-- From `h` to `h2` only `underflow` went up, by exactly one. -/
def IncrementsOnlyUnderflow (h h2 : Histogram) : Prop :=
  h2.underflow = h.underflow + 1 ∧ h2.Bins = h.Bins ∧ h2.overflow = h.overflow

/-- The state of a histogram whose `Bins` slice has `max(nBins, 0)` entries, as
`NewHistogram` builds it for every integer `nBins`. -/
def BinsFit (h : Histogram) : Prop :=
  h.Bins.length = h.nBins.toNat

/-- The first loop of `PrintStats`, `entries += bin` over `h.Bins` from `entries = 0`:
the number printed after `entries:`. -/
def printStatsEntries (h : Histogram) : Int :=
  h.Bins.foldl (fun entries bin => entries + bin) 0

/-- One iteration of the loop of `parseContents`.  The library call
`strconv.ParseFloat(row[column], 64)` is the parameter `parseFloat`, with `none` for
a non-nil error; a row too short for `column` is an index fault. -/
def parseRow (parseFloat : String → Option ℚ) (column : Int) (data : List ℚ)
    (row : List String) : Except Fault (List ℚ) :=
  if column < 0 then .error (Fault.indexOutOfRange column row.length)
  else
    match row[column.toNat]? with
    | none => .error (Fault.indexOutOfRange column row.length)
    | some field =>
      match parseFloat field with
      | none => .ok data
      | some entry => .ok (data ++ [entry])

/-- The function `parseContents`: the rows are read in order, from `data = []`. -/
def parseContents (parseFloat : String → Option ℚ) (contents : List (List String))
    (column : Int) : Except Fault (List ℚ) :=
  contents.foldlM (parseRow parseFloat column) []

/-- The text appended for a filled cell of a bar: the block glyph between the two
colour escapes. -/
def blockCell : String :=
  "\x1B[31;1m" ++ "\u2588" ++ "\x1B[0m"

/-- The text appended for an empty cell of a bar. -/
def blankCell : String :=
  " "

/-- The loop of `line`, `todo` iterations before its end, at loop variable `i`. -/
def lineLoop (fill : Int) : Nat → Int → String → String
  | 0, _, line => line
  | todo + 1, i, line =>
    lineLoop fill todo (i + 1) (if i ≤ fill then line ++ blockCell else line ++ blankCell)

/-- The function `line`.  The call `fmt.Sprintf("%.1e|", label)` is the parameter
`sprintf`; the loop runs `width` times when `width` is positive. -/
def line (sprintf : ℚ → String) (width fill : Int) (label : ℚ) : String :=
  lineLoop fill width.toNat 0 (sprintf label)

/-- The values of the end-to-end example of the specification. -/
def exampleValues : List ℚ :=
  [1, 1, 11 / 2, 11, -3]

/-- The histogram of `main`, ten bins over `[1/2, 21/2)`, holding the given samples
and counters. -/
def mainHistogram (data : List ℚ) (Bins : List Int) (underflow overflow : Int) : Histogram :=
  { data := data
    nBins := 10
    lowBin := 1 / 2
    highBin := 21 / 2
    Bins := Bins
    underflow := underflow
    overflow := overflow
    Title := "Title" }

/-- A stand-in for `strconv.ParseFloat` that accepts the two texts `1.5` and `4`. -/
def sampleParseFloat (field : String) : Option ℚ :=
  if field = "1.5" then some (3 / 2) else if field = "4" then some 4 else none

/-- A table of three rows, the middle one with a second field that is not a number. -/
def sampleContents : List (List String) :=
  [["a", "1.5"], ["b", "x", "7"], ["c", "4"]]

/-- A bar of `filled` block cells followed by `blank` empty cells, cell by cell. -/
def barCells (filled blank : Nat) : List String :=
  List.replicate filled blockCell ++ List.replicate blank blankCell

/-- The index expression `entries*(i+1)/10-1` of the loop of `Percentiles`. -/
def percentileIndex (entries i : Int) : Int :=
  Int.tdiv (entries * (i + 1)) 10 - 1

/-- The condition under which one iteration of `Fill` does not index `Bins` out of
bounds: the value goes to `underflow`, or to `overflow`, or its index is inside
`Bins`. -/
def IndexInBounds (h : Histogram) (v : ℚ) : Prop :=
  binIndex h v < 0 ∨ h.nBins ≤ binIndex h v ∨ (binIndex h v).toNat < h.Bins.length

/-- The result of a `float64` operation: a finite value, given as the rational it
denotes, an infinity or NaN.  The two zeros are not told apart. -/
inductive F64 where
  | fin (x : ℚ)
  | posInf
  | negInf
  | nan
  deriving DecidableEq

/-- The integer nearest to `y`, the even one of the two when `y` is half way. -/
def roundHalfEven (y : ℚ) : Int :=
  if y - ⌊y⌋ < 1 / 2 then ⌊y⌋
  else if 1 / 2 < y - ⌊y⌋ then ⌊y⌋ + 1
  else if ⌊y⌋ % 2 = 0 then ⌊y⌋ else ⌊y⌋ + 1

/-- The exponent of the last place of the `float64` format at `x > 0`: 52 places
below the leading bit of `x`, and never below `-1074` (the subnormal range). -/
def ulpExponent (x : ℚ) : Int :=
  max (Int.log 2 x - 52) (-1074)

/-- The `float64` nearest to `x > 0`, ties to even; `+Inf` from `2^1024` on. -/
def roundPos (x : ℚ) : F64 :=
  if (2 : ℚ) ^ (1024 : Int) ≤ (roundHalfEven (x / 2 ^ ulpExponent x) : ℚ) * 2 ^ ulpExponent x then
    F64.posInf
  else
    F64.fin ((roundHalfEven (x / 2 ^ ulpExponent x) : ℚ) * 2 ^ ulpExponent x)

/-- The negation of a `float64`. -/
def F64.neg : F64 → F64
  | .fin x => .fin (-x)
  | .posInf => .negInf
  | .negInf => .posInf
  | .nan => .nan

/-- The rounding of IEEE-754 binary64 arithmetic, round to nearest with ties to
even: every `float64` operation on finite operands returns `roundF64` of the exact
result. -/
def roundF64 (x : ℚ) : F64 :=
  if x = 0 then F64.fin 0
  else if 0 < x then roundPos x
  else (roundPos (-x)).neg

/-- The `float64` addition. -/
def F64.add : F64 → F64 → F64
  | .nan, _ => .nan
  | _, .nan => .nan
  | .fin a, .fin b => roundF64 (a + b)
  | .posInf, .negInf => .nan
  | .negInf, .posInf => .nan
  | .posInf, _ => .posInf
  | _, .posInf => .posInf
  | .negInf, _ => .negInf
  | _, .negInf => .negInf

/-- The `float64` multiplication. -/
def F64.mul : F64 → F64 → F64
  | .nan, _ => .nan
  | _, .nan => .nan
  | .fin a, .fin b => roundF64 (a * b)
  | .fin a, .posInf => if a = 0 then .nan else if 0 < a then .posInf else .negInf
  | .fin a, .negInf => if a = 0 then .nan else if 0 < a then .negInf else .posInf
  | .posInf, .fin b => if b = 0 then .nan else if 0 < b then .posInf else .negInf
  | .negInf, .fin b => if b = 0 then .nan else if 0 < b then .negInf else .posInf
  | .posInf, .posInf => .posInf
  | .posInf, .negInf => .negInf
  | .negInf, .posInf => .negInf
  | .negInf, .negInf => .posInf

/-- The `float64` division.  A zero divisor is the positive zero. -/
def F64.div : F64 → F64 → F64
  | .nan, _ => .nan
  | _, .nan => .nan
  | .fin a, .fin b =>
    if b = 0 then (if a = 0 then .nan else if 0 < a then .posInf else .negInf)
    else roundF64 (a / b)
  | .fin _, .posInf => .fin 0
  | .fin _, .negInf => .fin 0
  | .posInf, .fin b => if 0 ≤ b then .posInf else .negInf
  | .negInf, .fin b => if 0 ≤ b then .negInf else .posInf
  | .posInf, .posInf => .nan
  | .posInf, .negInf => .nan
  | .negInf, .posInf => .nan
  | .negInf, .negInf => .nan

/-- The conversion `int(x)` of a `float64` to the 64-bit `int`: the fractional part
is dropped.  When the result does not fit, or `x` is an infinity or NaN, Go leaves
the value to the implementation; it is `outOfRange x`. -/
def intOfF64 (outOfRange : F64 → Int) : F64 → Int
  | .fin x =>
    if -(2 : Int) ^ 63 ≤ truncToInt x ∧ truncToInt x < (2 : Int) ^ 63 then truncToInt x
    else outOfRange (.fin x)
  | x => outOfRange x

/-- The quotient `float64(h.nBins) * (val - h.lowBin) / (h.highBin - h.lowBin)` as the
machine computes it, every operation rounded. -/
def quotientF64 (h : Histogram) (val : ℚ) : F64 :=
  F64.div (F64.mul (roundF64 (h.nBins : ℚ)) (roundF64 (val - h.lowBin)))
    (roundF64 (h.highBin - h.lowBin))

/-- The expression `int(float64(h.nBins) * (val - h.lowBin) / (h.highBin - h.lowBin))`
as the machine computes it. -/
def binIndexF64 (outOfRange : F64 → Int) (h : Histogram) (val : ℚ) : Int :=
  intOfF64 outOfRange (quotientF64 h val)

/-- One iteration of the loop of `Fill`, with the index as the machine computes it. -/
def fillValueF64 (outOfRange : F64 → Int) (h : Histogram) (val : ℚ) :
    Except Fault Histogram :=
  let h1 : Histogram := { h with data := h.data ++ [val] }
  let idx := binIndexF64 outOfRange h1 val
  if idx < 0 then
    .ok { h1 with underflow := h1.underflow + 1 }
  else if idx ≥ h1.nBins then
    .ok { h1 with overflow := h1.overflow + 1 }
  else
    match h1.Bins[idx.toNat]? with
    | none => .error (Fault.indexOutOfRange idx h1.Bins.length)
    | some count => .ok { h1 with Bins := h1.Bins.set idx.toNat (count + 1) }

/-- The method `Fill`, with the index as the machine computes it. -/
def FillF64 (outOfRange : F64 → Int) (h : Histogram) (values : List ℚ) :
    Except Fault Histogram :=
  values.foldlM (fillValueF64 outOfRange) h

/-- The method `BinCenter` as the machine computes it,
`(float64(binIndex)+.5)*(h.highBin-h.lowBin)/float64(h.nBins) + h.lowBin`. -/
def BinCenterF64 (h : Histogram) (binIndex : Int) : F64 :=
  F64.add
    (F64.div
      (F64.mul (F64.add (roundF64 (binIndex : ℚ)) (.fin (1 / 2)))
        (roundF64 (h.highBin - h.lowBin)))
      (roundF64 (h.nBins : ℚ)))
    (.fin h.lowBin)

/-- The quotient of `Fill` in exact arithmetic. -/
def exactQuotient (h : Histogram) (val : ℚ) : ℚ :=
  (h.nBins : ℚ) * (val - h.lowBin) / (h.highBin - h.lowBin)

/-- The machine computes the quotient of `Fill` for `val` without rounding error,
and the quotient fits the 64-bit `int`. -/
def QuotientExact (h : Histogram) (val : ℚ) : Prop :=
  quotientF64 h val = .fin (exactQuotient h val) ∧
  -(2 : Int) ^ 63 ≤ truncToInt (exactQuotient h val) ∧
  truncToInt (exactQuotient h val) < (2 : Int) ^ 63

/-- The value an out-of-range conversion to `int` has on amd64. -/
def amd64OutOfRange : F64 → Int :=
  fun _ => -(2 : Int) ^ 63

/-- The `float64` written `0.3`, which is `5404319552844595 / 2^54`, just below
`3/10`. -/
def float03 : ℚ :=
  5404319552844595 / 18014398509481984

/-- The `float64` written `0.7`, which is `3152519739159347 / 2^52`. -/
def float07 : ℚ :=
  3152519739159347 / 4503599627370496

/-- The `float64` written `-0.49999999999999994`, which is `-(2^53 - 1) / 2^54`, the
one next to `-1/2` toward zero. -/
def floatAboveMinusHalf : ℚ :=
  -(9007199254740991 / 18014398509481984)

/-! ## The loop of `NewHistogram` -/

theorem appendZeros_eq (todo : Nat) (bins : List Int) :
    appendZeros todo bins = bins ++ List.replicate todo 0 := by
  induction todo generalizing bins with
  | zero => simp [appendZeros]
  | succ k ih =>
    rw [appendZeros, ih, List.append_assoc]
    rfl

theorem NewHistogram_Bins (title : String) (nBins : Int) (lowBin highBin : ℚ) :
    (NewHistogram title nBins lowBin highBin).Bins = List.replicate nBins.toNat 0 := by
  simp [NewHistogram, appendZeros_eq]

theorem NewHistogram_wellFormed (title : String) (nBins : Int) (lowBin highBin : ℚ)
    (hn : 0 ≤ nBins) : WellFormed (NewHistogram title nBins lowBin highBin) := by
  unfold WellFormed
  rw [NewHistogram_Bins]
  simp [NewHistogram, Int.toNat_of_nonneg hn]

/-! ## The conversion to `int` -/

theorem truncToInt_neg_iff (x : ℚ) : truncToInt x < 0 ↔ x ≤ -1 := by
  unfold truncToInt
  split_ifs with hx
  · constructor
    · intro h
      have : (0 : Int) ≤ ⌊x⌋ := Int.floor_nonneg.mpr hx
      omega
    · intro h
      linarith
  · have hlt : ⌈x⌉ < 0 ↔ ⌈x⌉ ≤ -1 := by omega
    rw [hlt, Int.ceil_le]
    simp

theorem le_truncToInt_iff (x : ℚ) (m : Int) (hm : 0 < m) : m ≤ truncToInt x ↔ (m : ℚ) ≤ x := by
  unfold truncToInt
  split_ifs with hx
  · exact Int.le_floor
  · have hx0 : x < 0 := lt_of_not_ge hx
    have hm0 : (0 : ℚ) < (m : ℚ) := by exact_mod_cast hm
    have hc : ⌈x⌉ ≤ 0 := by
      rw [Int.ceil_le]
      simpa using hx0.le
    constructor
    · intro h
      omega
    · intro h
      linarith

theorem truncToInt_eq_of_mem (x : ℚ) (i : Int) (hi : 0 ≤ i) (h1 : (i : ℚ) ≤ x)
    (h2 : x < (i : ℚ) + 1) : truncToInt x = i := by
  have hi0 : (0 : ℚ) ≤ (i : ℚ) := by exact_mod_cast hi
  have hx : 0 ≤ x := le_trans hi0 h1
  unfold truncToInt
  rw [if_pos hx, Int.floor_eq_iff]
  exact ⟨h1, h2⟩

theorem truncToInt_eq_zero_of_neg (x : ℚ) (h1 : -1 < x) (h2 : x < 0) : truncToInt x = 0 := by
  unfold truncToInt
  rw [if_neg (not_le.mpr h2), Int.ceil_eq_iff]
  constructor
  · simpa using h1
  · simpa using h2.le

/-! ## The quotient of `Fill` against the bin edges -/

theorem quot_le_iff (n lo hi v c : ℚ) (hn : 0 < n) (hd : lo < hi) :
    n * (v - lo) / (hi - lo) ≤ c ↔ v ≤ lo + c * ((hi - lo) / n) := by
  have hd0 : 0 < hi - lo := sub_pos.mpr hd
  have e : lo + c * ((hi - lo) / n) = (lo * n + c * (hi - lo)) / n := by
    field_simp
  rw [e, div_le_iff₀ hd0, le_div_iff₀ hn]
  constructor <;> intro h <;> linarith

theorem le_quot_iff (n lo hi v c : ℚ) (hn : 0 < n) (hd : lo < hi) :
    c ≤ n * (v - lo) / (hi - lo) ↔ lo + c * ((hi - lo) / n) ≤ v := by
  have hd0 : 0 < hi - lo := sub_pos.mpr hd
  have e : lo + c * ((hi - lo) / n) = (lo * n + c * (hi - lo)) / n := by
    field_simp
  rw [e, le_div_iff₀ hd0, div_le_iff₀ hn]
  constructor <;> intro h <;> linarith

theorem quot_lt_iff (n lo hi v c : ℚ) (hn : 0 < n) (hd : lo < hi) :
    n * (v - lo) / (hi - lo) < c ↔ v < lo + c * ((hi - lo) / n) := by
  rw [← not_le, ← not_le, le_quot_iff n lo hi v c hn hd]

theorem lt_quot_iff (n lo hi v c : ℚ) (hn : 0 < n) (hd : lo < hi) :
    c < n * (v - lo) / (hi - lo) ↔ lo + c * ((hi - lo) / n) < v := by
  rw [← not_le, ← not_le, quot_le_iff n lo hi v c hn hd]

/-- The underflow test of `Fill`: the index is negative exactly when the value lies
a whole bin width or more below `lowBin`. -/
theorem binIndex_neg_iff (h : Histogram) (hn : 0 < h.nBins) (hr : h.lowBin < h.highBin)
    (v : ℚ) : binIndex h v < 0 ↔ v ≤ h.lowBin - binWidth h := by
  have hn0 : (0 : ℚ) < (h.nBins : ℚ) := by exact_mod_cast hn
  unfold binIndex binWidth
  rw [truncToInt_neg_iff, quot_le_iff _ _ _ _ _ hn0 hr]
  constructor <;> intro hv <;> linarith

/-- The overflow test of `Fill`: the index reaches `nBins` exactly from `highBin` on. -/
theorem binIndex_ge_iff (h : Histogram) (hn : 0 < h.nBins) (hr : h.lowBin < h.highBin)
    (v : ℚ) : h.nBins ≤ binIndex h v ↔ h.highBin ≤ v := by
  have hn0 : (0 : ℚ) < (h.nBins : ℚ) := by exact_mod_cast hn
  unfold binIndex
  rw [le_truncToInt_iff _ _ hn, le_quot_iff _ _ _ _ _ hn0 hr]
  have e : h.lowBin + (h.nBins : ℚ) * ((h.highBin - h.lowBin) / (h.nBins : ℚ)) = h.highBin := by
    field_simp
  rw [e]

/-- A value inside the range of bin `i` gets the index `i`. -/
theorem binIndex_eq_of_mem (h : Histogram) (hn : 0 < h.nBins) (hr : h.lowBin < h.highBin)
    (i : Nat) (v : ℚ) (h1 : h.lowBin + (i : ℚ) * binWidth h ≤ v)
    (h2 : v < h.lowBin + ((i : ℚ) + 1) * binWidth h) : binIndex h v = (i : Int) := by
  have hn0 : (0 : ℚ) < (h.nBins : ℚ) := by exact_mod_cast hn
  unfold binIndex
  apply truncToInt_eq_of_mem _ _ (Int.natCast_nonneg i)
  · rw [le_quot_iff _ _ _ _ _ hn0 hr]
    simpa [binWidth] using h1
  · rw [quot_lt_iff _ _ _ _ _ hn0 hr]
    simpa [binWidth] using h2

/-- A value less than one bin width below `lowBin` gets the index `0`. -/
theorem binIndex_eq_zero_of_below (h : Histogram) (hn : 0 < h.nBins)
    (hr : h.lowBin < h.highBin) (v : ℚ) (h1 : h.lowBin - binWidth h < v)
    (h2 : v < h.lowBin) : binIndex h v = 0 := by
  have hn0 : (0 : ℚ) < (h.nBins : ℚ) := by exact_mod_cast hn
  unfold binIndex
  apply truncToInt_eq_zero_of_neg
  · rw [lt_quot_iff _ _ _ _ _ hn0 hr]
    unfold binWidth at h1
    linarith
  · rw [quot_lt_iff _ _ _ _ _ hn0 hr]
    linarith

/-! ## One iteration of `Fill` -/

theorem fillValue_of_neg (h : Histogram) (v : ℚ) (hneg : binIndex h v < 0) :
    fillValue h v = .ok { h with data := h.data ++ [v], underflow := h.underflow + 1 } := by
  have hneg2 : binIndex { h with data := h.data ++ [v] } v < 0 := hneg
  simp only [fillValue, if_pos hneg2]

theorem fillValue_of_ge (h : Histogram) (v : ℚ) (hpos : 0 ≤ binIndex h v)
    (hge : h.nBins ≤ binIndex h v) :
    fillValue h v = .ok { h with data := h.data ++ [v], overflow := h.overflow + 1 } := by
  have h1 : ¬ binIndex { h with data := h.data ++ [v] } v < 0 := not_lt.mpr hpos
  have h2 : binIndex { h with data := h.data ++ [v] } v ≥ h.nBins := hge
  simp only [fillValue, if_neg h1, if_pos h2]

theorem fillValue_of_bin (h : Histogram) (v : ℚ) (k : Nat) (c : Int)
    (hk : binIndex h v = (k : Int)) (hlt : (k : Int) < h.nBins) (hc : h.Bins[k]? = some c) :
    fillValue h v = .ok { h with data := h.data ++ [v], Bins := h.Bins.set k (c + 1) } := by
  have hk2 : binIndex { h with data := h.data ++ [v] } v = (k : Int) := hk
  have h1 : ¬ ((k : Int) < 0) := by omega
  have h2 : ¬ ((k : Int) ≥ h.nBins) := by omega
  simp only [fillValue, hk2, if_neg h1, if_neg h2, Int.toNat_ofNat, hc]

theorem Fill_nil (h : Histogram) : Fill h [] = .ok h := rfl

theorem Fill_cons (h : Histogram) (v : ℚ) (vs : List ℚ) :
    Fill h (v :: vs) = fillValue h v >>= fun h1 => Fill h1 vs := by
  simp [Fill, List.foldlM_cons]

theorem Fill_singleton (h : Histogram) (v : ℚ) : Fill h [v] = fillValue h v := by
  rw [Fill_cons]
  cases fillValue h v <;> rfl

theorem sum_set_succ (l : List Int) (k : Nat) (c : Int) (hc : l[k]? = some c) :
    (l.set k (c + 1)).sum = l.sum + 1 := by
  induction l generalizing k with
  | nil => simp at hc
  | cons a t ih =>
    cases k with
    | zero =>
      simp only [List.getElem?_cons_zero, Option.some.injEq] at hc
      subst hc
      simp only [List.set_cons_zero, List.sum_cons]
      ring
    | succ m =>
      simp only [List.getElem?_cons_succ] at hc
      simp only [List.set_cons_succ, List.sum_cons, ih m hc]
      ring

/-- On a well-formed histogram one iteration of `Fill` never faults; it appends the
value, keeps the histogram well-formed and adds one to the total of the counters. -/
theorem fillValue_total (h : Histogram) (hwf : WellFormed h) (v : ℚ) :
    ∃ h2, fillValue h v = .ok h2 ∧ WellFormed h2 ∧ SameConfig h h2 ∧
      h2.data = h.data ++ [v] ∧
      sumBins h2 + h2.underflow + h2.overflow = sumBins h + h.underflow + h.overflow + 1 := by
  by_cases hneg : binIndex h v < 0
  · refine ⟨_, fillValue_of_neg h v hneg, hwf, ⟨rfl, rfl, rfl, rfl⟩, rfl, ?_⟩
    simp only [sumBins]
    ring
  · have hpos : 0 ≤ binIndex h v := not_lt.mp hneg
    by_cases hge : h.nBins ≤ binIndex h v
    · refine ⟨_, fillValue_of_ge h v hpos hge, hwf, ⟨rfl, rfl, rfl, rfl⟩, rfl, ?_⟩
      simp only [sumBins]
      ring
    · obtain ⟨k, hk⟩ := Int.eq_ofNat_of_zero_le hpos
      have hlt : (k : Int) < h.nBins := by omega
      have hklen : k < h.Bins.length := by
        unfold WellFormed at hwf
        omega
      have hc : h.Bins[k]? = some (h.Bins[k]) := List.getElem?_eq_getElem hklen
      refine ⟨_, fillValue_of_bin h v k _ hk hlt hc, ?_, ⟨rfl, rfl, rfl, rfl⟩, rfl, ?_⟩
      · unfold WellFormed
        simpa using hwf
      · simp only [sumBins, sum_set_succ _ _ _ hc]
        ring

/-- On a well-formed histogram `Fill` never faults, whatever the values. -/
theorem Fill_total (h : Histogram) (hwf : WellFormed h) (vs : List ℚ) :
    ∃ h2, Fill h vs = .ok h2 ∧ WellFormed h2 ∧ SameConfig h h2 ∧
      h2.data = h.data ++ vs ∧
      sumBins h2 + h2.underflow + h2.overflow
        = sumBins h + h.underflow + h.overflow + (vs.length : Int) := by
  induction vs generalizing h with
  | nil => exact ⟨h, rfl, hwf, ⟨rfl, rfl, rfl, rfl⟩, by simp, by simp⟩
  | cons v t ih =>
    obtain ⟨h1, e1, wf1, c1, d1, s1⟩ := fillValue_total h hwf v
    obtain ⟨h2, e2, wf2, c2, d2, s2⟩ := ih h1 wf1
    refine ⟨h2, ?_, wf2, ?_, ?_, ?_⟩
    · rw [Fill_cons, e1]
      exact e2
    · obtain ⟨a1, a2, a3, a4⟩ := c1
      obtain ⟨b1, b2, b3, b4⟩ := c2
      exact ⟨b1.trans a1, b2.trans a2, b3.trans a3, b4.trans a4⟩
    · rw [d2, d1]
      simp
    · rw [s2, s1]
      simp only [List.length_cons]
      push_cast
      ring

/-- A sequence of `Fill` calls on a well-formed histogram never faults. -/
theorem Fill_calls_total (h : Histogram) (hwf : WellFormed h) (calls : List (List ℚ)) :
    ∃ h2, calls.foldlM Fill h = .ok h2 ∧ WellFormed h2 ∧ SameConfig h h2 ∧
      h2.data = h.data ++ calls.flatten ∧
      sumBins h2 + h2.underflow + h2.overflow
        = sumBins h + h.underflow + h.overflow + (calls.flatten.length : Int) := by
  induction calls generalizing h with
  | nil => exact ⟨h, rfl, hwf, ⟨rfl, rfl, rfl, rfl⟩, by simp, by simp⟩
  | cons vs t ih =>
    obtain ⟨h1, e1, wf1, c1, d1, s1⟩ := Fill_total h hwf vs
    obtain ⟨h2, e2, wf2, c2, d2, s2⟩ := ih h1 wf1
    refine ⟨h2, ?_, wf2, ?_, ?_, ?_⟩
    · rw [List.foldlM_cons, e1]
      exact e2
    · obtain ⟨a1, a2, a3, a4⟩ := c1
      obtain ⟨b1, b2, b3, b4⟩ := c2
      exact ⟨b1.trans a1, b2.trans a2, b3.trans a3, b4.trans a4⟩
    · rw [d2, d1]
      simp
    · rw [s2, s1]
      simp only [List.flatten_cons, List.length_append]
      push_cast
      ring

/-- On a well-formed histogram a value whose index is `k < nBins` is counted in
bin `k` and nowhere else. -/
theorem Fill_counts_in_bin (h : Histogram) (hwf : WellFormed h) (v : ℚ) (k : Nat)
    (hk : binIndex h v = (k : Int)) (hlt : (k : Int) < h.nBins) :
    ∃ h2, Fill h [v] = .ok h2 ∧ IncrementsOnlyBin h h2 k ∧ h2.data = h.data ++ [v] := by
  have hklen : k < h.Bins.length := by
    unfold WellFormed at hwf
    omega
  have hc : h.Bins[k]? = some (h.Bins[k]) := List.getElem?_eq_getElem hklen
  refine ⟨_, (Fill_singleton h v).trans (fillValue_of_bin h v k _ hk hlt hc), ?_, rfl⟩
  refine ⟨⟨h.Bins[k], hc, ?_⟩, ?_, ?_, rfl, rfl⟩
  · simp [List.getElem?_set, hklen]
  · intro j hj
    simp [List.getElem?_set, Ne.symm hj]
  · simp

/-- The three ways one iteration of `Fill` can go on a well-formed histogram with
`nBins > 0` and `lowBin < highBin`, each with the values that take it. -/
theorem fillValue_cases (h : Histogram) (hwf : WellFormed h) (hn : 0 < h.nBins)
    (hr : h.lowBin < h.highBin) (v : ℚ) :
    (v ≤ h.lowBin - binWidth h ∧
      fillValue h v = .ok { h with data := h.data ++ [v], underflow := h.underflow + 1 }) ∨
    (h.highBin ≤ v ∧
      fillValue h v = .ok { h with data := h.data ++ [v], overflow := h.overflow + 1 }) ∨
    (h.lowBin - binWidth h < v ∧ v < h.highBin ∧
      ∃ (k : Nat) (c : Int), (k : Int) < h.nBins ∧ binIndex h v = (k : Int) ∧
        h.Bins[k]? = some c ∧
        fillValue h v = .ok { h with data := h.data ++ [v], Bins := h.Bins.set k (c + 1) }) := by
  by_cases hneg : binIndex h v < 0
  · exact Or.inl ⟨(binIndex_neg_iff h hn hr v).mp hneg, fillValue_of_neg h v hneg⟩
  · have hpos : 0 ≤ binIndex h v := not_lt.mp hneg
    have hlow : h.lowBin - binWidth h < v :=
      lt_of_not_ge (fun hv => hneg ((binIndex_neg_iff h hn hr v).mpr hv))
    by_cases hge : h.nBins ≤ binIndex h v
    · exact Or.inr (Or.inl ⟨(binIndex_ge_iff h hn hr v).mp hge, fillValue_of_ge h v hpos hge⟩)
    · have hhigh : v < h.highBin :=
        lt_of_not_ge (fun hv => hge ((binIndex_ge_iff h hn hr v).mpr hv))
      obtain ⟨k, hk⟩ := Int.eq_ofNat_of_zero_le hpos
      have hlt : (k : Int) < h.nBins := by omega
      have hklen : k < h.Bins.length := by
        unfold WellFormed at hwf
        omega
      have hc : h.Bins[k]? = some (h.Bins[k]) := List.getElem?_eq_getElem hklen
      exact Or.inr (Or.inr ⟨hlow, hhigh, k, _, hlt, hk, hc, fillValue_of_bin h v k _ hk hlt hc⟩)

/-- The effect of one iteration of `Fill` on `underflow` and `overflow`. -/
theorem fillValue_counters (h : Histogram) (hwf : WellFormed h) (hn : 0 < h.nBins)
    (hr : h.lowBin < h.highBin) (v : ℚ) :
    ∃ h2, fillValue h v = .ok h2 ∧ WellFormed h2 ∧ SameConfig h h2 ∧
      h2.underflow = h.underflow + (if v ≤ h.lowBin - binWidth h then 1 else 0) ∧
      h2.overflow = h.overflow + (if h.highBin ≤ v then 1 else 0) := by
  have hw : 0 < binWidth h := by
    have hn0 : (0 : ℚ) < (h.nBins : ℚ) := by exact_mod_cast hn
    exact div_pos (sub_pos.mpr hr) hn0
  rcases fillValue_cases h hwf hn hr v with ⟨hv, e⟩ | ⟨hv, e⟩ | ⟨hv1, hv2, k, c, _, _, _, e⟩
  · have hnot : ¬ h.highBin ≤ v := by
      intro h3
      linarith
    refine ⟨_, e, hwf, ⟨rfl, rfl, rfl, rfl⟩, ?_, ?_⟩
    · simp [hv]
    · simp [hnot]
  · have hnot : ¬ v ≤ h.lowBin - binWidth h := by
      intro h3
      linarith
    refine ⟨_, e, hwf, ⟨rfl, rfl, rfl, rfl⟩, ?_, ?_⟩
    · simp [hnot]
    · simp [hv]
  · refine ⟨_, e, ?_, ⟨rfl, rfl, rfl, rfl⟩, ?_, ?_⟩
    · unfold WellFormed
      simpa using hwf
    · simp [not_le.mpr hv1]
    · simp [not_le.mpr hv2]

theorem binWidth_congr (h h2 : Histogram) (hc : SameConfig h h2) : binWidth h2 = binWidth h := by
  obtain ⟨_, c2, c3, c4⟩ := hc
  simp [binWidth, c2, c3, c4]

/-- The counters `underflow` and `overflow` after `Fill`, as counts over the
submitted values. -/
theorem Fill_counters (h : Histogram) (hwf : WellFormed h) (hn : 0 < h.nBins)
    (hr : h.lowBin < h.highBin) (vs : List ℚ) :
    ∃ h2, Fill h vs = .ok h2 ∧ WellFormed h2 ∧ SameConfig h h2 ∧
      h2.underflow
        = h.underflow + (vs.countP (fun v => decide (v ≤ h.lowBin - binWidth h)) : Int) ∧
      h2.overflow = h.overflow + (vs.countP (fun v => decide (h.highBin ≤ v)) : Int) := by
  induction vs generalizing h with
  | nil => exact ⟨h, rfl, hwf, ⟨rfl, rfl, rfl, rfl⟩, by simp, by simp⟩
  | cons v t ih =>
    obtain ⟨h1, e1, wf1, c1, u1, o1⟩ := fillValue_counters h hwf hn hr v
    have hw : binWidth h1 = binWidth h := binWidth_congr h h1 c1
    obtain ⟨a1, a2, a3, a4⟩ := c1
    obtain ⟨h2, e2, wf2, c2, u2, o2⟩ := ih h1 wf1 (by rw [a2]; exact hn) (by rw [a3, a4]; exact hr)
    obtain ⟨b1, b2, b3, b4⟩ := c2
    refine ⟨h2, ?_, wf2, ⟨b1.trans a1, b2.trans a2, b3.trans a3, b4.trans a4⟩, ?_, ?_⟩
    · rw [Fill_cons, e1]
      exact e2
    · rw [u2, u1, hw, a3, List.countP_cons]
      by_cases hc : v ≤ h.lowBin - binWidth h
      · simp only [hc, decide_True, if_true]
        push_cast
        ring
      · simp [hc]
    · rw [o2, o1, a4, List.countP_cons]
      by_cases hc : h.highBin ≤ v
      · simp only [hc, decide_True, if_true]
        push_cast
        ring
      · simp [hc]

/-! ## The loop of `Percentiles` -/

theorem indexData_ok (data : List ℚ) (k : Nat) (hk : k < data.length) :
    indexData data (k : Int) = .ok (data.getD k 0) := by
  have h1 : ¬ ((k : Int) < 0) := by omega
  have h2 : data[k]? = some (data[k]) := List.getElem?_eq_getElem hk
  simp only [indexData, if_neg h1, Int.toNat_ofNat, h2, List.getD_eq_getElem?_getD,
    Option.getD_some]

/-- With at least ten entries, the index `entries*(i+1)/10 - 1` of iteration `i < 10`
is the natural number `n*(i+1)/10 - 1` and lies inside the slice. -/
theorem percentile_index (n i : Nat) (hn : 10 ≤ n) (hi : i < 10) :
    Int.tdiv ((n : Int) * ((i : Int) + 1)) 10 - 1 = ((n * (i + 1) / 10 - 1 : Nat) : Int) ∧
    n * (i + 1) / 10 - 1 < n := by
  have h0 : (0 : Int) ≤ (n : Int) * ((i : Int) + 1) := by positivity
  rw [Int.tdiv_eq_ediv h0 (by decide)]
  interval_cases i <;> omega

theorem percentilesLoop_eq (data : List ℚ) (hn : 10 ≤ data.length) (todo i : Nat)
    (hi : i + todo ≤ 10) (acc : List ℚ) :
    percentilesLoop data (data.length : Int) todo (i : Int) acc
      = .ok (acc ++ (List.range' i todo).map
          (fun j => data.getD (data.length * (j + 1) / 10 - 1) 0)) := by
  induction todo generalizing i acc with
  | zero => simp [percentilesLoop]
  | succ t ih =>
    obtain ⟨e, hlt⟩ := percentile_index data.length i hn (by omega)
    have hstep := ih (i + 1) (by omega) (acc ++ [data.getD (data.length * (i + 1) / 10 - 1) 0])
    rw [percentilesLoop, e, indexData_ok data _ hlt]
    simp only
    rw [show ((i : Int) + 1) = ((i + 1 : Nat) : Int) by push_cast; rfl, hstep]
    simp [List.range'_succ]

/-- With at least ten samples `Percentiles` returns, and returns the ten elements
of the sorted samples at the indices `n*(i+1)/10 - 1`. -/
theorem Percentiles_eq (h : Histogram) (hn : 10 ≤ h.data.length) :
    Percentiles h = .ok
      ((List.range 10).map (fun j =>
          (sortFloat64s h.data).getD (h.data.length * (j + 1) / 10 - 1) 0),
        { h with data := sortFloat64s h.data }) := by
  have hlen : (sortFloat64s h.data).length = h.data.length := by
    simp [sortFloat64s]
  have hloop := percentilesLoop_eq (sortFloat64s h.data) (by rw [hlen]; exact hn) 10 0
    (by omega) []
  rw [hlen] at hloop
  simp only [Percentiles, hlen]
  have h0 : ((0 : Nat) : Int) = 0 := rfl
  rw [h0] at hloop
  rw [hloop]
  simp [List.range_eq_range']

/-! ## `Fill` on every histogram `NewHistogram` can build -/

theorem NewHistogram_binsFit (title : String) (nBins : Int) (lowBin highBin : ℚ) :
    BinsFit (NewHistogram title nBins lowBin highBin) := by
  unfold BinsFit
  rw [NewHistogram_Bins]
  simp [NewHistogram]

theorem binIndex_congr (h h2 : Histogram) (hc : SameConfig h h2) (v : ℚ) :
    binIndex h2 v = binIndex h v := by
  obtain ⟨_, c2, c3, c4⟩ := hc
  simp [binIndex, c2, c3, c4]

theorem Fill_cons_ok (h h1 : Histogram) (v : ℚ) (vs : List ℚ) (e : fillValue h v = .ok h1) :
    Fill h (v :: vs) = Fill h1 vs := by
  rw [Fill_cons, e]
  rfl

theorem binIndex_eq_of_quot (h : Histogram) (v : ℚ) (k : Nat)
    (h1 : (k : ℚ) ≤ (h.nBins : ℚ) * (v - h.lowBin) / (h.highBin - h.lowBin))
    (h2 : (h.nBins : ℚ) * (v - h.lowBin) / (h.highBin - h.lowBin) < (k : ℚ) + 1) :
    binIndex h v = (k : Int) :=
  truncToInt_eq_of_mem _ _ (Int.natCast_nonneg k) (by exact_mod_cast h1) (by exact_mod_cast h2)

/-- One iteration of `Fill` on a histogram whose `Bins` has `max(nBins, 0)` entries:
it never faults, and its effect on every counter is given by the index alone. -/
theorem fillValue_step (h : Histogram) (hfit : BinsFit h) (v : ℚ) :
    ∃ h2, fillValue h v = .ok h2 ∧ BinsFit h2 ∧ SameConfig h h2 ∧
      h2.data = h.data ++ [v] ∧
      (∀ j : Nat, h2.Bins[j]?
        = (h.Bins[j]?).map (fun c => c + if binIndex h v = (j : Int) then 1 else 0)) ∧
      h2.underflow = h.underflow + (if binIndex h v < 0 then 1 else 0) ∧
      h2.overflow
        = h.overflow + (if 0 ≤ binIndex h v ∧ h.nBins ≤ binIndex h v then 1 else 0) ∧
      sumBins h2 + h2.underflow + h2.overflow
        = sumBins h + h.underflow + h.overflow + 1 := by
  unfold BinsFit at hfit
  by_cases hneg : binIndex h v < 0
  · refine ⟨_, fillValue_of_neg h v hneg, hfit, ⟨rfl, rfl, rfl, rfl⟩, rfl, ?_, ?_, ?_, ?_⟩
    · intro j
      have hne : ¬ binIndex h v = (j : Int) := by omega
      simp [hne]
    · simp [hneg]
    · have hno : ¬ (0 ≤ binIndex h v ∧ h.nBins ≤ binIndex h v) := by omega
      simp [hno]
    · simp only [sumBins]
      ring
  · have hpos : 0 ≤ binIndex h v := not_lt.mp hneg
    by_cases hge : h.nBins ≤ binIndex h v
    · refine ⟨_, fillValue_of_ge h v hpos hge, hfit, ⟨rfl, rfl, rfl, rfl⟩, rfl, ?_, ?_, ?_, ?_⟩
      · intro j
        by_cases hj : j < h.Bins.length
        · have hne : ¬ binIndex h v = (j : Int) := by omega
          simp [hne]
        · simp [List.getElem?_eq_none (not_lt.mp hj)]
      · simp [hneg]
      · simp [hpos, hge]
      · simp only [sumBins]
        ring
    · obtain ⟨k, hk⟩ := Int.eq_ofNat_of_zero_le hpos
      have hlt : (k : Int) < h.nBins := by omega
      have hklen : k < h.Bins.length := by omega
      have hc : h.Bins[k]? = some (h.Bins[k]) := List.getElem?_eq_getElem hklen
      refine ⟨_, fillValue_of_bin h v k _ hk hlt hc, ?_, ⟨rfl, rfl, rfl, rfl⟩, rfl, ?_, ?_, ?_, ?_⟩
      · unfold BinsFit
        simpa using hfit
      · intro j
        by_cases hjk : k = j
        · subst hjk
          simp [hk, hc, hklen]
        · have hne : ¬ binIndex h v = (j : Int) := by omega
          simp [List.getElem?_set, hjk, hne]
      · simp [hneg]
      · have hno : ¬ (0 ≤ binIndex h v ∧ h.nBins ≤ binIndex h v) := by omega
        simp [hno]
      · simp only [sumBins, sum_set_succ _ _ _ hc]
        ring

/-- The result of `Fill` in closed form: each counter goes up by the number of
submitted values whose index selects it. -/
theorem Fill_closed (h : Histogram) (hfit : BinsFit h) (vs : List ℚ) :
    ∃ h2, Fill h vs = .ok h2 ∧ BinsFit h2 ∧ SameConfig h h2 ∧
      h2.data = h.data ++ vs ∧
      (∀ j : Nat, h2.Bins[j]? = (h.Bins[j]?).map
        (fun c => c + (vs.countP (fun v => decide (binIndex h v = (j : Int))) : Int))) ∧
      h2.underflow = h.underflow + (vs.countP (fun v => decide (binIndex h v < 0)) : Int) ∧
      h2.overflow = h.overflow
        + (vs.countP (fun v => decide (0 ≤ binIndex h v ∧ h.nBins ≤ binIndex h v)) : Int) ∧
      sumBins h2 + h2.underflow + h2.overflow
        = sumBins h + h.underflow + h.overflow + (vs.length : Int) := by
  induction vs generalizing h with
  | nil =>
    refine ⟨h, rfl, hfit, ⟨rfl, rfl, rfl, rfl⟩, by simp, ?_, by simp, by simp, by simp⟩
    intro j
    cases h.Bins[j]? <;> simp
  | cons v t ih =>
    obtain ⟨h1, e1, fit1, c1, d1, b1, u1, o1, s1⟩ := fillValue_step h hfit v
    obtain ⟨h2, e2, fit2, c2, d2, b2, u2, o2, s2⟩ := ih h1 fit1
    have hidx : ∀ x, binIndex h1 x = binIndex h x := binIndex_congr h h1 c1
    obtain ⟨a1, a2, a3, a4⟩ := c1
    obtain ⟨g1, g2, g3, g4⟩ := c2
    refine ⟨h2, ?_, fit2, ⟨g1.trans a1, g2.trans a2, g3.trans a3, g4.trans a4⟩,
      ?_, ?_, ?_, ?_, ?_⟩
    · rw [Fill_cons_ok h h1 v t e1]
      exact e2
    · rw [d2, d1]
      simp
    · intro j
      rw [b2 j, b1 j]
      simp only [hidx, List.countP_cons]
      cases h.Bins[j]? with
      | none => rfl
      | some c =>
        by_cases hj : binIndex h v = (j : Int)
        · simp only [Option.map_some', hj, if_true, decide_True]
          congr 1
          push_cast
          ring
        · simp [hj]
    · rw [u2, u1]
      simp only [hidx, List.countP_cons]
      by_cases hj : binIndex h v < 0
      · simp only [hj, if_true, decide_True]
        push_cast
        ring
      · simp [hj]
    · rw [o2, o1, a2]
      simp only [hidx, List.countP_cons]
      by_cases hj : 0 ≤ binIndex h v ∧ h.nBins ≤ binIndex h v
      · simp only [hj, and_self, if_true, decide_True]
        push_cast
        ring
      · simp [hj]
    · rw [s2, s1]
      simp only [List.length_cons]
      push_cast
      ring

/-- A sequence of `Fill` calls on a histogram whose `Bins` has `max(nBins, 0)`
entries never faults. -/
theorem Fill_calls_closed (h : Histogram) (hfit : BinsFit h) (calls : List (List ℚ)) :
    ∃ h2, calls.foldlM Fill h = .ok h2 ∧ BinsFit h2 ∧ SameConfig h h2 ∧
      h2.data = h.data ++ calls.flatten ∧
      sumBins h2 + h2.underflow + h2.overflow
        = sumBins h + h.underflow + h.overflow + (calls.flatten.length : Int) := by
  induction calls generalizing h with
  | nil => exact ⟨h, rfl, hfit, ⟨rfl, rfl, rfl, rfl⟩, by simp, by simp⟩
  | cons vs t ih =>
    obtain ⟨h1, e1, fit1, c1, d1, _, _, _, s1⟩ := Fill_closed h hfit vs
    obtain ⟨h2, e2, fit2, c2, d2, s2⟩ := ih h1 fit1
    refine ⟨h2, ?_, fit2, ?_, ?_, ?_⟩
    · rw [List.foldlM_cons, e1]
      exact e2
    · obtain ⟨a1, a2, a3, a4⟩ := c1
      obtain ⟨b1, b2, b3, b4⟩ := c2
      exact ⟨b1.trans a1, b2.trans a2, b3.trans a3, b4.trans a4⟩
    · rw [d2, d1]
      simp
    · rw [s2, s1]
      simp only [List.flatten_cons, List.length_append]
      push_cast
      ring

/-- The end-to-end example: ten bins over `[1/2, 21/2)` filled with
`1, 1, 11/2, 11, -3`. -/
theorem Fill_exampleValues :
    Fill (NewHistogram "Title" 10 (1 / 2) (21 / 2)) exampleValues
      = .ok (mainHistogram exampleValues [2, 0, 0, 0, 0, 1, 0, 0, 0, 0] 1 1) := by
  have e1 : fillValue (mainHistogram [] [0, 0, 0, 0, 0, 0, 0, 0, 0, 0] 0 0) 1
      = .ok (mainHistogram [1] [1, 0, 0, 0, 0, 0, 0, 0, 0, 0] 0 0) :=
    fillValue_of_bin _ 1 0 0
      (binIndex_eq_of_quot _ _ 0 (by norm_num [mainHistogram]) (by norm_num [mainHistogram]))
      (by decide) rfl
  have e2 : fillValue (mainHistogram [1] [1, 0, 0, 0, 0, 0, 0, 0, 0, 0] 0 0) 1
      = .ok (mainHistogram [1, 1] [2, 0, 0, 0, 0, 0, 0, 0, 0, 0] 0 0) :=
    fillValue_of_bin _ 1 0 1
      (binIndex_eq_of_quot _ _ 0 (by norm_num [mainHistogram]) (by norm_num [mainHistogram]))
      (by decide) rfl
  have e3 : fillValue (mainHistogram [1, 1] [2, 0, 0, 0, 0, 0, 0, 0, 0, 0] 0 0) (11 / 2)
      = .ok (mainHistogram [1, 1, 11 / 2] [2, 0, 0, 0, 0, 1, 0, 0, 0, 0] 0 0) :=
    fillValue_of_bin _ (11 / 2) 5 0
      (binIndex_eq_of_quot _ _ 5 (by norm_num [mainHistogram]) (by norm_num [mainHistogram]))
      (by decide) rfl
  have e4 : fillValue (mainHistogram [1, 1, 11 / 2] [2, 0, 0, 0, 0, 1, 0, 0, 0, 0] 0 0) 11
      = .ok (mainHistogram [1, 1, 11 / 2, 11] [2, 0, 0, 0, 0, 1, 0, 0, 0, 0] 0 1) :=
    fillValue_of_ge _ 11
      (le_trans (by decide : (0 : Int) ≤ 10)
        ((le_truncToInt_iff _ 10 (by decide)).mpr (by norm_num [mainHistogram])))
      ((le_truncToInt_iff _ 10 (by decide)).mpr (by norm_num [mainHistogram]))
  have e5 : fillValue (mainHistogram [1, 1, 11 / 2, 11] [2, 0, 0, 0, 0, 1, 0, 0, 0, 0] 0 1) (-3)
      = .ok (mainHistogram [1, 1, 11 / 2, 11, -3] [2, 0, 0, 0, 0, 1, 0, 0, 0, 0] 1 1) :=
    fillValue_of_neg _ (-3) ((truncToInt_neg_iff _).mpr (by norm_num [mainHistogram]))
  have e0 : NewHistogram "Title" 10 (1 / 2) (21 / 2)
      = mainHistogram [] [0, 0, 0, 0, 0, 0, 0, 0, 0, 0] 0 0 := rfl
  unfold exampleValues
  rw [e0, Fill_cons_ok _ _ _ _ e1, Fill_cons_ok _ _ _ _ e2, Fill_cons_ok _ _ _ _ e3,
    Fill_cons_ok _ _ _ _ e4, Fill_cons_ok _ _ _ _ e5, Fill_nil]

theorem printStatsEntries_eq_sumBins (h : Histogram) : printStatsEntries h = sumBins h := by
  have key : ∀ (l : List Int) (a : Int),
      l.foldl (fun entries bin => entries + bin) a = a + l.sum := by
    intro l
    induction l with
    | nil => intro a; simp
    | cons b t ih =>
      intro a
      rw [List.foldl_cons, ih, List.sum_cons]
      ring
  simp [printStatsEntries, sumBins, key]

/-! ## The loop of `parseContents` -/

theorem parseRow_of_field (parseFloat : String → Option ℚ) (column : Nat) (data : List ℚ)
    (row : List String) (hlen : column < row.length) :
    parseRow parseFloat (column : Int) data row
      = .ok (data ++ ((row[column]?).bind parseFloat).toList) := by
  have h1 : ¬ ((column : Int) < 0) := by omega
  have h2 : row[column]? = some (row[column]) := List.getElem?_eq_getElem hlen
  simp only [parseRow, if_neg h1, Int.toNat_ofNat, h2, Option.some_bind]
  cases parseFloat row[column] <;> simp

theorem parseContents_loop (parseFloat : String → Option ℚ) (column : Nat)
    (contents : List (List String)) (hrows : ∀ row ∈ contents, column < row.length)
    (data : List ℚ) :
    contents.foldlM (parseRow parseFloat (column : Int)) data
      = .ok (data ++ contents.filterMap (fun row => (row[column]?).bind parseFloat)) := by
  induction contents generalizing data with
  | nil =>
    simp only [List.foldlM_nil, List.filterMap_nil, List.append_nil]
    rfl
  | cons row t ih =>
    have hrow : column < row.length := hrows row (List.mem_cons_self _ _)
    have ht : ∀ r ∈ t, column < r.length := fun r hr => hrows r (List.mem_cons_of_mem _ hr)
    rw [List.foldlM_cons, parseRow_of_field parseFloat column data row hrow]
    show List.foldlM (parseRow parseFloat (column : Int)) _ t = _
    rw [ih ht]
    cases hp : (row[column]?).bind parseFloat <;> simp [List.filterMap_cons, hp]

/-! ## The loop of `line` -/

theorem join_cons (a : String) (l : List String) : String.join (a :: l) = a ++ String.join l := by
  apply String.ext
  simp [String.data_join]

theorem lineLoop_eq (fill : Nat) (todo i : Nat) (text : String) :
    lineLoop (fill : Int) todo (i : Int) text
      = text ++ String.join ((List.range' i todo).map
          (fun j => if j ≤ fill then blockCell else blankCell)) := by
  induction todo generalizing i text with
  | zero => simp [lineLoop, String.join]
  | succ t ih =>
    have hcast : ((i : Int) + 1) = ((i + 1 : Nat) : Int) := by push_cast; rfl
    have hcond : ((i : Int) ≤ (fill : Int)) ↔ i ≤ fill := by omega
    rw [lineLoop, hcast, ih, List.range'_succ, List.map_cons, join_cons]
    by_cases hi : i ≤ fill
    · rw [if_pos (hcond.mpr hi), if_pos hi, String.append_assoc]
    · rw [if_neg (fun hx => hi (hcond.mp hx)), if_neg hi, String.append_assoc]

theorem cells_eq_barCells (fill width : Nat) :
    (List.range' 0 width).map (fun j => if j ≤ fill then blockCell else blankCell)
      = barCells (min (fill + 1) width) (width - min (fill + 1) width) := by
  apply List.ext_getElem
  · simp only [barCells, List.length_map, List.length_range', List.length_append,
      List.length_replicate]
    omega
  · intro j h1 h2
    simp only [List.length_map, List.length_range'] at h1
    simp only [barCells, List.getElem_map, List.getElem_range', List.getElem_append,
      List.length_replicate, List.getElem_replicate]
    by_cases hj : j ≤ fill
    · have hlt : j < min (fill + 1) width := by omega
      simp [hj, hlt]
    · have hlt : ¬ j < min (fill + 1) width := by omega
      simp [hj, hlt]

theorem line_eq (sprintf : ℚ → String) (width fill : Nat) (label : ℚ) :
    line sprintf (width : Int) (fill : Int) label
      = sprintf label
        ++ String.join (barCells (min (fill + 1) width) (width - min (fill + 1) width)) := by
  have h0 : (0 : Int) = ((0 : Nat) : Int) := rfl
  rw [line, Int.toNat_ofNat, h0, lineLoop_eq, cells_eq_barCells]

/-! ## What `Fill` leaves alone -/

theorem forall₂_le_trans (a b c : List Int) (h1 : List.Forall₂ (· ≤ ·) a b)
    (h2 : List.Forall₂ (· ≤ ·) b c) : List.Forall₂ (· ≤ ·) a c := by
  induction h1 generalizing c with
  | nil =>
    cases h2
    exact List.Forall₂.nil
  | cons hxy _ ih =>
    cases h2 with
    | cons hyz htl => exact List.Forall₂.cons (le_trans hxy hyz) (ih _ htl)

theorem forall₂_le_set (l : List Int) (k : Nat) (c : Int) (hc : l[k]? = some c) :
    List.Forall₂ (· ≤ ·) l (l.set k (c + 1)) := by
  induction l generalizing k with
  | nil => simp at hc
  | cons a t ih =>
    cases k with
    | zero =>
      simp only [List.getElem?_cons_zero, Option.some.injEq] at hc
      subst hc
      exact List.Forall₂.cons (by omega) (List.forall₂_refl t)
    | succ m =>
      simp only [List.getElem?_cons_succ] at hc
      exact List.Forall₂.cons le_rfl (ih m hc)

/-- Whenever one iteration of `Fill` runs to its end, from any state, it keeps the
configuration, appends the value to `data` and lowers no counter. -/
theorem fillValue_frame (h h2 : Histogram) (v : ℚ) (hok : fillValue h v = .ok h2) :
    SameConfig h h2 ∧ h2.data = h.data ++ [v] ∧ List.Forall₂ (· ≤ ·) h.Bins h2.Bins ∧
      h.underflow ≤ h2.underflow ∧ h.overflow ≤ h2.overflow := by
  by_cases hneg : binIndex h v < 0
  · rw [fillValue_of_neg h v hneg] at hok
    injection hok with e
    subst e
    exact ⟨⟨rfl, rfl, rfl, rfl⟩, rfl, List.forall₂_refl _, by simp, le_rfl⟩
  · have hpos : 0 ≤ binIndex h v := not_lt.mp hneg
    by_cases hge : h.nBins ≤ binIndex h v
    · rw [fillValue_of_ge h v hpos hge] at hok
      injection hok with e
      subst e
      exact ⟨⟨rfl, rfl, rfl, rfl⟩, rfl, List.forall₂_refl _, le_rfl, by simp⟩
    · obtain ⟨k, hk⟩ := Int.eq_ofNat_of_zero_le hpos
      have hlt : (k : Int) < h.nBins := by omega
      cases hc : h.Bins[k]? with
      | none =>
        have hk2 : binIndex { h with data := h.data ++ [v] } v = (k : Int) := hk
        have n1 : ¬ ((k : Int) < 0) := by omega
        have n2 : ¬ ((k : Int) ≥ h.nBins) := by omega
        simp only [fillValue, hk2, if_neg n1, if_neg n2, Int.toNat_ofNat, hc] at hok
        cases hok
      | some c =>
        rw [fillValue_of_bin h v k c hk hlt hc] at hok
        injection hok with e
        subst e
        exact ⟨⟨rfl, rfl, rfl, rfl⟩, rfl, forall₂_le_set _ _ _ hc, le_rfl, le_rfl⟩

/-- Whenever `Fill` runs to its end, from any state, it keeps the configuration,
appends the values to `data` in order and lowers no counter. -/
theorem Fill_frame (h h2 : Histogram) (vs : List ℚ) (hok : Fill h vs = .ok h2) :
    SameConfig h h2 ∧ h2.data = h.data ++ vs ∧ List.Forall₂ (· ≤ ·) h.Bins h2.Bins ∧
      h.underflow ≤ h2.underflow ∧ h.overflow ≤ h2.overflow := by
  induction vs generalizing h with
  | nil =>
    rw [Fill_nil] at hok
    injection hok with e
    subst e
    exact ⟨⟨rfl, rfl, rfl, rfl⟩, by simp, List.forall₂_refl _, le_rfl, le_rfl⟩
  | cons v t ih =>
    cases e1 : fillValue h v with
    | error f =>
      rw [Fill_cons, e1] at hok
      cases hok
    | ok h1 =>
      rw [Fill_cons_ok h h1 v t e1] at hok
      obtain ⟨c1, d1, b1, u1, o1⟩ := fillValue_frame h h1 v e1
      obtain ⟨c2, d2, b2, u2, o2⟩ := ih h1 hok
      obtain ⟨a1, a2, a3, a4⟩ := c1
      obtain ⟨g1, g2, g3, g4⟩ := c2
      refine ⟨⟨g1.trans a1, g2.trans a2, g3.trans a3, g4.trans a4⟩, ?_,
        forall₂_le_trans _ _ _ b1 b2, le_trans u1 u2, le_trans o1 o2⟩
      rw [d2, d1]
      simp

/-! ## Sorting and `Percentiles` -/

theorem sortFloat64s_sorted (xs : List ℚ) : List.Sorted (· ≤ ·) (sortFloat64s xs) :=
  List.sorted_insertionSort _ xs

theorem sortFloat64s_perm (xs : List ℚ) : (sortFloat64s xs).Perm xs :=
  List.perm_insertionSort _ xs

theorem sortFloat64s_length (xs : List ℚ) : (sortFloat64s xs).length = xs.length :=
  (sortFloat64s_perm xs).length_eq

theorem sortFloat64s_idem (xs : List ℚ) : sortFloat64s (sortFloat64s xs) = sortFloat64s xs :=
  (sortFloat64s_sorted xs).insertionSort_eq

theorem sortFloat64s_congr (xs ys : List ℚ) (hp : xs.Perm ys) :
    sortFloat64s xs = sortFloat64s ys :=
  List.eq_of_perm_of_sorted
    ((sortFloat64s_perm xs).trans (hp.trans (sortFloat64s_perm ys).symm))
    (sortFloat64s_sorted xs) (sortFloat64s_sorted ys)

/-- The loop of `Percentiles` indexes `data` at `percentileIndex`. -/
theorem percentilesLoop_succ (data : List ℚ) (entries : Int) (todo : Nat) (i : Int)
    (acc : List ℚ) :
    percentilesLoop data entries (todo + 1) i acc
      = match indexData data (percentileIndex entries i) with
        | .error e => .error e
        | .ok x => percentilesLoop data entries todo (i + 1) (acc ++ [x]) := rfl

theorem percentileIndex_zero (n : Nat) : percentileIndex (n : Int) 0 = (n : Int) / 10 - 1 := by
  have h0 : (0 : Int) ≤ (n : Int) * (0 + 1) := by positivity
  rw [percentileIndex, Int.tdiv_eq_ediv h0 (by decide)]
  simp

/-- With fewer than ten samples the first index of `Percentiles` is `-1` and the
call stops there. -/
theorem Percentiles_short (h : Histogram) (hlt : h.data.length < 10) :
    Percentiles h = .error (Fault.indexOutOfRange (-1) h.data.length) := by
  have hlen : (sortFloat64s h.data).length = h.data.length := sortFloat64s_length _
  have hidx : percentileIndex ((sortFloat64s h.data).length : Int) 0 = -1 := by
    rw [percentileIndex_zero, hlen]
    omega
  simp only [Percentiles, percentilesLoop_succ, hidx]
  simp [indexData, hlen]

theorem getD_mem (l : List ℚ) (k : Nat) (hk : k < l.length) : l.getD k 0 ∈ l := by
  rw [List.getD_eq_getElem?_getD, List.getElem?_eq_getElem hk]
  exact List.getElem_mem hk

theorem sorted_getD_mono (l : List ℚ) (hs : List.Sorted (· ≤ ·) l) (a b : Nat) (hab : a ≤ b)
    (hb : b < l.length) : l.getD a 0 ≤ l.getD b 0 := by
  have ha : a < l.length := lt_of_le_of_lt hab hb
  rw [List.getD_eq_getElem?_getD, List.getD_eq_getElem?_getD, List.getElem?_eq_getElem ha,
    List.getElem?_eq_getElem hb]
  simp only [Option.getD_some]
  rcases Nat.eq_or_lt_of_le hab with heq | hlt
  · subst heq
    exact le_rfl
  · exact (List.pairwise_iff_getElem.mp hs) a b ha hb hlt

theorem percentile_index_mono (n a b : Nat) (hab : a ≤ b) :
    n * (a + 1) / 10 - 1 ≤ n * (b + 1) / 10 - 1 := by
  have h1 : n * (a + 1) ≤ n * (b + 1) := Nat.mul_le_mul_left n (by omega)
  have h2 : n * (a + 1) / 10 ≤ n * (b + 1) / 10 := Nat.div_le_div_right h1
  omega

/-! ## `Fill` from any state -/

theorem fillValue_ok_inBounds (h h2 : Histogram) (v : ℚ) (hok : fillValue h v = .ok h2) :
    IndexInBounds h v := by
  unfold IndexInBounds
  by_cases hneg : binIndex h v < 0
  · exact Or.inl hneg
  · by_cases hge : h.nBins ≤ binIndex h v
    · exact Or.inr (Or.inl hge)
    · refine Or.inr (Or.inr ?_)
      obtain ⟨k, hk⟩ := Int.eq_ofNat_of_zero_le (not_lt.mp hneg)
      by_contra hlen
      have hk2 : binIndex { h with data := h.data ++ [v] } v = (k : Int) := hk
      have n1 : ¬ ((k : Int) < 0) := by omega
      have n2 : ¬ ((k : Int) ≥ h.nBins) := by omega
      have hnone : h.Bins[k]? = none := by
        apply List.getElem?_eq_none
        rw [hk] at hlen
        simpa using hlen
      simp only [fillValue, hk2, if_neg n1, if_neg n2, Int.toNat_ofNat, hnone] at hok
      cases hok

/-- One iteration of `Fill` from any state in which it does not fault: the effect on
every counter, given by the index alone. -/
theorem fillValue_step_of_inBounds (h : Histogram) (v : ℚ) (hin : IndexInBounds h v) :
    ∃ h2, fillValue h v = .ok h2 ∧ SameConfig h h2 ∧ h2.Bins.length = h.Bins.length ∧
      h2.data = h.data ++ [v] ∧
      (∀ j : Nat, h2.Bins[j]? = (h.Bins[j]?).map
        (fun c => c + if binIndex h v = (j : Int) ∧ (j : Int) < h.nBins then 1 else 0)) ∧
      h2.underflow = h.underflow + (if binIndex h v < 0 then 1 else 0) ∧
      h2.overflow
        = h.overflow + (if 0 ≤ binIndex h v ∧ h.nBins ≤ binIndex h v then 1 else 0) := by
  by_cases hneg : binIndex h v < 0
  · refine ⟨_, fillValue_of_neg h v hneg, ⟨rfl, rfl, rfl, rfl⟩, rfl, rfl, ?_, ?_, ?_⟩
    · intro j
      have hne : ¬ (binIndex h v = (j : Int) ∧ (j : Int) < h.nBins) := by omega
      simp [hne]
    · simp [hneg]
    · have hno : ¬ (0 ≤ binIndex h v ∧ h.nBins ≤ binIndex h v) := by omega
      simp [hno]
  · have hpos : 0 ≤ binIndex h v := not_lt.mp hneg
    by_cases hge : h.nBins ≤ binIndex h v
    · refine ⟨_, fillValue_of_ge h v hpos hge, ⟨rfl, rfl, rfl, rfl⟩, rfl, rfl, ?_, ?_, ?_⟩
      · intro j
        have hne : ¬ (binIndex h v = (j : Int) ∧ (j : Int) < h.nBins) := by omega
        simp [hne]
      · simp [hneg]
      · simp [hpos, hge]
    · obtain ⟨k, hk⟩ := Int.eq_ofNat_of_zero_le hpos
      have hlt : (k : Int) < h.nBins := by omega
      have hklen : k < h.Bins.length := by
        rcases hin with h1 | h1 | h1
        · exact absurd h1 hneg
        · exact absurd h1 hge
        · rw [hk] at h1
          simpa using h1
      have hc : h.Bins[k]? = some (h.Bins[k]) := List.getElem?_eq_getElem hklen
      refine ⟨_, fillValue_of_bin h v k _ hk hlt hc, ⟨rfl, rfl, rfl, rfl⟩, ?_, rfl, ?_, ?_, ?_⟩
      · simp
      · intro j
        by_cases hjk : k = j
        · subst hjk
          simp [hk, hc, hklen, hlt]
        · have hne : ¬ (binIndex h v = (j : Int) ∧ (j : Int) < h.nBins) := by omega
          simp [List.getElem?_set, hjk, hne]
      · simp [hneg]
      · have hno : ¬ (0 ≤ binIndex h v ∧ h.nBins ≤ binIndex h v) := by omega
        simp [hno]

theorem IndexInBounds_congr (h h2 : Histogram) (hc : SameConfig h h2)
    (hlen : h2.Bins.length = h.Bins.length) (v : ℚ) :
    IndexInBounds h2 v ↔ IndexInBounds h v := by
  unfold IndexInBounds
  rw [binIndex_congr h h2 hc v, hlen, hc.2.1]

/-- The result of `Fill` from any state in which no value faults, in closed form. -/
theorem Fill_closed_of_inBounds (h : Histogram) (vs : List ℚ)
    (hall : ∀ v ∈ vs, IndexInBounds h v) :
    ∃ h2, Fill h vs = .ok h2 ∧ SameConfig h h2 ∧ h2.Bins.length = h.Bins.length ∧
      h2.data = h.data ++ vs ∧
      (∀ j : Nat, h2.Bins[j]? = (h.Bins[j]?).map (fun c => c + (vs.countP
        (fun v => decide (binIndex h v = (j : Int) ∧ (j : Int) < h.nBins)) : Int))) ∧
      h2.underflow = h.underflow + (vs.countP (fun v => decide (binIndex h v < 0)) : Int) ∧
      h2.overflow = h.overflow
        + (vs.countP (fun v => decide (0 ≤ binIndex h v ∧ h.nBins ≤ binIndex h v)) : Int) := by
  induction vs generalizing h with
  | nil =>
    refine ⟨h, rfl, ⟨rfl, rfl, rfl, rfl⟩, rfl, by simp, ?_, by simp, by simp⟩
    intro j
    cases h.Bins[j]? <;> simp
  | cons v t ih =>
    obtain ⟨h1, e1, c1, l1, d1, b1, u1, o1⟩ :=
      fillValue_step_of_inBounds h v (hall v (List.mem_cons_self _ _))
    have hall1 : ∀ x ∈ t, IndexInBounds h1 x := fun x hx =>
      (IndexInBounds_congr h h1 c1 l1 x).mpr (hall x (List.mem_cons_of_mem _ hx))
    obtain ⟨h2, e2, c2, l2, d2, b2, u2, o2⟩ := ih h1 hall1
    have hidx : ∀ x, binIndex h1 x = binIndex h x := binIndex_congr h h1 c1
    obtain ⟨a1, a2, a3, a4⟩ := c1
    obtain ⟨g1, g2, g3, g4⟩ := c2
    refine ⟨h2, ?_, ⟨g1.trans a1, g2.trans a2, g3.trans a3, g4.trans a4⟩, l2.trans l1,
      ?_, ?_, ?_, ?_⟩
    · rw [Fill_cons_ok h h1 v t e1]
      exact e2
    · rw [d2, d1]
      simp
    · intro j
      rw [b2 j, b1 j]
      simp only [hidx, a2, List.countP_cons]
      cases h.Bins[j]? with
      | none => rfl
      | some c =>
        by_cases hj : binIndex h v = (j : Int) ∧ (j : Int) < h.nBins
        · simp only [Option.map_some', hj, and_self, if_true, decide_True]
          congr 1
          push_cast
          ring
        · simp [hj]
    · rw [u2, u1]
      simp only [hidx, List.countP_cons]
      by_cases hj : binIndex h v < 0
      · simp only [hj, if_true, decide_True]
        push_cast
        ring
      · simp [hj]
    · rw [o2, o1, a2]
      simp only [hidx, List.countP_cons]
      by_cases hj : 0 ≤ binIndex h v ∧ h.nBins ≤ binIndex h v
      · simp only [hj, and_self, if_true, decide_True]
        push_cast
        ring
      · simp [hj]

/-- If `Fill` runs to its end, no value of the call indexed `Bins` out of bounds. -/
theorem Fill_ok_inBounds (h h2 : Histogram) (vs : List ℚ) (hok : Fill h vs = .ok h2) :
    ∀ v ∈ vs, IndexInBounds h v := by
  induction vs generalizing h with
  | nil =>
    intro v hv
    cases hv
  | cons x t ih =>
    cases e1 : fillValue h x with
    | error f =>
      rw [Fill_cons, e1] at hok
      cases hok
    | ok h1 =>
      rw [Fill_cons_ok h h1 x t e1] at hok
      have hx : IndexInBounds h x := fillValue_ok_inBounds h h1 x e1
      obtain ⟨g, eg, c1, l1, _⟩ := fillValue_step_of_inBounds h x hx
      rw [e1] at eg
      injection eg with eg
      subst eg
      intro v hv
      rcases List.mem_cons.mp hv with rfl | hvt
      · exact hx
      · exact (IndexInBounds_congr h h1 c1 l1 v).mp (ih h1 hok v hvt)

/-- The state after `Percentiles` and its result depend on `data` only up to order. -/
theorem Percentiles_congr (h h2 : Histogram) (hc : SameConfig h h2) (hb : h2.Bins = h.Bins)
    (hu : h2.underflow = h.underflow) (ho : h2.overflow = h.overflow)
    (hp : h2.data.Perm h.data) : Percentiles h2 = Percentiles h := by
  obtain ⟨c1, c2, c3, c4⟩ := hc
  have hsort : sortFloat64s h2.data = sortFloat64s h.data := sortFloat64s_congr _ _ hp
  simp only [Percentiles, hsort, c1, c2, c3, c4, hb, hu, ho]

/-! ## The `float64` rounding -/

theorem ulpExponent_eq (x : ℚ) (e : Int) (hx : 0 < x) (h1 : (2 : ℚ) ^ e ≤ x)
    (h2 : x < (2 : ℚ) ^ (e + 1)) : ulpExponent x = max (e - 52) (-1074) := by
  have hle : e ≤ Int.log 2 x :=
    (Int.zpow_le_iff_le_log (by decide) hx).mp (by exact_mod_cast h1)
  have hlt : Int.log 2 x < e + 1 :=
    (Int.lt_zpow_iff_log_lt (by decide) hx).mp (by exact_mod_cast h2)
  have hlog : Int.log 2 x = e := by omega
  rw [ulpExponent, hlog]

theorem roundPos_eval (a y : ℚ) (e : Int) (ha : 0 < a) (h1 : (2 : ℚ) ^ e ≤ a)
    (h2 : a < (2 : ℚ) ^ (e + 1))
    (hy : (roundHalfEven (a / 2 ^ max (e - 52) (-1074)) : ℚ) * 2 ^ max (e - 52) (-1074) = y)
    (hfin : y < (2 : ℚ) ^ (1024 : Int)) : roundPos a = F64.fin y := by
  rw [roundPos, ulpExponent_eq a e ha h1 h2, hy, if_neg (not_le.mpr hfin)]

/-- The rounding of a positive value whose leading bit is at `2^e`. -/
theorem roundF64_pos (x a y : ℚ) (e : Int)
    (hs : x = a ∧ 0 < a ∧ (2 : ℚ) ^ e ≤ a ∧ a < (2 : ℚ) ^ (e + 1) ∧
      (roundHalfEven (a / 2 ^ max (e - 52) (-1074)) : ℚ) * 2 ^ max (e - 52) (-1074) = y ∧
      y < (2 : ℚ) ^ (1024 : Int)) : roundF64 x = F64.fin y := by
  obtain ⟨hx, ha, h1, h2, hy, hfin⟩ := hs
  rw [hx, roundF64, if_neg (ne_of_gt ha), if_pos ha]
  exact roundPos_eval a y e ha h1 h2 hy hfin

/-- The rounding of a negative value `-a` whose leading bit is at `2^e`. -/
theorem roundF64_neg (x a y : ℚ) (e : Int)
    (hs : x = -a ∧ 0 < a ∧ (2 : ℚ) ^ e ≤ a ∧ a < (2 : ℚ) ^ (e + 1) ∧
      (roundHalfEven (a / 2 ^ max (e - 52) (-1074)) : ℚ) * 2 ^ max (e - 52) (-1074) = y ∧
      y < (2 : ℚ) ^ (1024 : Int)) : roundF64 x = F64.fin (-y) := by
  obtain ⟨hx, ha, h1, h2, hy, hfin⟩ := hs
  have hne : ¬ (-a = 0) := by
    intro h0
    linarith
  have hnp : ¬ (0 < -a) := by
    intro h0
    linarith
  rw [hx, roundF64, if_neg hne, if_neg hnp, neg_neg, roundPos_eval a y e ha h1 h2 hy hfin]
  rfl

theorem roundF64_zero (x : ℚ) (hx : x = 0) : roundF64 x = F64.fin 0 := by
  rw [roundF64, if_pos hx]

theorem roundPos_ne_nan (x : ℚ) : roundPos x ≠ F64.nan := by
  unfold roundPos
  split_ifs <;> simp

theorem roundF64_ne_nan (x : ℚ) : roundF64 x ≠ F64.nan := by
  unfold roundF64
  split_ifs
  · simp
  · exact roundPos_ne_nan x
  · have h := roundPos_ne_nan (-x)
    cases hr : roundPos (-x) <;> simp [F64.neg, hr] at h ⊢

theorem roundHalfEven_le (t : ℚ) : roundHalfEven t ≤ ⌊t⌋ + 1 := by
  unfold roundHalfEven
  split_ifs <;> omega

/-- The conversion `float64(n)` of a positive 64-bit `int` is finite. -/
theorem roundF64_int_fin (n : Int) (hn : 0 < n) (hlt : n < 2 ^ 63) :
    ∃ a, roundF64 (n : ℚ) = F64.fin a := by
  have hx : (0 : ℚ) < (n : ℚ) := by exact_mod_cast hn
  have hx1 : (1 : ℚ) ≤ (n : ℚ) := by exact_mod_cast hn
  have hx63 : (n : ℚ) < (2 : ℚ) ^ (63 : Int) := by
    have h63 : ((2 : Int) ^ 63 : ℚ) = (2 : ℚ) ^ (63 : Int) := by norm_num
    have hcast : (n : ℚ) < ((2 : Int) ^ 63 : ℚ) := by exact_mod_cast hlt
    rw [h63] at hcast
    exact hcast
  have hL0 : (0 : Int) ≤ Int.log 2 (n : ℚ) :=
    (Int.zpow_le_iff_le_log (by decide) hx).mp (by simpa using hx1)
  have hL63 : Int.log 2 (n : ℚ) < 63 :=
    (Int.lt_zpow_iff_log_lt (by decide) hx).mp (by exact_mod_cast hx63)
  have hup : (n : ℚ) < (2 : ℚ) ^ (Int.log 2 (n : ℚ) + 1) := by
    have h := Int.lt_zpow_succ_log_self (b := 2) (by decide) (n : ℚ)
    exact_mod_cast h
  have hE : ulpExponent (n : ℚ) = Int.log 2 (n : ℚ) - 52 := by
    rw [ulpExponent]
    exact max_eq_left (by omega)
  have hpos : (0 : ℚ) < (2 : ℚ) ^ (Int.log 2 (n : ℚ) - 52) := by positivity
  have hsplit : (2 : ℚ) ^ (Int.log 2 (n : ℚ) + 1)
      = (2 : ℚ) ^ (53 : Int) * (2 : ℚ) ^ (Int.log 2 (n : ℚ) - 52) := by
    rw [← zpow_add₀ (by norm_num : (2 : ℚ) ≠ 0)]
    congr 1
    ring
  have ht : (n : ℚ) / (2 : ℚ) ^ (Int.log 2 (n : ℚ) - 52) < (2 : ℚ) ^ (53 : Int) := by
    rw [div_lt_iff₀ hpos, ← hsplit]
    exact hup
  have hfl : ⌊(n : ℚ) / (2 : ℚ) ^ (Int.log 2 (n : ℚ) - 52)⌋ < (2 : Int) ^ 53 := by
    rw [Int.floor_lt]
    have h53 : (((2 : Int) ^ 53 : Int) : ℚ) = (2 : ℚ) ^ (53 : Int) := by norm_num
    rw [h53]
    exact ht
  have hk : (roundHalfEven ((n : ℚ) / (2 : ℚ) ^ (Int.log 2 (n : ℚ) - 52)) : ℚ)
      ≤ (2 : ℚ) ^ (53 : Int) := by
    have h1 := roundHalfEven_le ((n : ℚ) / (2 : ℚ) ^ (Int.log 2 (n : ℚ) - 52))
    have h2 : roundHalfEven ((n : ℚ) / (2 : ℚ) ^ (Int.log 2 (n : ℚ) - 52)) ≤ (2 : Int) ^ 53 := by
      omega
    have h53 : (((2 : Int) ^ 53 : Int) : ℚ) = (2 : ℚ) ^ (53 : Int) := by norm_num
    rw [← h53]
    exact_mod_cast h2
  have hy : (roundHalfEven ((n : ℚ) / (2 : ℚ) ^ (Int.log 2 (n : ℚ) - 52)) : ℚ)
      * (2 : ℚ) ^ (Int.log 2 (n : ℚ) - 52) < (2 : ℚ) ^ (1024 : Int) := by
    have h1 : (roundHalfEven ((n : ℚ) / (2 : ℚ) ^ (Int.log 2 (n : ℚ) - 52)) : ℚ)
        * (2 : ℚ) ^ (Int.log 2 (n : ℚ) - 52) ≤ (2 : ℚ) ^ (Int.log 2 (n : ℚ) + 1) := by
      rw [hsplit]
      exact mul_le_mul_of_nonneg_right hk hpos.le
    have h2 : (2 : ℚ) ^ (Int.log 2 (n : ℚ) + 1) < (2 : ℚ) ^ (1024 : Int) :=
      zpow_lt_zpow_right₀ (by norm_num) (by omega)
    exact lt_of_le_of_lt h1 h2
  refine ⟨(roundHalfEven ((n : ℚ) / (2 : ℚ) ^ (Int.log 2 (n : ℚ) - 52)) : ℚ)
    * (2 : ℚ) ^ (Int.log 2 (n : ℚ) - 52), ?_⟩
  rw [roundF64, if_neg (ne_of_gt hx), if_pos hx, roundPos, hE, if_neg (not_le.mpr hy)]

/-! ## `Fill` with the index as the machine computes it -/

theorem intOfF64_fin (oor : F64 → Int) (q : ℚ) (h1 : -(2 : Int) ^ 63 ≤ truncToInt q)
    (h2 : truncToInt q < (2 : Int) ^ 63) : intOfF64 oor (F64.fin q) = truncToInt q := by
  simp only [intOfF64, if_pos (And.intro h1 h2)]

theorem binIndexF64_of_fin (oor : F64 → Int) (h : Histogram) (v q : ℚ)
    (hq : quotientF64 h v = F64.fin q) (h1 : -(2 : Int) ^ 63 ≤ truncToInt q)
    (h2 : truncToInt q < (2 : Int) ^ 63) : binIndexF64 oor h v = truncToInt q := by
  rw [binIndexF64, hq, intOfF64_fin oor q h1 h2]

/-- Where the quotient is computed without rounding error, the machine's index is
the index of exact arithmetic. -/
theorem binIndexF64_of_exact (oor : F64 → Int) (h : Histogram) (v : ℚ)
    (hex : QuotientExact h v) : binIndexF64 oor h v = binIndex h v :=
  binIndexF64_of_fin oor h v _ hex.1 hex.2.1 hex.2.2

theorem quotientF64_congr (h h2 : Histogram) (hc : SameConfig h h2) (v : ℚ) :
    quotientF64 h2 v = quotientF64 h v := by
  obtain ⟨_, c2, c3, c4⟩ := hc
  simp [quotientF64, c2, c3, c4]

theorem binIndexF64_congr (oor : F64 → Int) (h h2 : Histogram) (hc : SameConfig h h2) (v : ℚ) :
    binIndexF64 oor h2 v = binIndexF64 oor h v := by
  rw [binIndexF64, binIndexF64, quotientF64_congr h h2 hc v]

theorem fillValueF64_of_neg (oor : F64 → Int) (h : Histogram) (v : ℚ)
    (hneg : binIndexF64 oor h v < 0) :
    fillValueF64 oor h v
      = .ok { h with data := h.data ++ [v], underflow := h.underflow + 1 } := by
  have hneg2 : binIndexF64 oor { h with data := h.data ++ [v] } v < 0 := hneg
  simp only [fillValueF64, if_pos hneg2]

theorem fillValueF64_of_ge (oor : F64 → Int) (h : Histogram) (v : ℚ)
    (hpos : 0 ≤ binIndexF64 oor h v) (hge : h.nBins ≤ binIndexF64 oor h v) :
    fillValueF64 oor h v
      = .ok { h with data := h.data ++ [v], overflow := h.overflow + 1 } := by
  have h1 : ¬ binIndexF64 oor { h with data := h.data ++ [v] } v < 0 := not_lt.mpr hpos
  have h2 : binIndexF64 oor { h with data := h.data ++ [v] } v ≥ h.nBins := hge
  simp only [fillValueF64, if_neg h1, if_pos h2]

theorem fillValueF64_of_bin (oor : F64 → Int) (h : Histogram) (v : ℚ) (k : Nat) (c : Int)
    (hk : binIndexF64 oor h v = (k : Int)) (hlt : (k : Int) < h.nBins)
    (hc : h.Bins[k]? = some c) :
    fillValueF64 oor h v
      = .ok { h with data := h.data ++ [v], Bins := h.Bins.set k (c + 1) } := by
  have hk2 : binIndexF64 oor { h with data := h.data ++ [v] } v = (k : Int) := hk
  have h1 : ¬ ((k : Int) < 0) := by omega
  have h2 : ¬ ((k : Int) ≥ h.nBins) := by omega
  simp only [fillValueF64, hk2, if_neg h1, if_neg h2, Int.toNat_ofNat, hc]

theorem FillF64_cons (oor : F64 → Int) (h : Histogram) (v : ℚ) (vs : List ℚ) :
    FillF64 oor h (v :: vs) = fillValueF64 oor h v >>= fun h1 => FillF64 oor h1 vs := by
  simp [FillF64, List.foldlM_cons]

theorem FillF64_singleton (oor : F64 → Int) (h : Histogram) (v : ℚ) :
    FillF64 oor h [v] = fillValueF64 oor h v := by
  rw [FillF64_cons]
  cases fillValueF64 oor h v <;> rfl

/-- Where the machine's index is the index of exact arithmetic, the two iterations
agree. -/
theorem fillValueF64_eq_fillValue (oor : F64 → Int) (h : Histogram) (v : ℚ)
    (hidx : binIndexF64 oor h v = binIndex h v) : fillValueF64 oor h v = fillValue h v := by
  have hidx2 : binIndexF64 oor { h with data := h.data ++ [v] } v
      = binIndex { h with data := h.data ++ [v] } v := hidx
  simp only [fillValueF64, fillValue, hidx2]

/-- Where the machine's index is the index of exact arithmetic for every value, the
two versions of `Fill` agree. -/
theorem FillF64_eq_Fill (oor : F64 → Int) (h : Histogram) (hfit : BinsFit h) (vs : List ℚ)
    (hall : ∀ v ∈ vs, binIndexF64 oor h v = binIndex h v) :
    FillF64 oor h vs = Fill h vs := by
  induction vs generalizing h with
  | nil => rfl
  | cons v t ih =>
    obtain ⟨h1, e1, fit1, c1, _⟩ := fillValue_step h hfit v
    have e2 : fillValueF64 oor h v = .ok h1 := by
      rw [fillValueF64_eq_fillValue oor h v (hall v (List.mem_cons_self _ _)), e1]
    have hall1 : ∀ x ∈ t, binIndexF64 oor h1 x = binIndex h1 x := by
      intro x hx
      rw [binIndexF64_congr oor h h1 c1 x, binIndex_congr h h1 c1 x]
      exact hall x (List.mem_cons_of_mem _ hx)
    rw [FillF64_cons, e2, Fill_cons, e1]
    exact ih h1 fit1 hall1

theorem WellFormed.binsFit (h : Histogram) (hwf : WellFormed h) : BinsFit h := by
  unfold WellFormed at hwf
  unfold BinsFit
  omega

/-- On a well-formed histogram a value whose machine index is `k < nBins` is counted
in bin `k` and nowhere else. -/
theorem FillF64_counts_in_bin (oor : F64 → Int) (h : Histogram) (hwf : WellFormed h) (v : ℚ)
    (k : Nat) (hk : binIndexF64 oor h v = (k : Int)) (hlt : (k : Int) < h.nBins) :
    ∃ h2, FillF64 oor h [v] = .ok h2 ∧ IncrementsOnlyBin h h2 k ∧ h2.data = h.data ++ [v] := by
  have hklen : k < h.Bins.length := by
    unfold WellFormed at hwf
    omega
  have hc : h.Bins[k]? = some (h.Bins[k]) := List.getElem?_eq_getElem hklen
  refine ⟨_, (FillF64_singleton oor h v).trans (fillValueF64_of_bin oor h v k _ hk hlt hc),
    ?_, rfl⟩
  refine ⟨⟨h.Bins[k], hc, ?_⟩, ?_, ?_, rfl, rfl⟩
  · simp [List.getElem?_set, hklen]
  · intro j hj
    simp [List.getElem?_set, Ne.symm hj]
  · simp

/-- The machine's quotient from the roundings of its four operations. -/
theorem quotientF64_eval (h : Histogram) (v n r p d q : ℚ)
    (hn : roundF64 (h.nBins : ℚ) = F64.fin n)
    (hr : roundF64 (v - h.lowBin) = F64.fin r)
    (hp : roundF64 (n * r) = F64.fin p)
    (hd : roundF64 (h.highBin - h.lowBin) = F64.fin d) (hd0 : d ≠ 0)
    (hq : roundF64 (p / d) = F64.fin q) : quotientF64 h v = F64.fin q := by
  simp only [quotientF64, hn, hr, hd, F64.mul, hp, F64.div, if_neg hd0, hq]

/-- A value equal to `lowBin` has the machine quotient 0, whatever the rounding. -/
theorem quotientF64_lowBin (h : Histogram) (hn : 0 < h.nBins) (hint : h.nBins < 2 ^ 63)
    (hd : roundF64 (h.highBin - h.lowBin) ≠ F64.fin 0) :
    quotientF64 h h.lowBin = F64.fin 0 := by
  obtain ⟨a, ha⟩ := roundF64_int_fin h.nBins hn hint
  have hz : roundF64 (h.lowBin - h.lowBin) = F64.fin 0 := roundF64_zero _ (sub_self _)
  have hm : roundF64 (a * 0) = F64.fin 0 := roundF64_zero _ (mul_zero _)
  have hnan := roundF64_ne_nan (h.highBin - h.lowBin)
  cases hD : roundF64 (h.highBin - h.lowBin) with
  | fin d =>
    have hd0 : d ≠ 0 := by
      intro h0
      rw [hD, h0] at hd
      exact hd rfl
    have hq : roundF64 (0 / d) = F64.fin 0 := roundF64_zero _ (zero_div _)
    simp only [quotientF64, ha, hz, hD, F64.mul, hm, F64.div, if_neg hd0, hq]
  | posInf => simp only [quotientF64, ha, hz, hD, F64.mul, hm, F64.div]
  | negInf => simp only [quotientF64, ha, hz, hD, F64.mul, hm, F64.div]
  | nan => exact absurd hD hnan

theorem truncToInt_bounds (q : ℚ) (a b : Int) (ha : a ≤ 0) (hb : 0 ≤ b) (h1 : (a : ℚ) ≤ q)
    (h2 : q ≤ (b : ℚ)) : a ≤ truncToInt q ∧ truncToInt q ≤ b := by
  unfold truncToInt
  split_ifs with hq
  · have h0 : (0 : Int) ≤ ⌊q⌋ := Int.floor_nonneg.mpr hq
    have h3 : ⌊q⌋ ≤ b := by
      have : (⌊q⌋ : ℚ) ≤ (b : ℚ) := le_trans (Int.floor_le q) h2
      exact_mod_cast this
    omega
  · have hq0 : q < 0 := lt_of_not_ge hq
    have h3 : ⌈q⌉ ≤ 0 := by
      rw [Int.ceil_le]
      simpa using hq0.le
    have h4 : a ≤ ⌈q⌉ := by
      have : (a : ℚ) ≤ (⌈q⌉ : ℚ) := le_trans h1 (Int.le_ceil q)
      exact_mod_cast this
    omega

theorem not_incrementsOnlyBin_of_other (h h2 : Histogram) (k j : Nat) (hkj : j ≠ k)
    (hinc : IncrementsOnlyBin h h2 k) : ¬ IncrementsOnlyBin h h2 j := by
  intro hother
  obtain ⟨⟨c, hc1, hc2⟩, _⟩ := hother
  have hsame := hinc.2.1 j hkj
  rw [hc1, hc2] at hsame
  simp at hsame

/-- A finite machine quotient has a divisor that did not round to zero. -/
theorem quotientF64_fin_divisor (h : Histogram) (u q : ℚ)
    (hq : quotientF64 h u = F64.fin q) :
    roundF64 (h.highBin - h.lowBin) ≠ F64.fin 0 := by
  intro hD
  unfold quotientF64 at hq
  rw [hD] at hq
  cases hm : F64.mul (roundF64 (h.nBins : ℚ)) (roundF64 (u - h.lowBin)) with
  | fin a =>
    rw [hm] at hq
    simp only [F64.div, if_true] at hq
    split_ifs at hq
  | posInf =>
    rw [hm] at hq
    simp [F64.div] at hq
  | negInf =>
    rw [hm] at hq
    simp [F64.div] at hq
  | nan =>
    rw [hm] at hq
    simp [F64.div] at hq

/-- The machine quotient of `0.3` with ten bins over `[0, 1)`: `10 * 0.3` rounds up to
`3`. -/
theorem quotientF64_float03 :
    quotientF64 (NewHistogram "Title" 10 0 1) float03 = F64.fin 3 :=
  quotientF64_eval _ _ 10 (5404319552844595 / 18014398509481984) 3 1 3
    (roundF64_pos _ 10 10 3 (by norm_num [roundHalfEven, NewHistogram, float03]))
    (roundF64_pos _ (5404319552844595 / 18014398509481984) (5404319552844595 / 18014398509481984) (-2) (by norm_num [roundHalfEven, NewHistogram, float03]))
    (roundF64_pos _ (27021597764222975 / 9007199254740992) 3 1 (by norm_num [roundHalfEven, NewHistogram, float03]))
    (roundF64_pos _ 1 1 0 (by norm_num [roundHalfEven, NewHistogram, float03]))
    (by norm_num)
    (roundF64_pos _ 3 3 1 (by norm_num [roundHalfEven, NewHistogram, float03]))

/-- The machine quotient of `11/2` in the histogram of `main`, computed without
rounding. -/
theorem quotientF64_main_eleven_halves :
    quotientF64 (NewHistogram "Title" 10 (1 / 2) (21 / 2)) (11 / 2) = F64.fin 5 :=
  quotientF64_eval _ _ 10 5 50 10 5
    (roundF64_pos _ 10 10 3 (by norm_num [roundHalfEven, NewHistogram]))
    (roundF64_pos _ 5 5 2 (by norm_num [roundHalfEven, NewHistogram]))
    (roundF64_pos _ 50 50 5 (by norm_num [roundHalfEven, NewHistogram]))
    (roundF64_pos _ 10 10 3 (by norm_num [roundHalfEven, NewHistogram]))
    (by norm_num)
    (roundF64_pos _ 5 5 2 (by norm_num [roundHalfEven, NewHistogram]))

theorem quotientExact_of (h : Histogram) (v q : ℚ) (hq : quotientF64 h v = F64.fin q)
    (he : q = exactQuotient h v) (h1 : -(2 : ℚ) ^ 63 ≤ q) (h2 : q ≤ (2 : ℚ) ^ 63 - 1) :
    QuotientExact h v := by
  subst he
  have hb := truncToInt_bounds (exactQuotient h v) (-(2 : Int) ^ 63) ((2 : Int) ^ 63 - 1)
    (by decide) (by decide) (by push_cast; exact h1) (by push_cast; linarith)
  exact ⟨hq, hb.1, by omega⟩

/-- The machine quotient of `1/4` in the histogram of `main`, computed without rounding. -/
theorem quotientF64_main_quarter :
    quotientF64 (NewHistogram "Title" 10 (1 / 2) (21 / 2)) (1 / 4) = F64.fin (-(1 / 4)) :=
  quotientF64_eval _ _ 10 (-(1 / 4)) (-(5 / 2)) 10 (-(1 / 4))
    (roundF64_pos _ 10 10 3 (by norm_num [roundHalfEven, NewHistogram]))
    (roundF64_neg _ (1 / 4) (1 / 4) (-2) (by norm_num [roundHalfEven, NewHistogram]))
    (roundF64_neg _ (5 / 2) (5 / 2) 1 (by norm_num [roundHalfEven, NewHistogram]))
    (roundF64_pos _ 10 10 3 (by norm_num [roundHalfEven, NewHistogram]))
    (by norm_num)
    (roundF64_neg _ (1 / 4) (1 / 4) (-2) (by norm_num [roundHalfEven, NewHistogram]))

/-- The machine quotient of `1` in the histogram of `main`, computed without rounding. -/
theorem quotientF64_main_one :
    quotientF64 (NewHistogram "Title" 10 (1 / 2) (21 / 2)) 1 = F64.fin (1 / 2) :=
  quotientF64_eval _ _ 10 (1 / 2) 5 10 (1 / 2)
    (roundF64_pos _ 10 10 3 (by norm_num [roundHalfEven, NewHistogram]))
    (roundF64_pos _ (1 / 2) (1 / 2) (-1) (by norm_num [roundHalfEven, NewHistogram]))
    (roundF64_pos _ 5 5 2 (by norm_num [roundHalfEven, NewHistogram]))
    (roundF64_pos _ 10 10 3 (by norm_num [roundHalfEven, NewHistogram]))
    (by norm_num)
    (roundF64_pos _ (1 / 2) (1 / 2) (-1) (by norm_num [roundHalfEven, NewHistogram]))

/-- The machine quotient of `-3` in the histogram of `main`, computed without rounding. -/
theorem quotientF64_main_minus_three :
    quotientF64 (NewHistogram "Title" 10 (1 / 2) (21 / 2)) (-3) = F64.fin (-(7 / 2)) :=
  quotientF64_eval _ _ 10 (-(7 / 2)) (-35) 10 (-(7 / 2))
    (roundF64_pos _ 10 10 3 (by norm_num [roundHalfEven, NewHistogram]))
    (roundF64_neg _ (7 / 2) (7 / 2) 1 (by norm_num [roundHalfEven, NewHistogram]))
    (roundF64_neg _ 35 35 5 (by norm_num [roundHalfEven, NewHistogram]))
    (roundF64_pos _ 10 10 3 (by norm_num [roundHalfEven, NewHistogram]))
    (by norm_num)
    (roundF64_neg _ (7 / 2) (7 / 2) 1 (by norm_num [roundHalfEven, NewHistogram]))

/-- The machine quotient of `-1` in the histogram of `main`, computed without rounding. -/
theorem quotientF64_main_minus_one :
    quotientF64 (NewHistogram "Title" 10 (1 / 2) (21 / 2)) (-1) = F64.fin (-(3 / 2)) :=
  quotientF64_eval _ _ 10 (-(3 / 2)) (-15) 10 (-(3 / 2))
    (roundF64_pos _ 10 10 3 (by norm_num [roundHalfEven, NewHistogram]))
    (roundF64_neg _ (3 / 2) (3 / 2) 0 (by norm_num [roundHalfEven, NewHistogram]))
    (roundF64_neg _ 15 15 3 (by norm_num [roundHalfEven, NewHistogram]))
    (roundF64_pos _ 10 10 3 (by norm_num [roundHalfEven, NewHistogram]))
    (by norm_num)
    (roundF64_neg _ (3 / 2) (3 / 2) 0 (by norm_num [roundHalfEven, NewHistogram]))

/-- The machine quotient of `-1/2` in the histogram of `main`, computed without rounding. -/
theorem quotientF64_main_minus_half :
    quotientF64 (NewHistogram "Title" 10 (1 / 2) (21 / 2)) (-(1 / 2)) = F64.fin (-1) :=
  quotientF64_eval _ _ 10 (-1) (-10) 10 (-1)
    (roundF64_pos _ 10 10 3 (by norm_num [roundHalfEven, NewHistogram]))
    (roundF64_neg _ 1 1 0 (by norm_num [roundHalfEven, NewHistogram]))
    (roundF64_neg _ 10 10 3 (by norm_num [roundHalfEven, NewHistogram]))
    (roundF64_pos _ 10 10 3 (by norm_num [roundHalfEven, NewHistogram]))
    (by norm_num)
    (roundF64_neg _ 1 1 0 (by norm_num [roundHalfEven, NewHistogram]))

/-- The machine quotient of `21/2` in the histogram of `main`, computed without rounding. -/
theorem quotientF64_main_highBin :
    quotientF64 (NewHistogram "Title" 10 (1 / 2) (21 / 2)) (21 / 2) = F64.fin 10 :=
  quotientF64_eval _ _ 10 10 100 10 10
    (roundF64_pos _ 10 10 3 (by norm_num [roundHalfEven, NewHistogram]))
    (roundF64_pos _ 10 10 3 (by norm_num [roundHalfEven, NewHistogram]))
    (roundF64_pos _ 100 100 6 (by norm_num [roundHalfEven, NewHistogram]))
    (roundF64_pos _ 10 10 3 (by norm_num [roundHalfEven, NewHistogram]))
    (by norm_num)
    (roundF64_pos _ 10 10 3 (by norm_num [roundHalfEven, NewHistogram]))

/-- The machine quotient of `11` in the histogram of `main`, computed without rounding. -/
theorem quotientF64_main_eleven :
    quotientF64 (NewHistogram "Title" 10 (1 / 2) (21 / 2)) 11 = F64.fin (21 / 2) :=
  quotientF64_eval _ _ 10 (21 / 2) 105 10 (21 / 2)
    (roundF64_pos _ 10 10 3 (by norm_num [roundHalfEven, NewHistogram]))
    (roundF64_pos _ (21 / 2) (21 / 2) 3 (by norm_num [roundHalfEven, NewHistogram]))
    (roundF64_pos _ 105 105 6 (by norm_num [roundHalfEven, NewHistogram]))
    (roundF64_pos _ 10 10 3 (by norm_num [roundHalfEven, NewHistogram]))
    (by norm_num)
    (roundF64_pos _ (21 / 2) (21 / 2) 3 (by norm_num [roundHalfEven, NewHistogram]))

/-- The machine quotient of `10` in the histogram of `main`, computed without rounding. -/
theorem quotientF64_main_ten :
    quotientF64 (NewHistogram "Title" 10 (1 / 2) (21 / 2)) 10 = F64.fin (19 / 2) :=
  quotientF64_eval _ _ 10 (19 / 2) 95 10 (19 / 2)
    (roundF64_pos _ 10 10 3 (by norm_num [roundHalfEven, NewHistogram]))
    (roundF64_pos _ (19 / 2) (19 / 2) 3 (by norm_num [roundHalfEven, NewHistogram]))
    (roundF64_pos _ 95 95 6 (by norm_num [roundHalfEven, NewHistogram]))
    (roundF64_pos _ 10 10 3 (by norm_num [roundHalfEven, NewHistogram]))
    (by norm_num)
    (roundF64_pos _ (19 / 2) (19 / 2) 3 (by norm_num [roundHalfEven, NewHistogram]))

theorem quotientExact_main_quarter : QuotientExact (NewHistogram "Title" 10 (1 / 2) (21 / 2)) (1 / 4) :=
  quotientExact_of _ _ _ quotientF64_main_quarter (by norm_num [exactQuotient, NewHistogram])
    (by norm_num) (by norm_num)

theorem quotientExact_main_one : QuotientExact (NewHistogram "Title" 10 (1 / 2) (21 / 2)) 1 :=
  quotientExact_of _ _ _ quotientF64_main_one (by norm_num [exactQuotient, NewHistogram])
    (by norm_num) (by norm_num)

theorem quotientExact_main_minus_three : QuotientExact (NewHistogram "Title" 10 (1 / 2) (21 / 2)) (-3) :=
  quotientExact_of _ _ _ quotientF64_main_minus_three (by norm_num [exactQuotient, NewHistogram])
    (by norm_num) (by norm_num)

theorem quotientExact_main_minus_one : QuotientExact (NewHistogram "Title" 10 (1 / 2) (21 / 2)) (-1) :=
  quotientExact_of _ _ _ quotientF64_main_minus_one (by norm_num [exactQuotient, NewHistogram])
    (by norm_num) (by norm_num)

theorem quotientExact_main_minus_half : QuotientExact (NewHistogram "Title" 10 (1 / 2) (21 / 2)) (-(1 / 2)) :=
  quotientExact_of _ _ _ quotientF64_main_minus_half (by norm_num [exactQuotient, NewHistogram])
    (by norm_num) (by norm_num)

theorem quotientExact_main_highBin : QuotientExact (NewHistogram "Title" 10 (1 / 2) (21 / 2)) (21 / 2) :=
  quotientExact_of _ _ _ quotientF64_main_highBin (by norm_num [exactQuotient, NewHistogram])
    (by norm_num) (by norm_num)

theorem quotientExact_main_eleven : QuotientExact (NewHistogram "Title" 10 (1 / 2) (21 / 2)) 11 :=
  quotientExact_of _ _ _ quotientF64_main_eleven (by norm_num [exactQuotient, NewHistogram])
    (by norm_num) (by norm_num)

theorem quotientExact_main_ten : QuotientExact (NewHistogram "Title" 10 (1 / 2) (21 / 2)) 10 :=
  quotientExact_of _ _ _ quotientF64_main_ten (by norm_num [exactQuotient, NewHistogram])
    (by norm_num) (by norm_num)

theorem quotientExact_main_eleven_halves : QuotientExact (NewHistogram "Title" 10 (1 / 2) (21 / 2)) (11 / 2) :=
  quotientExact_of _ _ _ quotientF64_main_eleven_halves (by norm_num [exactQuotient, NewHistogram])
    (by norm_num) (by norm_num)

/-- The machine quotient of `highBin` with three bins over `[0, 0.7)`: `3 * 0.7` is
half way between two `float64` values and rounds down, and the quotient comes out
below 3. -/
theorem quotientF64_float07 :
    quotientF64 (NewHistogram "Title" 3 0 float07) float07 = F64.fin (6755399441055743 / 2251799813685248) :=
  quotientF64_eval _ _ 3 (3152519739159347 / 4503599627370496) (1182194902184755 / 562949953421312) (3152519739159347 / 4503599627370496) (6755399441055743 / 2251799813685248)
    (roundF64_pos _ 3 3 1 (by norm_num [roundHalfEven, NewHistogram, float07]))
    (roundF64_pos _ (3152519739159347 / 4503599627370496) (3152519739159347 / 4503599627370496) (-1) (by norm_num [roundHalfEven, NewHistogram, float07]))
    (roundF64_pos _ (9457559217478041 / 4503599627370496) (1182194902184755 / 562949953421312) 1 (by norm_num [roundHalfEven, NewHistogram, float07]))
    (roundF64_pos _ (3152519739159347 / 4503599627370496) (3152519739159347 / 4503599627370496) (-1) (by norm_num [roundHalfEven, NewHistogram, float07]))
    (by norm_num)
    (roundF64_pos _ (9457559217478040 / 3152519739159347) (6755399441055743 / 2251799813685248) 1 (by norm_num [roundHalfEven, NewHistogram, float07]))

/-- The machine quotient of `-0.49999999999999994` in the histogram of `main`:
the difference to `1/2` is half way between two `float64` values and rounds to
`-1`. -/
theorem quotientF64_floatAboveMinusHalf :
    quotientF64 (NewHistogram "Title" 10 (1 / 2) (21 / 2)) floatAboveMinusHalf = F64.fin (-1) :=
  quotientF64_eval _ _ 10 (-1) (-10) 10 (-1)
    (roundF64_pos _ 10 10 3 (by norm_num [roundHalfEven, NewHistogram, floatAboveMinusHalf]))
    (roundF64_neg _ (18014398509481983 / 18014398509481984) 1 (-1) (by norm_num [roundHalfEven, NewHistogram, floatAboveMinusHalf]))
    (roundF64_neg _ 10 10 3 (by norm_num [roundHalfEven, NewHistogram, floatAboveMinusHalf]))
    (roundF64_pos _ 10 10 3 (by norm_num [roundHalfEven, NewHistogram, floatAboveMinusHalf]))
    (by norm_num)
    (roundF64_neg _ 1 1 0 (by norm_num [roundHalfEven, NewHistogram, floatAboveMinusHalf]))

theorem truncToInt_neg_one : truncToInt (-1) = -1 := by
  unfold truncToInt
  rw [if_neg (by norm_num), Int.ceil_eq_iff]
  norm_num

/-! ## `BinCenter` as the machine computes it -/

/-- The machine's `BinCenter` from the roundings of its operations. -/
theorem BinCenterF64_eval (h : Histogram) (i : Int) (a b d m n t c : ℚ)
    (ha : roundF64 (i : ℚ) = F64.fin a)
    (hb : roundF64 (a + 1 / 2) = F64.fin b)
    (hd : roundF64 (h.highBin - h.lowBin) = F64.fin d)
    (hm : roundF64 (b * d) = F64.fin m)
    (hn : roundF64 (h.nBins : ℚ) = F64.fin n) (hn0 : n ≠ 0)
    (ht : roundF64 (m / n) = F64.fin t)
    (hc : roundF64 (t + h.lowBin) = F64.fin c) : BinCenterF64 h i = F64.fin c := by
  simp only [BinCenterF64, ha, F64.add, hb, hd, F64.mul, hm, hn, F64.div, if_neg hn0, ht, hc]

/-- With four bins over `[10^16, 10^16 + 4)`, where neighbouring `float64` values are
2 apart, the machine returns `10^16 + 2` for `BinCenter(1)`: the midpoint
`10^16 + 3/2` is not a `float64`. -/
theorem BinCenterF64_wide :
    BinCenterF64 (NewHistogram "Title" 4 10000000000000000 10000000000000004) 1 = F64.fin 10000000000000002 :=
  BinCenterF64_eval _ _ 1 (3 / 2) 4 6 4 (3 / 2) 10000000000000002
    (roundF64_pos _ 1 1 0 (by norm_num [roundHalfEven, NewHistogram]))
    (roundF64_pos _ (3 / 2) (3 / 2) 0 (by norm_num [roundHalfEven, NewHistogram]))
    (roundF64_pos _ 4 4 2 (by norm_num [roundHalfEven, NewHistogram]))
    (roundF64_pos _ 6 6 2 (by norm_num [roundHalfEven, NewHistogram]))
    (roundF64_pos _ 4 4 2 (by norm_num [roundHalfEven, NewHistogram]))
    (by norm_num)
    (roundF64_pos _ (3 / 2) (3 / 2) 0 (by norm_num [roundHalfEven, NewHistogram]))
    (roundF64_pos _ (20000000000000003 / 2) 10000000000000002 53 (by norm_num [roundHalfEven, NewHistogram]))

/-- The machine quotient of `10^16 + 2` with four bins over `[10^16, 10^16 + 4)`. -/
theorem quotientF64_wide :
    quotientF64 (NewHistogram "Title" 4 10000000000000000 10000000000000004) 10000000000000002 = F64.fin 2 :=
  quotientF64_eval _ _ 4 2 8 4 2
    (roundF64_pos _ 4 4 2 (by norm_num [roundHalfEven, NewHistogram]))
    (roundF64_pos _ 2 2 1 (by norm_num [roundHalfEven, NewHistogram]))
    (roundF64_pos _ 8 8 3 (by norm_num [roundHalfEven, NewHistogram]))
    (roundF64_pos _ 4 4 2 (by norm_num [roundHalfEven, NewHistogram]))
    (by norm_num)
    (roundF64_pos _ 2 2 1 (by norm_num [roundHalfEven, NewHistogram]))

/-- The machine's `BinCenter(9)` in the histogram of `main`, computed without
rounding. -/
theorem BinCenterF64_main_nine :
    BinCenterF64 (NewHistogram "Title" 10 (1 / 2) (21 / 2)) 9 = F64.fin 10 :=
  BinCenterF64_eval _ _ 9 (19 / 2) 10 95 10 (19 / 2) 10
    (roundF64_pos _ 9 9 3 (by norm_num [roundHalfEven, NewHistogram]))
    (roundF64_pos _ (19 / 2) (19 / 2) 3 (by norm_num [roundHalfEven, NewHistogram]))
    (roundF64_pos _ 10 10 3 (by norm_num [roundHalfEven, NewHistogram]))
    (roundF64_pos _ 95 95 6 (by norm_num [roundHalfEven, NewHistogram]))
    (roundF64_pos _ 10 10 3 (by norm_num [roundHalfEven, NewHistogram]))
    (by norm_num)
    (roundF64_pos _ (19 / 2) (19 / 2) 3 (by norm_num [roundHalfEven, NewHistogram]))
    (roundF64_pos _ 10 10 3 (by norm_num [roundHalfEven, NewHistogram]))

/-! ## The guards of `Fill` with the machine's index

The results that rest on the two guards alone hold for the machine's index as well,
whatever the rounding and whatever an out-of-range conversion yields. -/

/-- One iteration of the machine's `Fill` on a histogram whose `Bins` has
`max(nBins, 0)` entries never faults, appends the value and adds one to exactly one
counter. -/
theorem fillValueF64_step (oor : F64 → Int) (h : Histogram) (hfit : BinsFit h) (v : ℚ) :
    ∃ h2, fillValueF64 oor h v = .ok h2 ∧ BinsFit h2 ∧ SameConfig h h2 ∧
      h2.data = h.data ++ [v] ∧ List.Forall₂ (· ≤ ·) h.Bins h2.Bins ∧
      h.underflow ≤ h2.underflow ∧ h.overflow ≤ h2.overflow ∧
      sumBins h2 + h2.underflow + h2.overflow
        = sumBins h + h.underflow + h.overflow + 1 := by
  unfold BinsFit at hfit
  by_cases hneg : binIndexF64 oor h v < 0
  · refine ⟨_, fillValueF64_of_neg oor h v hneg, hfit, ⟨rfl, rfl, rfl, rfl⟩, rfl,
      List.forall₂_refl _, by simp, le_rfl, ?_⟩
    simp only [sumBins]
    ring
  · have hpos : 0 ≤ binIndexF64 oor h v := not_lt.mp hneg
    by_cases hge : h.nBins ≤ binIndexF64 oor h v
    · refine ⟨_, fillValueF64_of_ge oor h v hpos hge, hfit, ⟨rfl, rfl, rfl, rfl⟩, rfl,
        List.forall₂_refl _, le_rfl, by simp, ?_⟩
      simp only [sumBins]
      ring
    · obtain ⟨k, hk⟩ := Int.eq_ofNat_of_zero_le hpos
      have hlt : (k : Int) < h.nBins := by omega
      have hklen : k < h.Bins.length := by omega
      have hc : h.Bins[k]? = some (h.Bins[k]) := List.getElem?_eq_getElem hklen
      refine ⟨_, fillValueF64_of_bin oor h v k _ hk hlt hc, ?_, ⟨rfl, rfl, rfl, rfl⟩, rfl,
        forall₂_le_set _ _ _ hc, le_rfl, le_rfl, ?_⟩
      · unfold BinsFit
        simpa using hfit
      · simp only [sumBins, sum_set_succ _ _ _ hc]
        ring

/-- The machine's `Fill` on a histogram whose `Bins` has `max(nBins, 0)` entries never
faults; it keeps the configuration, appends the values, lowers no counter and adds
the number of values to the total of the counters. -/
theorem FillF64_total (oor : F64 → Int) (h : Histogram) (hfit : BinsFit h) (vs : List ℚ) :
    ∃ h2, FillF64 oor h vs = .ok h2 ∧ BinsFit h2 ∧ SameConfig h h2 ∧
      h2.data = h.data ++ vs ∧ List.Forall₂ (· ≤ ·) h.Bins h2.Bins ∧
      h.underflow ≤ h2.underflow ∧ h.overflow ≤ h2.overflow ∧
      sumBins h2 + h2.underflow + h2.overflow
        = sumBins h + h.underflow + h.overflow + (vs.length : Int) := by
  induction vs generalizing h with
  | nil =>
    exact ⟨h, rfl, hfit, ⟨rfl, rfl, rfl, rfl⟩, by simp, List.forall₂_refl _, le_rfl, le_rfl,
      by simp⟩
  | cons v t ih =>
    obtain ⟨h1, e1, fit1, c1, d1, b1, u1, o1, s1⟩ := fillValueF64_step oor h hfit v
    obtain ⟨h2, e2, fit2, c2, d2, b2, u2, o2, s2⟩ := ih h1 fit1
    obtain ⟨a1, a2, a3, a4⟩ := c1
    obtain ⟨g1, g2, g3, g4⟩ := c2
    refine ⟨h2, ?_, fit2, ⟨g1.trans a1, g2.trans a2, g3.trans a3, g4.trans a4⟩, ?_,
      forall₂_le_trans _ _ _ b1 b2, le_trans u1 u2, le_trans o1 o2, ?_⟩
    · rw [FillF64_cons, e1]
      exact e2
    · rw [d2, d1]
      simp
    · rw [s2, s1]
      simp only [List.length_cons]
      push_cast
      ring

/-- Every sequence of calls of the machine's `Fill` from `NewHistogram`, for every
integer `nBins` and every range, runs to its end with `len(Bins) = max(nBins, 0)`
and `sum(Bins) + underflow + overflow = len(data)`. -/
theorem FillF64_calls_total (oor : F64 → Int) (title : String) (nBins : Int)
    (lowBin highBin : ℚ) (calls : List (List ℚ)) :
    ∃ h, calls.foldlM (FillF64 oor) (NewHistogram title nBins lowBin highBin) = .ok h ∧
      BinsFit h ∧ SameConfig (NewHistogram title nBins lowBin highBin) h ∧
      h.data = calls.flatten ∧
      sumBins h + h.underflow + h.overflow = (h.data.length : Int) := by
  have key : ∀ (g : Histogram), BinsFit g →
      ∃ h, calls.foldlM (FillF64 oor) g = .ok h ∧ BinsFit h ∧ SameConfig g h ∧
        h.data = g.data ++ calls.flatten ∧
        sumBins h + h.underflow + h.overflow
          = sumBins g + g.underflow + g.overflow + (calls.flatten.length : Int) := by
    induction calls with
    | nil =>
      intro g hg
      exact ⟨g, rfl, hg, ⟨rfl, rfl, rfl, rfl⟩, by simp, by simp⟩
    | cons vs t ih =>
      intro g hg
      obtain ⟨h1, e1, fit1, c1, d1, _, _, _, s1⟩ := FillF64_total oor g hg vs
      obtain ⟨h2, e2, fit2, c2, d2, s2⟩ := ih h1 fit1
      obtain ⟨a1, a2, a3, a4⟩ := c1
      obtain ⟨g1, g2, g3, g4⟩ := c2
      refine ⟨h2, ?_, fit2, ⟨g1.trans a1, g2.trans a2, g3.trans a3, g4.trans a4⟩, ?_, ?_⟩
      · rw [List.foldlM_cons, e1]
        exact e2
      · rw [d2, d1]
        simp
      · rw [s2, s1]
        simp only [List.flatten_cons, List.length_append]
        push_cast
        ring
  obtain ⟨h, e, fit, c, d, s⟩ := key _ (NewHistogram_binsFit title nBins lowBin highBin)
  have hs : sumBins (NewHistogram title nBins lowBin highBin) = 0 := by
    simp [sumBins, NewHistogram_Bins]
  have d2 : h.data = calls.flatten := by simpa [NewHistogram] using d
  refine ⟨h, e, fit, c, d2, ?_⟩
  rw [s, d2, hs]
  simp [NewHistogram]

/-- Two calls of the machine's `Fill` are one call with the concatenated values. -/
theorem FillF64_append (oor : F64 → Int) (h : Histogram) (a b : List ℚ) :
    (FillF64 oor h a >>= fun h1 => FillF64 oor h1 b) = FillF64 oor h (a ++ b) := by
  simp [FillF64, List.foldlM_append]

/-! ## Claims -/

/-- C1: for a histogram built by `NewHistogram` with `nBins > 0` and
`lowBin < highBin`, every sequence of `Fill` calls runs to its end, `data` holds
exactly the submitted values, and `sum(Bins) + underflow + overflow` equals
`len(data)`, the number of values ever submitted. -/
theorem C1_counters_add_up_to_samples (title : String) (nBins : Int) (lowBin highBin : ℚ)
    (hn : 0 < nBins) (_hr : lowBin < highBin) (calls : List (List ℚ)) :
    ∃ h, calls.foldlM Fill (NewHistogram title nBins lowBin highBin) = .ok h ∧
      h.data = calls.flatten ∧
      sumBins h + h.underflow + h.overflow = (h.data.length : Int) ∧
      h.data.length = (calls.map List.length).sum := by
  obtain ⟨h, e, _, _, d, s⟩ :=
    Fill_calls_total _ (NewHistogram_wellFormed title nBins lowBin highBin hn.le) calls
  have d2 : h.data = calls.flatten := by simpa [NewHistogram] using d
  refine ⟨h, e, d2, ?_, ?_⟩
  · have hs : sumBins (NewHistogram title nBins lowBin highBin) = 0 := by
      simp [sumBins, NewHistogram_Bins]
    rw [s, d2, hs]
    simp [NewHistogram]
  · rw [d2, List.length_flatten]

/-- C1, witness: ten bins over `[1/2, 21/2)` and two `Fill` calls. -/
theorem C1_counters_add_up_to_samples_witness :
    (0 : Int) < 10 ∧ (1 / 2 : ℚ) < 21 / 2 ∧
    ∃ h, [[1, 1, 11 / 2], [11, -3]].foldlM Fill (NewHistogram "Title" 10 (1 / 2) (21 / 2)) = .ok h ∧
      h.data = [[1, 1, 11 / 2], [11, -3]].flatten ∧
      sumBins h + h.underflow + h.overflow = (h.data.length : Int) ∧
      h.data.length = ([[1, 1, 11 / 2], [11, -3]].map List.length).sum :=
  ⟨by decide, by norm_num,
    C1_counters_add_up_to_samples "Title" 10 (1 / 2) (21 / 2) (by decide) (by norm_num)
      [[1, 1, 11 / 2], [11, -3]]⟩

/-- C2: for every title, every `nBins >= 0` and every `lowBin`, `highBin`,
`NewHistogram` returns a histogram whose `Bins` has exactly `nBins` entries, all
zero, with `underflow = 0`, `overflow = 0`, empty `data`, and with the title,
`nBins`, `lowBin` and `highBin` stored as given. -/
theorem C2_NewHistogram_is_empty (title : String) (nBins : Int) (lowBin highBin : ℚ)
    (hn : 0 ≤ nBins) :
    ((NewHistogram title nBins lowBin highBin).Bins.length : Int) = nBins ∧
    (∀ c ∈ (NewHistogram title nBins lowBin highBin).Bins, c = 0) ∧
    sumBins (NewHistogram title nBins lowBin highBin) = 0 ∧
    (NewHistogram title nBins lowBin highBin).underflow = 0 ∧
    (NewHistogram title nBins lowBin highBin).overflow = 0 ∧
    (NewHistogram title nBins lowBin highBin).data = [] ∧
    (NewHistogram title nBins lowBin highBin).Title = title ∧
    (NewHistogram title nBins lowBin highBin).nBins = nBins ∧
    (NewHistogram title nBins lowBin highBin).lowBin = lowBin ∧
    (NewHistogram title nBins lowBin highBin).highBin = highBin := by
  refine ⟨NewHistogram_wellFormed title nBins lowBin highBin hn, ?_, ?_,
    rfl, rfl, rfl, rfl, rfl, rfl, rfl⟩
  · intro c hc
    rw [NewHistogram_Bins] at hc
    exact List.eq_of_mem_replicate hc
  · simp [sumBins, NewHistogram_Bins]

/-- C2, witness: the histogram `main` builds. -/
theorem C2_NewHistogram_is_empty_witness :
    (0 : Int) ≤ 10 ∧
    ((NewHistogram "Title" 10 (1 / 2) (21 / 2)).Bins.length : Int) = 10 ∧
    (∀ c ∈ (NewHistogram "Title" 10 (1 / 2) (21 / 2)).Bins, c = 0) ∧
    sumBins (NewHistogram "Title" 10 (1 / 2) (21 / 2)) = 0 ∧
    (NewHistogram "Title" 10 (1 / 2) (21 / 2)).underflow = 0 ∧
    (NewHistogram "Title" 10 (1 / 2) (21 / 2)).overflow = 0 ∧
    (NewHistogram "Title" 10 (1 / 2) (21 / 2)).data = [] ∧
    (NewHistogram "Title" 10 (1 / 2) (21 / 2)).Title = "Title" ∧
    (NewHistogram "Title" 10 (1 / 2) (21 / 2)).nBins = 10 ∧
    (NewHistogram "Title" 10 (1 / 2) (21 / 2)).lowBin = 1 / 2 ∧
    (NewHistogram "Title" 10 (1 / 2) (21 / 2)).highBin = 21 / 2 :=
  ⟨by decide, C2_NewHistogram_is_empty "Title" 10 (1 / 2) (21 / 2) (by decide)⟩

/-- C7: for every histogram state `h` and every two value lists `a` and `b`,
`Fill(a...)` followed by `Fill(b...)` gives exactly what the single call
`Fill((a ++ b)...)` gives on `h`: the same state in every field, or the same
fault; on a histogram built by `NewHistogram` both give a state. -/
theorem C7_Fill_twice_is_Fill_concatenated (h : Histogram) (a b : List ℚ) :
    ((Fill h a >>= fun h1 => Fill h1 b) = Fill h (a ++ b)) ∧
    (∀ (title : String) (n : Nat) (lowBin highBin : ℚ),
      ∃ h1 h2, Fill (NewHistogram title (n : Int) lowBin highBin) a = .ok h1 ∧
        Fill h1 b = .ok h2 ∧
        Fill (NewHistogram title (n : Int) lowBin highBin) (a ++ b) = .ok h2) := by
  have hcat : ∀ g : Histogram, (Fill g a >>= fun h1 => Fill h1 b) = Fill g (a ++ b) := by
    intro g
    simp [Fill, List.foldlM_append]
  refine ⟨hcat h, ?_⟩
  intro title n lowBin highBin
  obtain ⟨h1, e1, wf1, _⟩ := Fill_total (NewHistogram title (n : Int) lowBin highBin)
    (NewHistogram_wellFormed _ _ _ _ (Int.natCast_nonneg n)) a
  obtain ⟨h2, e2, _⟩ := Fill_total h1 wf1 b
  refine ⟨h1, h2, e1, e2, ?_⟩
  rw [← hcat, e1]
  exact e2

/-- C8: for every histogram holding `n >= 10` samples, whatever its other fields,
`Percentiles` returns exactly 10 values, the entry number `i + 1` (`i = 0..9`)
being the element at zero-based index `n*(i+1)/10 - 1` of the samples sorted
ascending; for the samples `1, 2, ..., 100` it returns `[10, 20, ..., 100]`. -/
theorem C8_Percentiles_nearest_rank (h : Histogram) (hn : 10 ≤ h.data.length) :
    (∃ ps h2 sorted, Percentiles h = .ok (ps, h2) ∧
      List.Sorted (· ≤ ·) sorted ∧ sorted.Perm h.data ∧ ps.length = 10 ∧
      ∀ i : Fin 10, ∃ x, ps[i.val]? = some x ∧
        sorted[h.data.length * (i.val + 1) / 10 - 1]? = some x) ∧
    (∀ g : Histogram, ∃ g2, Percentiles { g with data := oneToHundred }
      = .ok ([10, 20, 30, 40, 50, 60, 70, 80, 90, 100], g2)) := by
  constructor
  · have hlen : (sortFloat64s h.data).length = h.data.length := by
      simp [sortFloat64s]
    refine ⟨_, _, sortFloat64s h.data, Percentiles_eq h hn, List.sorted_insertionSort _ _,
      List.perm_insertionSort _ _, by simp, ?_⟩
    intro i
    obtain ⟨_, hlt⟩ := percentile_index h.data.length i.val hn i.isLt
    refine ⟨(sortFloat64s h.data).getD (h.data.length * (i.val + 1) / 10 - 1) 0, ?_, ?_⟩
    · simp [List.getElem?_map, List.getElem?_range, i.isLt]
    · have hlt2 : h.data.length * (i.val + 1) / 10 - 1 < (sortFloat64s h.data).length := by
        rw [hlen]
        exact hlt
      simp [List.getElem?_eq_getElem hlt2]
  · intro g
    have hsorted : List.Sorted (· ≤ ·) oneToHundred := by
      unfold oneToHundred
      rw [List.Sorted, List.pairwise_map]
      refine (List.pairwise_lt_range 100).imp ?_
      intro a b hab
      have : (a : ℚ) < (b : ℚ) := by exact_mod_cast hab
      linarith
    have hsort : sortFloat64s oneToHundred = oneToHundred := hsorted.insertionSort_eq
    have hlen : oneToHundred.length = 100 := by simp [oneToHundred]
    have hget : ∀ k : Nat, k < 100 → oneToHundred[k]? = some ((k : ℚ) + 1) := by
      intro k hk
      simp [oneToHundred, List.getElem?_map, List.getElem?_range, hk]
    refine ⟨{ g with data := oneToHundred }, ?_⟩
    rw [Percentiles_eq _ (by show 10 ≤ oneToHundred.length; rw [hlen]; decide)]
    show Except.ok (_, _) = Except.ok (_, _)
    simp only [hsort, hlen]
    have hr : List.range 10 = [0, 1, 2, 3, 4, 5, 6, 7, 8, 9] := by decide
    rw [hr]
    simp only [List.map_cons, List.map_nil]
    norm_num [hget]

/-- C8, witness: ten samples. -/
theorem C8_Percentiles_nearest_rank_witness :
    10 ≤ tenSamples.data.length ∧
    (∃ ps h2 sorted, Percentiles tenSamples = .ok (ps, h2) ∧
      List.Sorted (· ≤ ·) sorted ∧ sorted.Perm tenSamples.data ∧ ps.length = 10 ∧
      ∀ i : Fin 10, ∃ x, ps[i.val]? = some x ∧
        sorted[tenSamples.data.length * (i.val + 1) / 10 - 1]? = some x) ∧
    (∀ g : Histogram, ∃ g2, Percentiles { g with data := oneToHundred }
      = .ok ([10, 20, 30, 40, 50, 60, 70, 80, 90, 100], g2)) :=
  ⟨by decide, C8_Percentiles_nearest_rank tenSamples (by decide)⟩

/-- C9, as stated, fails: on a histogram filled with zero values `Percentiles` does
index the empty sample sequence out of bounds, at index `-1`, and stops with that
fault; no other kind of failure exists in the program. -/
theorem C9_Percentiles_empty_counterexample :
    ∃ h, Fill (NewHistogram "Title" 10 (1 / 2) (21 / 2)) [] = .ok h ∧ h.data = [] ∧
      Percentiles h = .error (Fault.indexOutOfRange (-1) 0) :=
  ⟨NewHistogram "Title" 10 (1 / 2) (21 / 2), rfl, rfl, rfl⟩

/-- C9, amended: on every histogram built by `NewHistogram` and filled with zero
values, `Percentiles` returns no percentiles: the index computed for the first one
is `-1`, outside the bounds of the empty sample sequence, and the call stops with
that out-of-bounds fault. -/
theorem C9_Percentiles_empty_faults (title : String) (nBins : Int) (lowBin highBin : ℚ) :
    ∃ h, Fill (NewHistogram title nBins lowBin highBin) [] = .ok h ∧ h.data = [] ∧
      Int.tdiv ((h.data.length : Int) * (0 + 1)) 10 - 1 = -1 ∧
      Percentiles h = .error (Fault.indexOutOfRange (-1) 0) := by
  refine ⟨NewHistogram title nBins lowBin highBin, rfl, rfl, ?_, ?_⟩
  · simp [NewHistogram]
  · simp [Percentiles, NewHistogram, sortFloat64s, percentilesLoop, indexData]

/-- C10: for every histogram with `nBins > 0` and every index `i`, `BinCenter(i)`
equals `lowBin + (i + 1/2) * (highBin - lowBin) / nBins`, the midpoint of the two
edges `lowBin + i*w` and `lowBin + (i+1)*w` of bin `i`; with ten bins over
`[1/2, 21/2)`, `BinCenter(0) = 1` and `BinCenter(9) = 10`. -/
theorem C10_BinCenter_is_midpoint (h : Histogram) (_hn : 0 < h.nBins) (i : Int) :
    BinCenter h i = h.lowBin + ((i : ℚ) + 1 / 2) * (h.highBin - h.lowBin) / (h.nBins : ℚ) ∧
    BinCenter h i
      = ((h.lowBin + (i : ℚ) * binWidth h) + (h.lowBin + ((i : ℚ) + 1) * binWidth h)) / 2 ∧
    BinCenter (NewHistogram "Title" 10 (1 / 2) (21 / 2)) 0 = 1 ∧
    BinCenter (NewHistogram "Title" 10 (1 / 2) (21 / 2)) 9 = 10 := by
  refine ⟨?_, ?_, ?_, ?_⟩
  · unfold BinCenter
    ring
  · unfold BinCenter binWidth
    ring
  · norm_num [BinCenter, NewHistogram]
  · norm_num [BinCenter, NewHistogram]

/-- C10, witness: the histogram `main` builds, at index 4. -/
theorem C10_BinCenter_is_midpoint_witness :
    (0 : Int) < (NewHistogram "Title" 10 (1 / 2) (21 / 2)).nBins ∧
    BinCenter (NewHistogram "Title" 10 (1 / 2) (21 / 2)) 4
      = (NewHistogram "Title" 10 (1 / 2) (21 / 2)).lowBin + (((4 : Int) : ℚ) + 1 / 2)
        * ((NewHistogram "Title" 10 (1 / 2) (21 / 2)).highBin
          - (NewHistogram "Title" 10 (1 / 2) (21 / 2)).lowBin)
        / ((NewHistogram "Title" 10 (1 / 2) (21 / 2)).nBins : ℚ) ∧
    BinCenter (NewHistogram "Title" 10 (1 / 2) (21 / 2)) 4
      = (((NewHistogram "Title" 10 (1 / 2) (21 / 2)).lowBin
            + ((4 : Int) : ℚ) * binWidth (NewHistogram "Title" 10 (1 / 2) (21 / 2)))
          + ((NewHistogram "Title" 10 (1 / 2) (21 / 2)).lowBin
            + (((4 : Int) : ℚ) + 1) * binWidth (NewHistogram "Title" 10 (1 / 2) (21 / 2)))) / 2 ∧
    BinCenter (NewHistogram "Title" 10 (1 / 2) (21 / 2)) 0 = 1 ∧
    BinCenter (NewHistogram "Title" 10 (1 / 2) (21 / 2)) 9 = 10 :=
  ⟨by decide, C10_BinCenter_is_midpoint (NewHistogram "Title" 10 (1 / 2) (21 / 2)) (by decide) 4⟩

/-- C11: the entries total of `PrintStats` is the sum of the bin counts only: for
every histogram reached from `NewHistogram` by `Fill` calls it equals
`len(data) - underflow - overflow`; for ten bins over `[1/2, 21/2)` filled with
`1, 1, 11/2, 11, -3` the bins are `[2,0,0,0,0,1,0,0,0,0]` and the total is 3, with
`underflow` 1 and `overflow` 1. -/
theorem C11_entries_total_excludes_outliers (title : String) (nBins : Int)
    (lowBin highBin : ℚ) (calls : List (List ℚ)) :
    (∃ h, calls.foldlM Fill (NewHistogram title nBins lowBin highBin) = .ok h ∧
      printStatsEntries h = sumBins h ∧
      printStatsEntries h = (h.data.length : Int) - h.underflow - h.overflow) ∧
    (∃ h, Fill (NewHistogram "Title" 10 (1 / 2) (21 / 2)) exampleValues = .ok h ∧
      h.Bins = [2, 0, 0, 0, 0, 1, 0, 0, 0, 0] ∧ printStatsEntries h = 3 ∧
      h.underflow = 1 ∧ h.overflow = 1 ∧ h.data.length = 5) := by
  constructor
  · obtain ⟨h, e, _, _, d, s⟩ :=
      Fill_calls_closed _ (NewHistogram_binsFit title nBins lowBin highBin) calls
    have hs : sumBins (NewHistogram title nBins lowBin highBin) = 0 := by
      simp [sumBins, NewHistogram_Bins]
    have d2 : h.data = calls.flatten := by simpa [NewHistogram] using d
    refine ⟨h, e, printStatsEntries_eq_sumBins h, ?_⟩
    rw [printStatsEntries_eq_sumBins, d2]
    rw [hs] at s
    simp only [NewHistogram] at s
    omega
  · exact ⟨_, Fill_exampleValues, rfl, by decide, rfl, rfl, rfl⟩

/-- C12: for every table whose rows all have more than `column` fields,
`parseContents` returns, in row order, exactly the parsed values of the rows whose
field at `column` parses; the other rows contribute nothing, so the length of the
result is the number of parseable rows and at most the number of rows. -/
theorem C12_parseContents_skips_unparseable (parseFloat : String → Option ℚ)
    (contents : List (List String)) (column : Nat)
    (hrows : ∀ row ∈ contents, column < row.length) :
    ∃ data, parseContents parseFloat contents (column : Int) = .ok data ∧
      data = contents.filterMap (fun row => (row[column]?).bind parseFloat) ∧
      data.length
        = (contents.filter (fun row => ((row[column]?).bind parseFloat).isSome)).length ∧
      data.length ≤ contents.length := by
  refine ⟨_, ?_, rfl, ?_, ?_⟩
  · have hloop := parseContents_loop parseFloat column contents hrows []
    simpa [parseContents] using hloop
  · clear hrows
    induction contents with
    | nil => rfl
    | cons row t ih =>
      cases hp : (row[column]?).bind parseFloat <;>
        simp [List.filterMap_cons, List.filter_cons, hp, ih]
  · exact List.length_filterMap_le _ _

/-- C12, witness: three rows read at column 1, the middle one not a number. -/
theorem C12_parseContents_skips_unparseable_witness :
    (∀ row ∈ sampleContents, 1 < row.length) ∧
    ∃ data, parseContents sampleParseFloat sampleContents ((1 : Nat) : Int) = .ok data ∧
      data = sampleContents.filterMap (fun row => (row[1]?).bind sampleParseFloat) ∧
      data.length = (sampleContents.filter
        (fun row => ((row[1]?).bind sampleParseFloat).isSome)).length ∧
      data.length ≤ sampleContents.length :=
  ⟨by decide,
    C12_parseContents_skips_unparseable sampleParseFloat sampleContents 1 (by decide)⟩

/-- C13: for every `width >= 0` and every `fill >= 0`, the text `line` returns is
the label followed by exactly `width` cells, the first `min(fill + 1, width)` of
them block glyphs and the others blanks; with width 40 a count of 0 still paints
one cell and every count of 40 or more fills all 40 cells. -/
theorem C13_line_bar_cells (sprintf : ℚ → String) (width fill : Nat) (label : ℚ) :
    line sprintf (width : Int) (fill : Int) label
      = sprintf label
        ++ String.join (barCells (min (fill + 1) width) (width - min (fill + 1) width)) ∧
    (barCells (min (fill + 1) width) (width - min (fill + 1) width)).length = width ∧
    line sprintf 40 0 label = sprintf label ++ String.join (barCells 1 39) ∧
    (∀ more : Nat, line sprintf 40 ((40 + more : Nat) : Int) label
      = sprintf label ++ String.join (barCells 40 0)) := by
  refine ⟨line_eq sprintf width fill label, ?_, ?_, ?_⟩
  · simp only [barCells, List.length_append, List.length_replicate]
    omega
  · exact line_eq sprintf 40 0 label
  · intro more
    have h := line_eq sprintf 40 (40 + more) label
    have hmin : min (40 + more + 1) 40 = 40 := by omega
    rw [hmin] at h
    exact h

/-- C14: for every histogram state and every list of values on which `Fill` runs to
its end, `Title`, `nBins`, `lowBin` and `highBin` are unchanged, `len(Bins)` is
unchanged, `data` is the old `data` followed by the values in order, and every
bin count, `underflow` and `overflow` is at least what it was; on every histogram
reached from `NewHistogram` by `Fill` calls, `Fill` does run to its end. -/
theorem C14_Fill_frame_and_monotone (h h2 : Histogram) (vs : List ℚ)
    (hok : Fill h vs = .ok h2) :
    h2.Title = h.Title ∧ h2.nBins = h.nBins ∧ h2.lowBin = h.lowBin ∧ h2.highBin = h.highBin ∧
    h2.Bins.length = h.Bins.length ∧
    h2.data = h.data ++ vs ∧
    List.Forall₂ (· ≤ ·) h.Bins h2.Bins ∧
    h.underflow ≤ h2.underflow ∧ h.overflow ≤ h2.overflow ∧
    (∀ (title : String) (nBins : Int) (lowBin highBin : ℚ) (calls : List (List ℚ)),
      ∃ g g2, calls.foldlM Fill (NewHistogram title nBins lowBin highBin) = .ok g ∧
        Fill g vs = .ok g2) := by
  obtain ⟨⟨c1, c2, c3, c4⟩, d, b, u, o⟩ := Fill_frame h h2 vs hok
  refine ⟨c1, c2, c3, c4, b.length_eq.symm, d, b, u, o, ?_⟩
  intro title nBins lowBin highBin calls
  obtain ⟨g, e, fit, _⟩ :=
    Fill_calls_closed _ (NewHistogram_binsFit title nBins lowBin highBin) calls
  obtain ⟨g2, e2, _⟩ := Fill_closed g fit vs
  exact ⟨g, g2, e, e2⟩

/-- C14, witness: the histogram of `main` filled with `1, 1, 11/2, 11, -3`. -/
theorem C14_Fill_frame_and_monotone_witness :
    Fill (NewHistogram "Title" 10 (1 / 2) (21 / 2)) exampleValues
      = .ok (mainHistogram exampleValues [2, 0, 0, 0, 0, 1, 0, 0, 0, 0] 1 1) ∧
    ((mainHistogram exampleValues [2, 0, 0, 0, 0, 1, 0, 0, 0, 0] 1 1).Title
        = (NewHistogram "Title" 10 (1 / 2) (21 / 2)).Title ∧
      (mainHistogram exampleValues [2, 0, 0, 0, 0, 1, 0, 0, 0, 0] 1 1).nBins
        = (NewHistogram "Title" 10 (1 / 2) (21 / 2)).nBins ∧
      (mainHistogram exampleValues [2, 0, 0, 0, 0, 1, 0, 0, 0, 0] 1 1).lowBin
        = (NewHistogram "Title" 10 (1 / 2) (21 / 2)).lowBin ∧
      (mainHistogram exampleValues [2, 0, 0, 0, 0, 1, 0, 0, 0, 0] 1 1).highBin
        = (NewHistogram "Title" 10 (1 / 2) (21 / 2)).highBin ∧
      (mainHistogram exampleValues [2, 0, 0, 0, 0, 1, 0, 0, 0, 0] 1 1).Bins.length
        = (NewHistogram "Title" 10 (1 / 2) (21 / 2)).Bins.length ∧
      (mainHistogram exampleValues [2, 0, 0, 0, 0, 1, 0, 0, 0, 0] 1 1).data
        = (NewHistogram "Title" 10 (1 / 2) (21 / 2)).data ++ exampleValues ∧
      List.Forall₂ (· ≤ ·) (NewHistogram "Title" 10 (1 / 2) (21 / 2)).Bins
        (mainHistogram exampleValues [2, 0, 0, 0, 0, 1, 0, 0, 0, 0] 1 1).Bins ∧
      (NewHistogram "Title" 10 (1 / 2) (21 / 2)).underflow
        ≤ (mainHistogram exampleValues [2, 0, 0, 0, 0, 1, 0, 0, 0, 0] 1 1).underflow ∧
      (NewHistogram "Title" 10 (1 / 2) (21 / 2)).overflow
        ≤ (mainHistogram exampleValues [2, 0, 0, 0, 0, 1, 0, 0, 0, 0] 1 1).overflow ∧
      (∀ (title : String) (nBins : Int) (lowBin highBin : ℚ) (calls : List (List ℚ)),
        ∃ g g2, calls.foldlM Fill (NewHistogram title nBins lowBin highBin) = .ok g ∧
          Fill g exampleValues = .ok g2)) :=
  ⟨Fill_exampleValues,
    C14_Fill_frame_and_monotone (NewHistogram "Title" 10 (1 / 2) (21 / 2))
      (mainHistogram exampleValues [2, 0, 0, 0, 0, 1, 0, 0, 0, 0] 1 1) exampleValues
      Fill_exampleValues⟩

/-- C15: for every histogram holding `n >= 10` samples, `Percentiles` changes
nothing but the order of `data`: afterwards `data` is the ascending-sorted
permutation of what it was, and `Bins`, `underflow`, `overflow`, `nBins`, `lowBin`,
`highBin` and `Title` are unchanged; a second call returns the same ten values and
leaves the state as it is. -/
theorem C15_Percentiles_only_reorders_data (h : Histogram) (hn : 10 ≤ h.data.length) :
    ∃ ps h2, Percentiles h = .ok (ps, h2) ∧
      List.Sorted (· ≤ ·) h2.data ∧ h2.data.Perm h.data ∧
      h2.Bins = h.Bins ∧ h2.underflow = h.underflow ∧ h2.overflow = h.overflow ∧
      h2.nBins = h.nBins ∧ h2.lowBin = h.lowBin ∧ h2.highBin = h.highBin ∧
      h2.Title = h.Title ∧
      Percentiles h2 = .ok (ps, h2) := by
  refine ⟨_, _, Percentiles_eq h hn, sortFloat64s_sorted _, sortFloat64s_perm _,
    rfl, rfl, rfl, rfl, rfl, rfl, rfl, ?_⟩
  have hlen : (sortFloat64s h.data).length = h.data.length := sortFloat64s_length _
  rw [Percentiles_eq _ (by show 10 ≤ (sortFloat64s h.data).length; rw [hlen]; exact hn)]
  simp only [sortFloat64s_idem, hlen]

/-- C15, witness: ten samples, not in order. -/
theorem C15_Percentiles_only_reorders_data_witness :
    10 ≤ tenSamples.data.length ∧
    ∃ ps h2, Percentiles tenSamples = .ok (ps, h2) ∧
      List.Sorted (· ≤ ·) h2.data ∧ h2.data.Perm tenSamples.data ∧
      h2.Bins = tenSamples.Bins ∧ h2.underflow = tenSamples.underflow ∧
      h2.overflow = tenSamples.overflow ∧
      h2.nBins = tenSamples.nBins ∧ h2.lowBin = tenSamples.lowBin ∧
      h2.highBin = tenSamples.highBin ∧
      h2.Title = tenSamples.Title ∧
      Percentiles h2 = .ok (ps, h2) :=
  ⟨by decide, C15_Percentiles_only_reorders_data tenSamples (by decide)⟩

/-- C16: `Percentiles` stays inside the sample sequence if and only if the number
of samples `n` is at least 10: the ten indices `n*(i+1)/10 - 1` (`i = 0..9`) all
lie in `[0, n-1]` exactly when `n >= 10`, and then the call returns; the index for
`i = 0` is `-1` exactly when `n < 10`, and then the call stops on that
out-of-bounds index. -/
theorem C16_Percentiles_in_bounds_iff_ten (h : Histogram) :
    ((∀ i : Fin 10, 0 ≤ percentileIndex (h.data.length : Int) (i.val : Int) ∧
        percentileIndex (h.data.length : Int) (i.val : Int) ≤ (h.data.length : Int) - 1)
      ↔ 10 ≤ h.data.length) ∧
    (percentileIndex (h.data.length : Int) 0 = -1 ↔ h.data.length < 10) ∧
    ((∃ r, Percentiles h = .ok r) ↔ 10 ≤ h.data.length) ∧
    (Percentiles h = .error (Fault.indexOutOfRange (-1) h.data.length)
      ↔ h.data.length < 10) := by
  refine ⟨⟨?_, ?_⟩, ?_, ⟨?_, ?_⟩, ⟨?_, ?_⟩⟩
  · intro hall
    have h0 := (hall ⟨0, by decide⟩).1
    have hz : percentileIndex (h.data.length : Int) ((0 : Nat) : Int)
        = (h.data.length : Int) / 10 - 1 := percentileIndex_zero _
    simp only at h0
    rw [hz] at h0
    omega
  · intro hn i
    obtain ⟨e, hlt⟩ := percentile_index h.data.length i.val hn i.isLt
    unfold percentileIndex
    rw [e]
    omega
  · rw [percentileIndex_zero]
    omega
  · rintro ⟨r, hr⟩
    by_contra hlt
    rw [Percentiles_short h (by omega)] at hr
    cases hr
  · intro hn
    exact ⟨_, Percentiles_eq h hn⟩
  · intro he
    by_contra hge
    rw [Percentiles_eq h (by omega)] at he
    cases he
  · exact Percentiles_short h

/-- C17: for every histogram holding `n >= 10` samples, the ten values `Percentiles`
returns are in non-decreasing order, each of them is one of the submitted samples,
and the last one is the maximum of the samples. -/
theorem C17_Percentiles_ordered_members_max (h : Histogram) (hn : 10 ≤ h.data.length) :
    ∃ ps h2, Percentiles h = .ok (ps, h2) ∧
      List.Sorted (· ≤ ·) ps ∧
      (∀ x ∈ ps, x ∈ h.data) ∧
      ∃ m, ps[9]? = some m ∧ m ∈ h.data ∧ ∀ x ∈ h.data, x ≤ m := by
  have hlen : (sortFloat64s h.data).length = h.data.length := sortFloat64s_length _
  have hs := sortFloat64s_sorted h.data
  have hp := sortFloat64s_perm h.data
  have hidx : ∀ j, j < 10 → h.data.length * (j + 1) / 10 - 1 < (sortFloat64s h.data).length := by
    intro j hj
    rw [hlen]
    exact (percentile_index h.data.length j hn hj).2
  refine ⟨_, _, Percentiles_eq h hn, ?_, ?_, ?_⟩
  · rw [List.Sorted, List.pairwise_map]
    refine (List.pairwise_lt_range 10).imp_of_mem ?_
    intro a b _ hb hab
    exact sorted_getD_mono _ hs _ _ (percentile_index_mono _ a b hab.le)
      (hidx b (List.mem_range.mp hb))
  · intro x hx
    obtain ⟨j, hj, rfl⟩ := List.mem_map.mp hx
    exact hp.subset (getD_mem _ _ (hidx j (List.mem_range.mp hj)))
  · refine ⟨(sortFloat64s h.data).getD (h.data.length * (9 + 1) / 10 - 1) 0, ?_, ?_, ?_⟩
    · simp [List.getElem?_map, List.getElem?_range]
    · exact hp.subset (getD_mem _ _ (hidx 9 (by decide)))
    · intro x hx
      have hx2 : x ∈ sortFloat64s h.data := hp.symm.subset hx
      obtain ⟨k, hk, rfl⟩ := List.getElem_of_mem hx2
      have hlast : h.data.length * (9 + 1) / 10 - 1 = h.data.length - 1 := by omega
      have hk2 : k ≤ h.data.length - 1 := by omega
      have hmono := sorted_getD_mono _ hs k (h.data.length - 1) hk2 (by omega)
      rw [hlast]
      rw [List.getD_eq_getElem?_getD, List.getElem?_eq_getElem hk] at hmono
      exact hmono

/-- C17, witness: ten samples, not in order. -/
theorem C17_Percentiles_ordered_members_max_witness :
    10 ≤ tenSamples.data.length ∧
    ∃ ps h2, Percentiles tenSamples = .ok (ps, h2) ∧
      List.Sorted (· ≤ ·) ps ∧
      (∀ x ∈ ps, x ∈ tenSamples.data) ∧
      ∃ m, ps[9]? = some m ∧ m ∈ tenSamples.data ∧ ∀ x ∈ tenSamples.data, x ≤ m :=
  ⟨by decide, C17_Percentiles_ordered_members_max tenSamples (by decide)⟩

/-- C19: the counters `Fill` produces do not depend on the order of submission.
From every state, if `Fill` runs to its end on a list of values then it does so on
every permutation of the list, with the same `Bins`, `underflow`, `overflow` and
configuration and with `data` a permutation; `Percentiles` then gives the same
outcome on both, the same ten values when there are at least ten samples.  On
every histogram reached from `NewHistogram` by `Fill` calls, `Fill` does run to its
end. -/
theorem C19_Fill_order_independent (h h1 : Histogram) (a b : List ℚ)
    (hok : Fill h a = .ok h1) (hperm : a.Perm b) :
    (∃ h2, Fill h b = .ok h2 ∧
      h2.Bins = h1.Bins ∧ h2.underflow = h1.underflow ∧ h2.overflow = h1.overflow ∧
      h2.data.Perm h1.data ∧ SameConfig h1 h2 ∧
      Percentiles h2 = Percentiles h1 ∧
      (h1.data.length < 10 ∨
        ∃ ps g, Percentiles h1 = .ok (ps, g) ∧ Percentiles h2 = .ok (ps, g))) ∧
    (∀ (title : String) (nBins : Int) (lowBin highBin : ℚ) (calls : List (List ℚ)),
      ∃ g g1, calls.foldlM Fill (NewHistogram title nBins lowBin highBin) = .ok g ∧
        Fill g a = .ok g1) := by
  constructor
  · have hina := Fill_ok_inBounds h h1 a hok
    have hinb : ∀ v ∈ b, IndexInBounds h v := fun v hv => hina v (hperm.symm.subset hv)
    obtain ⟨k1, e1, c1, l1, d1, b1, u1, o1⟩ := Fill_closed_of_inBounds h a hina
    rw [hok] at e1
    injection e1 with e1
    subst e1
    obtain ⟨h2, e2, c2, l2, d2, b2, u2, o2⟩ := Fill_closed_of_inBounds h b hinb
    have hbins : h2.Bins = h1.Bins := by
      apply List.ext_getElem?
      intro j
      rw [b2 j, b1 j, hperm.countP_eq]
    have hu : h2.underflow = h1.underflow := by rw [u2, u1, hperm.countP_eq]
    have ho : h2.overflow = h1.overflow := by rw [o2, o1, hperm.countP_eq]
    have hdata : h2.data.Perm h1.data := by
      rw [d2, d1]
      exact (hperm.symm).append_left _
    have hcfg : SameConfig h1 h2 := by
      obtain ⟨a1, a2, a3, a4⟩ := c1
      obtain ⟨g1, g2, g3, g4⟩ := c2
      exact ⟨g1.trans a1.symm, g2.trans a2.symm, g3.trans a3.symm, g4.trans a4.symm⟩
    have hpc : Percentiles h2 = Percentiles h1 :=
      Percentiles_congr h1 h2 hcfg hbins hu ho hdata
    refine ⟨h2, e2, hbins, hu, ho, hdata, hcfg, hpc, ?_⟩
    by_cases hlen : h1.data.length < 10
    · exact Or.inl hlen
    · refine Or.inr ⟨_, _, Percentiles_eq h1 (by omega), ?_⟩
      rw [hpc]
      exact Percentiles_eq h1 (by omega)
  · intro title nBins lowBin highBin calls
    obtain ⟨g, e, fit, _⟩ :=
      Fill_calls_closed _ (NewHistogram_binsFit title nBins lowBin highBin) calls
    obtain ⟨g1, e1, _⟩ := Fill_closed g fit a
    exact ⟨g, g1, e, e1⟩

/-- C19, witness: the example values and the same values in reverse order. -/
theorem C19_Fill_order_independent_witness :
    Fill (NewHistogram "Title" 10 (1 / 2) (21 / 2)) exampleValues
      = .ok (mainHistogram exampleValues [2, 0, 0, 0, 0, 1, 0, 0, 0, 0] 1 1) ∧
    exampleValues.Perm exampleValues.reverse ∧
    (∃ h2, Fill (NewHistogram "Title" 10 (1 / 2) (21 / 2)) exampleValues.reverse = .ok h2 ∧
      h2.Bins = (mainHistogram exampleValues [2, 0, 0, 0, 0, 1, 0, 0, 0, 0] 1 1).Bins ∧
      h2.underflow = (mainHistogram exampleValues [2, 0, 0, 0, 0, 1, 0, 0, 0, 0] 1 1).underflow ∧
      h2.overflow = (mainHistogram exampleValues [2, 0, 0, 0, 0, 1, 0, 0, 0, 0] 1 1).overflow ∧
      h2.data.Perm (mainHistogram exampleValues [2, 0, 0, 0, 0, 1, 0, 0, 0, 0] 1 1).data ∧
      SameConfig (mainHistogram exampleValues [2, 0, 0, 0, 0, 1, 0, 0, 0, 0] 1 1) h2 ∧
      Percentiles h2
        = Percentiles (mainHistogram exampleValues [2, 0, 0, 0, 0, 1, 0, 0, 0, 0] 1 1) ∧
      ((mainHistogram exampleValues [2, 0, 0, 0, 0, 1, 0, 0, 0, 0] 1 1).data.length < 10 ∨
        ∃ ps g,
          Percentiles (mainHistogram exampleValues [2, 0, 0, 0, 0, 1, 0, 0, 0, 0] 1 1)
            = .ok (ps, g) ∧
          Percentiles h2 = .ok (ps, g))) ∧
    (∀ (title : String) (nBins : Int) (lowBin highBin : ℚ) (calls : List (List ℚ)),
      ∃ g g1, calls.foldlM Fill (NewHistogram title nBins lowBin highBin) = .ok g ∧
        Fill g exampleValues = .ok g1) :=
  ⟨Fill_exampleValues, (List.reverse_perm exampleValues).symm,
    C19_Fill_order_independent (NewHistogram "Title" 10 (1 / 2) (21 / 2))
      (mainHistogram exampleValues [2, 0, 0, 0, 0, 1, 0, 0, 0, 0] 1 1)
      exampleValues exampleValues.reverse Fill_exampleValues
      (List.reverse_perm exampleValues).symm⟩

/-- C20: `Fill` never indexes `Bins` out of bounds.  For a histogram built by
`NewHistogram` with any integer `nBins`, zero and negative included, every sequence
of `Fill` calls runs to its end and keeps `len(Bins) = max(nBins, 0)`; a further
value goes to `underflow`, or to `overflow`, or has an index with
`0 <= binIndex < len(Bins)`, and `Fill` of it runs to its end; with `nBins <= 0`
`Bins` is empty and every value is counted as underflow or as overflow. -/
theorem C20_Fill_never_out_of_bounds (title : String) (nBins : Int) (lowBin highBin : ℚ)
    (calls : List (List ℚ)) (v : ℚ) (m : Nat) :
    (∃ h, calls.foldlM Fill (NewHistogram title nBins lowBin highBin) = .ok h ∧
      (h.Bins.length : Int) = max nBins 0 ∧
      (binIndex h v < 0 ∨ h.nBins ≤ binIndex h v ∨
        (0 ≤ binIndex h v ∧ binIndex h v < (h.Bins.length : Int))) ∧
      ∃ h2, Fill h [v] = .ok h2 ∧ h2.Bins.length = h.Bins.length) ∧
    (∃ h, calls.foldlM Fill (NewHistogram title (-(m : Int)) lowBin highBin) = .ok h ∧
      h.Bins = [] ∧
      ∃ h2, Fill h [v] = .ok h2 ∧
        (IncrementsOnlyUnderflow h h2 ∨ IncrementsOnlyOverflow h h2)) := by
  constructor
  · obtain ⟨h, e, fit, c, _⟩ :=
      Fill_calls_closed _ (NewHistogram_binsFit title nBins lowBin highBin) calls
    have hnb : h.nBins = nBins := c.2.1
    unfold BinsFit at fit
    obtain ⟨h2, e2, fit2, c2, _⟩ := fillValue_step h fit v
    unfold BinsFit at fit2
    have hnb2 : h2.nBins = h.nBins := c2.2.1
    refine ⟨h, e, ?_, ?_, h2, (Fill_singleton h v).trans e2, ?_⟩
    · rw [fit, hnb]
      omega
    · rw [fit]
      omega
    · rw [fit2, fit, hnb2]
  · obtain ⟨h, e, fit, c, _⟩ :=
      Fill_calls_closed _ (NewHistogram_binsFit title (-(m : Int)) lowBin highBin) calls
    have hnb : h.nBins = -(m : Int) := c.2.1
    unfold BinsFit at fit
    have hempty : h.Bins = [] := by
      apply List.eq_nil_of_length_eq_zero
      rw [fit, hnb]
      omega
    refine ⟨h, e, hempty, ?_⟩
    by_cases hneg : binIndex h v < 0
    · exact ⟨_, (Fill_singleton h v).trans (fillValue_of_neg h v hneg),
        Or.inl ⟨rfl, rfl, rfl⟩⟩
    · have hpos : 0 ≤ binIndex h v := not_lt.mp hneg
      have hge : h.nBins ≤ binIndex h v := by omega
      exact ⟨_, (Fill_singleton h v).trans (fillValue_of_ge h v hpos hge),
        Or.inr ⟨rfl, rfl, rfl⟩⟩

/-- C3, as stated, fails: ten bins over `[0, 1)`, bin width `1/10`.  The `float64`
written `0.3` lies in `[2/10, 3/10)`, the range of bin 2, but the machine rounds
`10 * 0.3` to `3` and `Fill` increments bin 3, not bin 2. -/
theorem C3_float_edge_counterexample :
    (NewHistogram "Title" 10 0 1).lowBin
      + ((2 : Nat) : ℚ) * binWidth (NewHistogram "Title" 10 0 1) ≤ float03 ∧
    float03 < (NewHistogram "Title" 10 0 1).lowBin
      + (((2 : Nat) : ℚ) + 1) * binWidth (NewHistogram "Title" 10 0 1) ∧
    quotientF64 (NewHistogram "Title" 10 0 1) float03 = F64.fin 3 ∧
    ∃ h2, FillF64 amd64OutOfRange (NewHistogram "Title" 10 0 1) [float03] = .ok h2 ∧
      IncrementsOnlyBin (NewHistogram "Title" 10 0 1) h2 3 ∧
      ¬ IncrementsOnlyBin (NewHistogram "Title" 10 0 1) h2 2 := by
  have hidx : binIndexF64 amd64OutOfRange (NewHistogram "Title" 10 0 1) float03
      = ((3 : Nat) : Int) := by
    have ht : truncToInt 3 = ((3 : Nat) : Int) :=
      truncToInt_eq_of_mem 3 3 (by decide) (by norm_num) (by norm_num)
    rw [binIndexF64_of_fin _ _ _ 3 quotientF64_float03 (by rw [ht]; decide)
      (by rw [ht]; decide), ht]
  obtain ⟨h2, e, inc, _⟩ := FillF64_counts_in_bin amd64OutOfRange
    (NewHistogram "Title" 10 0 1) (NewHistogram_wellFormed _ _ _ _ (by decide)) float03 3
    hidx (by decide)
  refine ⟨by norm_num [NewHistogram, binWidth, float03],
    by norm_num [NewHistogram, binWidth, float03], quotientF64_float03, h2, e, inc, ?_⟩
  exact not_incrementsOnlyBin_of_other _ _ 3 2 (by decide) inc

/-- C3, amended: on a histogram with `0 < nBins < 2^63`, `lowBin < highBin` and
`nBins` bins, for every index `i < nBins`: a value `v` with
`lowBin + i*w <= v < lowBin + (i+1)*w`, `w = (highBin - lowBin) / nBins`, whose
`float64` quotient is computed without rounding error, is counted by `Fill` in
`Bins[i]` and nowhere else; so is, in general, every value whose quotient as the
machine computes it lies in `[i, i+1)`; and `v = lowBin` is counted in bin 0. -/
theorem C3_Fill_value_in_bin_range_exact (oor : F64 → Int) (h : Histogram)
    (hwf : WellFormed h) (hn : 0 < h.nBins) (hint : h.nBins < 2 ^ 63)
    (hr : h.lowBin < h.highBin) (i : Nat) (hi : (i : Int) < h.nBins)
    (v : ℚ) (hex : QuotientExact h v)
    (h1 : h.lowBin + (i : ℚ) * binWidth h ≤ v)
    (h2 : v < h.lowBin + ((i : ℚ) + 1) * binWidth h)
    (u q : ℚ) (hq : quotientF64 h u = F64.fin q) (hq1 : (i : ℚ) ≤ q) (hq2 : q < (i : ℚ) + 1) :
    (∃ h2, FillF64 oor h [v] = .ok h2 ∧ IncrementsOnlyBin h h2 i) ∧
    (∃ h2, FillF64 oor h [u] = .ok h2 ∧ IncrementsOnlyBin h h2 i) ∧
    (∃ h2, FillF64 oor h [h.lowBin] = .ok h2 ∧ IncrementsOnlyBin h h2 0) := by
  refine ⟨?_, ?_, ?_⟩
  · have hidx : binIndexF64 oor h v = (i : Int) := by
      rw [binIndexF64_of_exact oor h v hex]
      exact binIndex_eq_of_mem h hn hr i v h1 h2
    obtain ⟨h3, e, inc, _⟩ := FillF64_counts_in_bin oor h hwf v i hidx hi
    exact ⟨h3, e, inc⟩
  · have ht : truncToInt q = (i : Int) :=
      truncToInt_eq_of_mem q i (Int.natCast_nonneg i) (by exact_mod_cast hq1)
        (by exact_mod_cast hq2)
    have hidx : binIndexF64 oor h u = (i : Int) := by
      rw [binIndexF64_of_fin oor h u q hq (by rw [ht]; omega) (by rw [ht]; omega), ht]
    obtain ⟨h3, e, inc, _⟩ := FillF64_counts_in_bin oor h hwf u i hidx hi
    exact ⟨h3, e, inc⟩
  · have hz := quotientF64_lowBin h hn hint (quotientF64_fin_divisor h u q hq)
    have ht : truncToInt 0 = ((0 : Nat) : Int) :=
      truncToInt_eq_of_mem 0 0 (by decide) (by norm_num) (by norm_num)
    have hidx : binIndexF64 oor h h.lowBin = ((0 : Nat) : Int) := by
      rw [binIndexF64_of_fin oor h h.lowBin 0 hz (by rw [ht]; decide) (by rw [ht]; decide), ht]
    obtain ⟨h3, e, inc, _⟩ :=
      FillF64_counts_in_bin oor h hwf h.lowBin 0 hidx (by simpa using hn)
    exact ⟨h3, e, inc⟩

/-- C3, amended, witness: the histogram of `main`, bin width 1; `11/2` lies in
`[1/2 + 5, 1/2 + 6)`, its quotient `5` is computed without rounding. -/
theorem C3_Fill_value_in_bin_range_exact_witness :
    WellFormed (NewHistogram "Title" 10 (1 / 2) (21 / 2)) ∧
    (0 : Int) < (NewHistogram "Title" 10 (1 / 2) (21 / 2)).nBins ∧
    (NewHistogram "Title" 10 (1 / 2) (21 / 2)).nBins < 2 ^ 63 ∧
    (NewHistogram "Title" 10 (1 / 2) (21 / 2)).lowBin < (NewHistogram "Title" 10 (1 / 2) (21 / 2)).highBin ∧
    ((5 : Nat) : Int) < (NewHistogram "Title" 10 (1 / 2) (21 / 2)).nBins ∧
    QuotientExact (NewHistogram "Title" 10 (1 / 2) (21 / 2)) (11 / 2) ∧
    (NewHistogram "Title" 10 (1 / 2) (21 / 2)).lowBin + ((5 : Nat) : ℚ) * binWidth (NewHistogram "Title" 10 (1 / 2) (21 / 2)) ≤ 11 / 2 ∧
    (11 / 2 : ℚ) < (NewHistogram "Title" 10 (1 / 2) (21 / 2)).lowBin + (((5 : Nat) : ℚ) + 1) * binWidth (NewHistogram "Title" 10 (1 / 2) (21 / 2)) ∧
    quotientF64 (NewHistogram "Title" 10 (1 / 2) (21 / 2)) (11 / 2) = F64.fin 5 ∧
    (((5 : Nat) : ℚ) ≤ 5) ∧ ((5 : ℚ) < ((5 : Nat) : ℚ) + 1) ∧
    ((∃ h2, FillF64 amd64OutOfRange (NewHistogram "Title" 10 (1 / 2) (21 / 2)) [11 / 2] = .ok h2 ∧
        IncrementsOnlyBin (NewHistogram "Title" 10 (1 / 2) (21 / 2)) h2 5) ∧
      (∃ h2, FillF64 amd64OutOfRange (NewHistogram "Title" 10 (1 / 2) (21 / 2)) [11 / 2] = .ok h2 ∧
        IncrementsOnlyBin (NewHistogram "Title" 10 (1 / 2) (21 / 2)) h2 5) ∧
      (∃ h2, FillF64 amd64OutOfRange (NewHistogram "Title" 10 (1 / 2) (21 / 2)) [(NewHistogram "Title" 10 (1 / 2) (21 / 2)).lowBin] = .ok h2 ∧
        IncrementsOnlyBin (NewHistogram "Title" 10 (1 / 2) (21 / 2)) h2 0)) :=
  ⟨NewHistogram_wellFormed _ _ _ _ (by decide), by decide, by decide,
    by norm_num [NewHistogram], by decide, quotientExact_main_eleven_halves,
    by norm_num [NewHistogram, binWidth], by norm_num [NewHistogram, binWidth],
    quotientF64_main_eleven_halves, by norm_num, by norm_num,
    C3_Fill_value_in_bin_range_exact amd64OutOfRange (NewHistogram "Title" 10 (1 / 2) (21 / 2))
      (NewHistogram_wellFormed _ _ _ _ (by decide)) (by decide) (by decide)
      (by norm_num [NewHistogram]) 5 (by decide) (11 / 2) quotientExact_main_eleven_halves
      (by norm_num [NewHistogram, binWidth]) (by norm_num [NewHistogram, binWidth])
      (11 / 2) 5 quotientF64_main_eleven_halves (by norm_num) (by norm_num)⟩

/-- C4, as stated, fails: ten bins over `[1/2, 21/2)`, bin width 1.  The value `1/4`
is below `lowBin = 1/2`; its quotient `-1/4`, computed without rounding, is
truncated to index 0, so `Fill` counts it in bin 0 and `underflow` stays 0, while
the number of submitted values below `lowBin` is 1. -/
theorem C4_underflow_below_lowBin_counterexample :
    (1 / 4 : ℚ) < (NewHistogram "Title" 10 (1 / 2) (21 / 2)).lowBin ∧
    quotientF64 (NewHistogram "Title" 10 (1 / 2) (21 / 2)) (1 / 4) = F64.fin (-(1 / 4)) ∧
    ∃ h, FillF64 amd64OutOfRange (NewHistogram "Title" 10 (1 / 2) (21 / 2)) [1 / 4] = .ok h ∧
      h.underflow = 0 ∧
      IncrementsOnlyBin (NewHistogram "Title" 10 (1 / 2) (21 / 2)) h 0 ∧
      (([1 / 4] : List ℚ).countP (fun v => decide (v < (NewHistogram "Title" 10 (1 / 2) (21 / 2)).lowBin)) : Int) = 1 ∧
      h.underflow ≠ (([1 / 4] : List ℚ).countP
        (fun v => decide (v < (NewHistogram "Title" 10 (1 / 2) (21 / 2)).lowBin)) : Int) := by
  have hcount : (([1 / 4] : List ℚ).countP
      (fun v => decide (v < (NewHistogram "Title" 10 (1 / 2) (21 / 2)).lowBin)) : Int) = 1 := by
    norm_num [NewHistogram, List.countP_cons]
  have ht : truncToInt (-(1 / 4)) = ((0 : Nat) : Int) :=
    truncToInt_eq_zero_of_neg _ (by norm_num) (by norm_num)
  have hidx : binIndexF64 amd64OutOfRange (NewHistogram "Title" 10 (1 / 2) (21 / 2)) (1 / 4) = ((0 : Nat) : Int) := by
    rw [binIndexF64_of_fin _ _ _ _ quotientF64_main_quarter (by rw [ht]; decide)
      (by rw [ht]; decide), ht]
  obtain ⟨h, e, inc, _⟩ := FillF64_counts_in_bin amd64OutOfRange (NewHistogram "Title" 10 (1 / 2) (21 / 2))
    (NewHistogram_wellFormed _ _ _ _ (by decide)) (1 / 4) 0 hidx (by decide)
  have hu : h.underflow = 0 := inc.2.2.2.1
  refine ⟨by norm_num [NewHistogram], quotientF64_main_quarter, h, e, hu, inc, hcount, ?_⟩
  rw [hu, hcount]
  decide

/-- C4, amended: for a histogram built by `NewHistogram` with `nBins > 0` and
`lowBin < highBin`, after filling any list of values whose `float64` quotients are
computed without rounding error and fit the `int`, `underflow` equals the number of
submitted values `v` with `v <= lowBin - w`, where `w = (highBin - lowBin) / nBins`;
a further `Fill(v)` of such a value increments `underflow` if and only if
`v <= lowBin - w`. -/
theorem C4_underflow_counts_width_below_exact (oor : F64 → Int) (title : String)
    (nBins : Int) (lowBin highBin : ℚ) (hn : 0 < nBins) (hr : lowBin < highBin)
    (vs : List ℚ)
    (hall : ∀ x ∈ vs, QuotientExact (NewHistogram title nBins lowBin highBin) x)
    (v : ℚ) (hv : QuotientExact (NewHistogram title nBins lowBin highBin) v) :
    ∃ h, FillF64 oor (NewHistogram title nBins lowBin highBin) vs = .ok h ∧
      h.underflow
        = (vs.countP (fun x => decide (x ≤ lowBin - (highBin - lowBin) / (nBins : ℚ))) : Int) ∧
      ∃ h2, FillF64 oor h [v] = .ok h2 ∧
        (h2.underflow = h.underflow + 1 ↔ v ≤ lowBin - (highBin - lowBin) / (nBins : ℚ)) ∧
        (h2.underflow = h.underflow ↔ lowBin - (highBin - lowBin) / (nBins : ℚ) < v) := by
  have hfit := NewHistogram_binsFit title nBins lowBin highBin
  obtain ⟨h, e, wf, c, u, _⟩ := Fill_counters (NewHistogram title nBins lowBin highBin)
    (NewHistogram_wellFormed _ _ _ _ hn.le) hn hr vs
  have eF : FillF64 oor (NewHistogram title nBins lowBin highBin) vs = .ok h := by
    rw [FillF64_eq_Fill oor _ hfit vs (fun x hx => binIndexF64_of_exact oor _ x (hall x hx)), e]
  have hw : binWidth h = (highBin - lowBin) / (nBins : ℚ) := by
    rw [binWidth_congr _ h c]
    rfl
  have hidx : binIndexF64 oor h v = binIndex h v := by
    rw [binIndexF64_congr oor _ h c v, binIndex_congr _ h c v]
    exact binIndexF64_of_exact oor _ v hv
  obtain ⟨c1, c2, c3, c4⟩ := c
  have hn2 : 0 < h.nBins := by rw [c2]; exact hn
  have hr2 : h.lowBin < h.highBin := by rw [c3, c4]; exact hr
  have hlo : h.lowBin = lowBin := c3
  obtain ⟨h2, e2, _, _, u2, _⟩ := fillValue_counters h wf hn2 hr2 v
  have e2F : FillF64 oor h [v] = .ok h2 := by
    rw [FillF64_singleton, fillValueF64_eq_fillValue oor h v hidx, e2]
  refine ⟨h, eF, ?_, h2, e2F, ?_, ?_⟩
  · rw [u]
    simp [NewHistogram, binWidth]
  · rw [u2, hw, hlo]
    by_cases hc : v ≤ lowBin - (highBin - lowBin) / (nBins : ℚ) <;> simp [hc]
  · rw [u2, hw, hlo]
    by_cases hc : v ≤ lowBin - (highBin - lowBin) / (nBins : ℚ)
    · simp [hc]
    · simp [hc, not_le.mp hc]

/-- C4, amended, witness: the histogram of `main` filled with `1, 1/4, -3`, then
with `-1/2`; every quotient is computed without rounding. -/
theorem C4_underflow_counts_width_below_exact_witness :
    (0 : Int) < 10 ∧ (1 / 2 : ℚ) < 21 / 2 ∧
    (∀ x ∈ ([1, 1 / 4, -3] : List ℚ), QuotientExact (NewHistogram "Title" 10 (1 / 2) (21 / 2)) x) ∧
    QuotientExact (NewHistogram "Title" 10 (1 / 2) (21 / 2)) (-(1 / 2)) ∧
    ∃ h, FillF64 amd64OutOfRange (NewHistogram "Title" 10 (1 / 2) (21 / 2)) [1, 1 / 4, -3] = .ok h ∧
      h.underflow = (([1, 1 / 4, -3] : List ℚ).countP
        (fun x => decide (x ≤ 1 / 2 - (21 / 2 - 1 / 2) / ((10 : Int) : ℚ))) : Int) ∧
      ∃ h2, FillF64 amd64OutOfRange h [-(1 / 2)] = .ok h2 ∧
        (h2.underflow = h.underflow + 1
          ↔ -(1 / 2) ≤ 1 / 2 - (21 / 2 - 1 / 2) / ((10 : Int) : ℚ)) ∧
        (h2.underflow = h.underflow
          ↔ 1 / 2 - (21 / 2 - 1 / 2) / ((10 : Int) : ℚ) < -(1 / 2)) :=
  ⟨by decide, by norm_num,
    by
      intro x hx
      simp only [List.mem_cons, List.mem_singleton, List.not_mem_nil, or_false] at hx
      rcases hx with rfl | rfl | rfl
      · exact quotientExact_main_one
      · exact quotientExact_main_quarter
      · exact quotientExact_main_minus_three,
    quotientExact_main_minus_half,
    C4_underflow_counts_width_below_exact amd64OutOfRange "Title" 10 (1 / 2) (21 / 2)
      (by decide) (by norm_num) [1, 1 / 4, -3]
      (by
        intro x hx
        simp only [List.mem_cons, List.mem_singleton, List.not_mem_nil, or_false] at hx
        rcases hx with rfl | rfl | rfl
        · exact quotientExact_main_one
        · exact quotientExact_main_quarter
        · exact quotientExact_main_minus_three)
      (-(1 / 2)) quotientExact_main_minus_half⟩

/-- C5, as stated, fails: three bins over `[0, 0.7)`.  For the value `highBin` itself
the machine computes the quotient `2.9999999999999996`, below 3, and `Fill`
increments the last bin, `Bins[2]`; `overflow` stays as it was. -/
theorem C5_highBin_in_last_bin_counterexample :
    (NewHistogram "Title" 3 0 float07).highBin ≤ float07 ∧
    quotientF64 (NewHistogram "Title" 3 0 float07) float07 = F64.fin (6755399441055743 / 2251799813685248) ∧
    ∃ h2, FillF64 amd64OutOfRange (NewHistogram "Title" 3 0 float07) [float07] = .ok h2 ∧
      IncrementsOnlyBin (NewHistogram "Title" 3 0 float07) h2 2 ∧
      h2.overflow = (NewHistogram "Title" 3 0 float07).overflow ∧
      ¬ IncrementsOnlyOverflow (NewHistogram "Title" 3 0 float07) h2 := by
  have ht : truncToInt (6755399441055743 / 2251799813685248) = ((2 : Nat) : Int) :=
    truncToInt_eq_of_mem _ 2 (by decide) (by norm_num) (by norm_num)
  have hidx : binIndexF64 amd64OutOfRange (NewHistogram "Title" 3 0 float07) float07 = ((2 : Nat) : Int) := by
    rw [binIndexF64_of_fin _ _ _ _ quotientF64_float07 (by rw [ht]; decide)
      (by rw [ht]; decide), ht]
  obtain ⟨h2, e, inc, _⟩ := FillF64_counts_in_bin amd64OutOfRange (NewHistogram "Title" 3 0 float07)
    (NewHistogram_wellFormed _ _ _ _ (by decide)) float07 2 hidx (by decide)
  have ho : h2.overflow = (NewHistogram "Title" 3 0 float07).overflow := inc.2.2.2.2
  refine ⟨by norm_num [NewHistogram], quotientF64_float07, h2, e, inc, ho, ?_⟩
  intro hov
  have h1 := hov.1
  rw [ho] at h1
  omega

/-- C5, amended: on a histogram with `nBins > 0`, `lowBin < highBin` and `nBins` bins,
for every value `v` whose `float64` quotient is computed without rounding error and
fits the `int`, `Fill(v)` increments `overflow`, and nothing among the bins and
`underflow`, if and only if `v >= highBin` (so `highBin` itself, when its quotient
is computed without rounding error, is counted as overflow); in general `Fill`
increments `overflow` and nothing else whenever the quotient as the machine
computes it is at least `nBins` and below `2^63`. -/
theorem C5_overflow_iff_at_least_highBin_exact (oor : F64 → Int) (h : Histogram)
    (hwf : WellFormed h) (hn : 0 < h.nBins) (hr : h.lowBin < h.highBin)
    (v : ℚ) (hex : QuotientExact h v)
    (u q : ℚ) (hq : quotientF64 h u = F64.fin q) (hq1 : (h.nBins : ℚ) ≤ q)
    (hq2 : q < (2 : ℚ) ^ 63) :
    (∃ h2, FillF64 oor h [v] = .ok h2 ∧
      (h2.overflow = h.overflow + 1 ↔ h.highBin ≤ v) ∧
      (IncrementsOnlyOverflow h h2 ↔ h.highBin ≤ v) ∧
      (h2.overflow = h.overflow ↔ v < h.highBin)) ∧
    (∃ h2, FillF64 oor h [u] = .ok h2 ∧ IncrementsOnlyOverflow h h2) := by
  constructor
  · have hF : FillF64 oor h [v] = fillValue h v := by
      rw [FillF64_singleton,
        fillValueF64_eq_fillValue oor h v (binIndexF64_of_exact oor h v hex)]
    rw [hF]
    have hw : 0 < binWidth h := by
      have hn0 : (0 : ℚ) < (h.nBins : ℚ) := by exact_mod_cast hn
      exact div_pos (sub_pos.mpr hr) hn0
    rcases fillValue_cases h hwf hn hr v with ⟨hv, e⟩ | ⟨hv, e⟩ | ⟨_, hv2, k, c, _, _, _, e⟩
    · have hnot : ¬ h.highBin ≤ v := by
        intro h3
        linarith
      refine ⟨_, e, ?_, ?_, ?_⟩
      · simp [hnot]
      · simp [IncrementsOnlyOverflow, hnot]
      · simp [not_le.mp hnot]
    · refine ⟨_, e, ?_, ?_, ?_⟩
      · simp [hv]
      · simp [IncrementsOnlyOverflow, hv]
      · simp [hv]
    · refine ⟨_, e, ?_, ?_, ?_⟩
      · simp [not_le.mpr hv2]
      · simp [IncrementsOnlyOverflow, not_le.mpr hv2]
      · simp [hv2]
  · have hn0 : (0 : ℚ) < (h.nBins : ℚ) := by exact_mod_cast hn
    have hq0 : 0 ≤ q := le_trans hn0.le hq1
    have hge : h.nBins ≤ truncToInt q := (le_truncToInt_iff q h.nBins hn).mpr hq1
    have hlt : truncToInt q < (2 : Int) ^ 63 := by
      unfold truncToInt
      rw [if_pos hq0, Int.floor_lt]
      push_cast
      exact hq2
    have hidx : binIndexF64 oor h u = truncToInt q :=
      binIndexF64_of_fin oor h u q hq (by omega) hlt
    exact ⟨_, (FillF64_singleton oor h u).trans
      (fillValueF64_of_ge oor h u (by rw [hidx]; omega) (by rw [hidx]; exact hge)),
      rfl, rfl, rfl⟩

/-- C5, amended, witness: the histogram of `main`; `21/2 = highBin` has the quotient
`10` and `11` the quotient `21/2`, both computed without rounding. -/
theorem C5_overflow_iff_at_least_highBin_exact_witness :
    WellFormed (NewHistogram "Title" 10 (1 / 2) (21 / 2)) ∧
    (0 : Int) < (NewHistogram "Title" 10 (1 / 2) (21 / 2)).nBins ∧
    (NewHistogram "Title" 10 (1 / 2) (21 / 2)).lowBin < (NewHistogram "Title" 10 (1 / 2) (21 / 2)).highBin ∧
    QuotientExact (NewHistogram "Title" 10 (1 / 2) (21 / 2)) (21 / 2) ∧
    quotientF64 (NewHistogram "Title" 10 (1 / 2) (21 / 2)) 11 = F64.fin (21 / 2) ∧
    (((NewHistogram "Title" 10 (1 / 2) (21 / 2)).nBins : ℚ) ≤ 21 / 2) ∧ ((21 / 2 : ℚ) < (2 : ℚ) ^ 63) ∧
    ((∃ h2, FillF64 amd64OutOfRange (NewHistogram "Title" 10 (1 / 2) (21 / 2)) [21 / 2] = .ok h2 ∧
      (h2.overflow = (NewHistogram "Title" 10 (1 / 2) (21 / 2)).overflow + 1 ↔ (NewHistogram "Title" 10 (1 / 2) (21 / 2)).highBin ≤ 21 / 2) ∧
      (IncrementsOnlyOverflow (NewHistogram "Title" 10 (1 / 2) (21 / 2)) h2 ↔ (NewHistogram "Title" 10 (1 / 2) (21 / 2)).highBin ≤ 21 / 2) ∧
      (h2.overflow = (NewHistogram "Title" 10 (1 / 2) (21 / 2)).overflow ↔ 21 / 2 < (NewHistogram "Title" 10 (1 / 2) (21 / 2)).highBin)) ∧
    (∃ h2, FillF64 amd64OutOfRange (NewHistogram "Title" 10 (1 / 2) (21 / 2)) [11] = .ok h2 ∧ IncrementsOnlyOverflow (NewHistogram "Title" 10 (1 / 2) (21 / 2)) h2)) :=
  ⟨NewHistogram_wellFormed _ _ _ _ (by decide), by decide, by norm_num [NewHistogram],
    quotientExact_main_highBin, quotientF64_main_eleven, by norm_num [NewHistogram],
    by norm_num,
    C5_overflow_iff_at_least_highBin_exact amd64OutOfRange (NewHistogram "Title" 10 (1 / 2) (21 / 2))
      (NewHistogram_wellFormed _ _ _ _ (by decide)) (by decide) (by norm_num [NewHistogram])
      (21 / 2) quotientExact_main_highBin 11 (21 / 2) quotientF64_main_eleven
      (by norm_num [NewHistogram]) (by norm_num)⟩

/-- C6, as stated, fails: the histogram of `main`, bin width 1.  The `float64`
`-0.49999999999999994` lies in `(lowBin - w, lowBin) = (-1/2, 1/2)`, but the machine
rounds its difference to `lowBin` to `-1`, the quotient is `-1`, and `Fill`
increments `underflow`, not bin 0. -/
theorem C6_float_edge_counterexample :
    (NewHistogram "Title" 10 (1 / 2) (21 / 2)).lowBin - binWidth (NewHistogram "Title" 10 (1 / 2) (21 / 2)) < floatAboveMinusHalf ∧
    floatAboveMinusHalf < (NewHistogram "Title" 10 (1 / 2) (21 / 2)).lowBin ∧
    quotientF64 (NewHistogram "Title" 10 (1 / 2) (21 / 2)) floatAboveMinusHalf = F64.fin (-1) ∧
    ∃ h2, FillF64 amd64OutOfRange (NewHistogram "Title" 10 (1 / 2) (21 / 2)) [floatAboveMinusHalf] = .ok h2 ∧
      IncrementsOnlyUnderflow (NewHistogram "Title" 10 (1 / 2) (21 / 2)) h2 ∧
      ¬ IncrementsOnlyBin (NewHistogram "Title" 10 (1 / 2) (21 / 2)) h2 0 := by
  have hidx : binIndexF64 amd64OutOfRange (NewHistogram "Title" 10 (1 / 2) (21 / 2)) floatAboveMinusHalf = -1 := by
    rw [binIndexF64_of_fin _ _ _ _ quotientF64_floatAboveMinusHalf
      (by rw [truncToInt_neg_one]; decide) (by rw [truncToInt_neg_one]; decide),
      truncToInt_neg_one]
  refine ⟨by norm_num [NewHistogram, binWidth, floatAboveMinusHalf],
    by norm_num [NewHistogram, floatAboveMinusHalf], quotientF64_floatAboveMinusHalf,
    _, (FillF64_singleton _ _ _).trans
      (fillValueF64_of_neg _ _ _ (by rw [hidx]; decide)), ⟨rfl, rfl, rfl⟩, ?_⟩
  intro hbin
  have hu := hbin.2.2.2.1
  simp at hu

/-- C6, amended: the bin index of `Fill` is the `float64` quotient truncated toward
zero, not floored.  On a histogram with `nBins > 0`, `lowBin < highBin`, `nBins` bins
and bin width `w`: a value whose quotient as the machine computes it lies in
`(-1, 0)` has floor `-1` but index `0` and is counted in bin 0, not in `underflow`;
a value whose quotient is at most `-1` (and not below `-2^63`) increments
`underflow` and nothing else; where the quotient is computed without rounding
error these are the values with `lowBin - w < v < lowBin` and with
`v <= lowBin - w`. -/
theorem C6_index_truncates_toward_zero_exact (oor : F64 → Int) (h : Histogram)
    (hwf : WellFormed h) (hn : 0 < h.nBins) (hr : h.lowBin < h.highBin)
    (v q : ℚ) (hq : quotientF64 h v = F64.fin q) (hq1 : -1 < q) (hq2 : q < 0)
    (u p : ℚ) (hp : quotientF64 h u = F64.fin p) (hp1 : p ≤ -1)
    (hp2 : -(2 : ℚ) ^ 63 ≤ p)
    (x : ℚ) (hx : QuotientExact h x) (hx1 : h.lowBin - binWidth h < x) (hx2 : x < h.lowBin)
    (y : ℚ) (hy : QuotientExact h y) (hy1 : y ≤ h.lowBin - binWidth h) :
    (⌊q⌋ = -1 ∧ binIndexF64 oor h v = 0 ∧
      ∃ h2, FillF64 oor h [v] = .ok h2 ∧ IncrementsOnlyBin h h2 0) ∧
    (binIndexF64 oor h u < 0 ∧
      ∃ h2, FillF64 oor h [u] = .ok h2 ∧ IncrementsOnlyUnderflow h h2) ∧
    (∃ h2, FillF64 oor h [x] = .ok h2 ∧ IncrementsOnlyBin h h2 0) ∧
    (∃ h2, FillF64 oor h [y] = .ok h2 ∧ IncrementsOnlyUnderflow h h2) := by
  refine ⟨⟨?_, ?_, ?_⟩, ⟨?_, ?_⟩, ?_, ?_⟩
  · rw [Int.floor_eq_iff]
    constructor
    · push_cast
      linarith
    · push_cast
      linarith
  · rw [binIndexF64_of_fin oor h v q hq
      (by rw [truncToInt_eq_zero_of_neg q hq1 hq2]; decide)
      (by rw [truncToInt_eq_zero_of_neg q hq1 hq2]; decide)]
    exact truncToInt_eq_zero_of_neg q hq1 hq2
  · have hidx : binIndexF64 oor h v = ((0 : Nat) : Int) := by
      rw [binIndexF64_of_fin oor h v q hq
        (by rw [truncToInt_eq_zero_of_neg q hq1 hq2]; decide)
        (by rw [truncToInt_eq_zero_of_neg q hq1 hq2]; decide)]
      exact truncToInt_eq_zero_of_neg q hq1 hq2
    obtain ⟨h2, e, inc, _⟩ := FillF64_counts_in_bin oor h hwf v 0 hidx (by simpa using hn)
    exact ⟨h2, e, inc⟩
  · have hb := truncToInt_bounds p (-(2 : Int) ^ 63) 0 (by decide) le_rfl
      (by push_cast; exact hp2) (by push_cast; linarith)
    rw [binIndexF64_of_fin oor h u p hp hb.1 (by omega)]
    exact (truncToInt_neg_iff p).mpr hp1
  · have hb := truncToInt_bounds p (-(2 : Int) ^ 63) 0 (by decide) le_rfl
      (by push_cast; exact hp2) (by push_cast; linarith)
    have hidx : binIndexF64 oor h u = truncToInt p :=
      binIndexF64_of_fin oor h u p hp hb.1 (by omega)
    exact ⟨_, (FillF64_singleton oor h u).trans
      (fillValueF64_of_neg oor h u (by rw [hidx]; exact (truncToInt_neg_iff p).mpr hp1)),
      rfl, rfl, rfl⟩
  · have hidx : binIndexF64 oor h x = ((0 : Nat) : Int) := by
      rw [binIndexF64_of_exact oor h x hx]
      exact binIndex_eq_zero_of_below h hn hr x hx1 hx2
    obtain ⟨h2, e, inc, _⟩ := FillF64_counts_in_bin oor h hwf x 0 hidx (by simpa using hn)
    exact ⟨h2, e, inc⟩
  · have hneg : binIndexF64 oor h y < 0 := by
      rw [binIndexF64_of_exact oor h y hy]
      exact (binIndex_neg_iff h hn hr y).mpr hy1
    exact ⟨_, (FillF64_singleton oor h y).trans (fillValueF64_of_neg oor h y hneg),
      rfl, rfl, rfl⟩

/-- C6, amended, witness: the histogram of `main`, bin width 1; `1/4` has the
quotient `-1/4` and `-1` the quotient `-3/2`, both computed without rounding. -/
theorem C6_index_truncates_toward_zero_exact_witness :
    WellFormed (NewHistogram "Title" 10 (1 / 2) (21 / 2)) ∧
    (0 : Int) < (NewHistogram "Title" 10 (1 / 2) (21 / 2)).nBins ∧
    (NewHistogram "Title" 10 (1 / 2) (21 / 2)).lowBin < (NewHistogram "Title" 10 (1 / 2) (21 / 2)).highBin ∧
    quotientF64 (NewHistogram "Title" 10 (1 / 2) (21 / 2)) (1 / 4) = F64.fin (-(1 / 4)) ∧
    ((-1 : ℚ) < -(1 / 4)) ∧ ((-(1 / 4) : ℚ) < 0) ∧
    quotientF64 (NewHistogram "Title" 10 (1 / 2) (21 / 2)) (-1) = F64.fin (-(3 / 2)) ∧
    ((-(3 / 2) : ℚ) ≤ -1) ∧ (-(2 : ℚ) ^ 63 ≤ -(3 / 2)) ∧
    QuotientExact (NewHistogram "Title" 10 (1 / 2) (21 / 2)) (1 / 4) ∧
    (NewHistogram "Title" 10 (1 / 2) (21 / 2)).lowBin - binWidth (NewHistogram "Title" 10 (1 / 2) (21 / 2)) < 1 / 4 ∧
    (1 / 4 : ℚ) < (NewHistogram "Title" 10 (1 / 2) (21 / 2)).lowBin ∧
    QuotientExact (NewHistogram "Title" 10 (1 / 2) (21 / 2)) (-1) ∧
    (-1 : ℚ) ≤ (NewHistogram "Title" 10 (1 / 2) (21 / 2)).lowBin - binWidth (NewHistogram "Title" 10 (1 / 2) (21 / 2)) ∧
    ((⌊(-(1 / 4) : ℚ)⌋ = -1 ∧ binIndexF64 amd64OutOfRange (NewHistogram "Title" 10 (1 / 2) (21 / 2)) (1 / 4) = 0 ∧
        ∃ h2, FillF64 amd64OutOfRange (NewHistogram "Title" 10 (1 / 2) (21 / 2)) [1 / 4] = .ok h2 ∧ IncrementsOnlyBin (NewHistogram "Title" 10 (1 / 2) (21 / 2)) h2 0) ∧
      (binIndexF64 amd64OutOfRange (NewHistogram "Title" 10 (1 / 2) (21 / 2)) (-1) < 0 ∧
        ∃ h2, FillF64 amd64OutOfRange (NewHistogram "Title" 10 (1 / 2) (21 / 2)) [-1] = .ok h2 ∧ IncrementsOnlyUnderflow (NewHistogram "Title" 10 (1 / 2) (21 / 2)) h2) ∧
      (∃ h2, FillF64 amd64OutOfRange (NewHistogram "Title" 10 (1 / 2) (21 / 2)) [1 / 4] = .ok h2 ∧ IncrementsOnlyBin (NewHistogram "Title" 10 (1 / 2) (21 / 2)) h2 0) ∧
      (∃ h2, FillF64 amd64OutOfRange (NewHistogram "Title" 10 (1 / 2) (21 / 2)) [-1] = .ok h2 ∧
        IncrementsOnlyUnderflow (NewHistogram "Title" 10 (1 / 2) (21 / 2)) h2)) :=
  ⟨NewHistogram_wellFormed _ _ _ _ (by decide), by decide, by norm_num [NewHistogram],
    quotientF64_main_quarter, by norm_num, by norm_num,
    quotientF64_main_minus_one, by norm_num, by norm_num,
    quotientExact_main_quarter, by norm_num [NewHistogram, binWidth],
    by norm_num [NewHistogram],
    quotientExact_main_minus_one, by norm_num [NewHistogram, binWidth],
    C6_index_truncates_toward_zero_exact amd64OutOfRange (NewHistogram "Title" 10 (1 / 2) (21 / 2))
      (NewHistogram_wellFormed _ _ _ _ (by decide)) (by decide) (by norm_num [NewHistogram])
      (1 / 4) (-(1 / 4)) quotientF64_main_quarter (by norm_num) (by norm_num)
      (-1) (-(3 / 2)) quotientF64_main_minus_one (by norm_num) (by norm_num)
      (1 / 4) quotientExact_main_quarter (by norm_num [NewHistogram, binWidth])
      (by norm_num [NewHistogram])
      (-1) quotientExact_main_minus_one (by norm_num [NewHistogram, binWidth])⟩

/-- C18, as stated, fails: four bins over `[10^16, 10^16 + 4)`, bin width 1.  The exact
midpoint of bin 1 is `10^16 + 3/2`, but the machine's `BinCenter(1)` is
`10^16 + 2`, the lower edge of bin 2, and `Fill` of it increments bin 2, not bin 1. -/
theorem C18_BinCenter_rounds_into_next_bin_counterexample :
    BinCenter (NewHistogram "Title" 4 10000000000000000 10000000000000004) 1 = 10000000000000000 + 3 / 2 ∧
    BinCenterF64 (NewHistogram "Title" 4 10000000000000000 10000000000000004) 1 = F64.fin 10000000000000002 ∧
    quotientF64 (NewHistogram "Title" 4 10000000000000000 10000000000000004) 10000000000000002 = F64.fin 2 ∧
    ∃ h2, FillF64 amd64OutOfRange (NewHistogram "Title" 4 10000000000000000 10000000000000004) [10000000000000002] = .ok h2 ∧
      IncrementsOnlyBin (NewHistogram "Title" 4 10000000000000000 10000000000000004) h2 2 ∧
      ¬ IncrementsOnlyBin (NewHistogram "Title" 4 10000000000000000 10000000000000004) h2 1 := by
  have ht : truncToInt 2 = ((2 : Nat) : Int) :=
    truncToInt_eq_of_mem 2 2 (by decide) (by norm_num) (by norm_num)
  have hidx : binIndexF64 amd64OutOfRange (NewHistogram "Title" 4 10000000000000000 10000000000000004) 10000000000000002 = ((2 : Nat) : Int) := by
    rw [binIndexF64_of_fin _ _ _ 2 quotientF64_wide (by rw [ht]; decide)
      (by rw [ht]; decide), ht]
  obtain ⟨h2, e, inc, _⟩ := FillF64_counts_in_bin amd64OutOfRange (NewHistogram "Title" 4 10000000000000000 10000000000000004)
    (NewHistogram_wellFormed _ _ _ _ (by decide)) 10000000000000002 2 hidx (by decide)
  refine ⟨by norm_num [BinCenter, NewHistogram], BinCenterF64_wide, quotientF64_wide,
    h2, e, inc, ?_⟩
  exact not_incrementsOnlyBin_of_other _ _ 2 1 (by decide) inc

/-- C18, amended: on a histogram with `nBins > 0`, `lowBin < highBin` and `nBins` bins,
for every index `i < nBins` for which the machine computes `BinCenter(i)` without
rounding error, and the quotient of that value without rounding error, the value
`BinCenter(i)` returns is counted by `Fill` in bin `i` itself: `Bins[i]` goes up by
one and `underflow`, `overflow` and the other bins stay as they were. -/
theorem C18_BinCenter_fills_own_bin_exact (oor : F64 → Int) (h : Histogram)
    (hwf : WellFormed h) (hn : 0 < h.nBins) (hr : h.lowBin < h.highBin) (i : Nat)
    (hi : (i : Int) < h.nBins)
    (hc : BinCenterF64 h (i : Int) = F64.fin (BinCenter h (i : Int)))
    (hq : QuotientExact h (BinCenter h (i : Int))) :
    ∃ c h2, BinCenterF64 h (i : Int) = F64.fin c ∧ binIndexF64 oor h c = (i : Int) ∧
      FillF64 oor h [c] = .ok h2 ∧ IncrementsOnlyBin h h2 i := by
  have hn0 : (0 : ℚ) < (h.nBins : ℚ) := by exact_mod_cast hn
  have hw : 0 < binWidth h := div_pos (sub_pos.mpr hr) hn0
  have hcenter : BinCenter h (i : Int) = h.lowBin + ((i : ℚ) + 1 / 2) * binWidth h := by
    unfold BinCenter binWidth
    push_cast
    ring
  have hidx : binIndexF64 oor h (BinCenter h (i : Int)) = (i : Int) := by
    rw [binIndexF64_of_exact oor h _ hq]
    apply binIndex_eq_of_mem h hn hr i
    · rw [hcenter]
      nlinarith
    · rw [hcenter]
      nlinarith
  obtain ⟨h2, e, inc, _⟩ := FillF64_counts_in_bin oor h hwf _ i hidx hi
  exact ⟨BinCenter h (i : Int), h2, hc, hidx, e, inc⟩

/-- C18, amended, witness: the histogram of `main` and its bin 9, whose centre `10`
and whose quotient `19/2` are computed without rounding. -/
theorem C18_BinCenter_fills_own_bin_exact_witness :
    WellFormed (NewHistogram "Title" 10 (1 / 2) (21 / 2)) ∧
    (0 : Int) < (NewHistogram "Title" 10 (1 / 2) (21 / 2)).nBins ∧
    (NewHistogram "Title" 10 (1 / 2) (21 / 2)).lowBin < (NewHistogram "Title" 10 (1 / 2) (21 / 2)).highBin ∧
    ((9 : Nat) : Int) < (NewHistogram "Title" 10 (1 / 2) (21 / 2)).nBins ∧
    BinCenterF64 (NewHistogram "Title" 10 (1 / 2) (21 / 2)) ((9 : Nat) : Int) = F64.fin (BinCenter (NewHistogram "Title" 10 (1 / 2) (21 / 2)) ((9 : Nat) : Int)) ∧
    QuotientExact (NewHistogram "Title" 10 (1 / 2) (21 / 2)) (BinCenter (NewHistogram "Title" 10 (1 / 2) (21 / 2)) ((9 : Nat) : Int)) ∧
    ∃ c h2, BinCenterF64 (NewHistogram "Title" 10 (1 / 2) (21 / 2)) ((9 : Nat) : Int) = F64.fin c ∧
      binIndexF64 amd64OutOfRange (NewHistogram "Title" 10 (1 / 2) (21 / 2)) c = ((9 : Nat) : Int) ∧
      FillF64 amd64OutOfRange (NewHistogram "Title" 10 (1 / 2) (21 / 2)) [c] = .ok h2 ∧ IncrementsOnlyBin (NewHistogram "Title" 10 (1 / 2) (21 / 2)) h2 9 := by
  have hb : BinCenter (NewHistogram "Title" 10 (1 / 2) (21 / 2)) ((9 : Nat) : Int) = 10 := by
    norm_num [BinCenter, NewHistogram]
  have hc : BinCenterF64 (NewHistogram "Title" 10 (1 / 2) (21 / 2)) ((9 : Nat) : Int)
      = F64.fin (BinCenter (NewHistogram "Title" 10 (1 / 2) (21 / 2)) ((9 : Nat) : Int)) := by
    rw [hb]
    exact BinCenterF64_main_nine
  have hq : QuotientExact (NewHistogram "Title" 10 (1 / 2) (21 / 2)) (BinCenter (NewHistogram "Title" 10 (1 / 2) (21 / 2)) ((9 : Nat) : Int)) := by
    rw [hb]
    exact quotientExact_main_ten
  exact ⟨NewHistogram_wellFormed _ _ _ _ (by decide), by decide, by norm_num [NewHistogram],
    by decide, hc, hq,
    C18_BinCenter_fills_own_bin_exact amd64OutOfRange (NewHistogram "Title" 10 (1 / 2) (21 / 2))
      (NewHistogram_wellFormed _ _ _ _ (by decide)) (by decide) (by norm_num [NewHistogram])
      9 (by decide) hc hq⟩

end Gohisto
